import Mathlib

/-!
# Theta sketches: read contract, compaction, ingest and union

A shallow embedding of `theta_sketch_experimental_impl.hpp` and `tuple_union.hpp`.

* Machine integers are natural numbers; narrowing conversions that the source performs are
  written out with an explicit `% 2 ^ w`.
* A `double` is modelled by `Dbl`: the exact rational value of a finite double, or one of the
  special values. Every conversion and division rounds to the nearest 53-bit significand, ties to
  even, as IEEE-754 binary64 does.
* Collaborators whose code is not part of the two source files (the hash function, the seed
  fingerprint, `theta_constants::MAX_THETA`, the load-factor threshold, the bound estimator) are
  parameters of the definitions that use them.
-/

namespace datasketches

/-! ## Double precision arithmetic -/

/-- Nearest integer to `y`, a tie going to the even neighbour. -/
def roundHalfEven (y : ℚ) : ℤ :=
  if y - ⌊y⌋ < 1 / 2 then ⌊y⌋
  else if 1 / 2 < y - ⌊y⌋ then ⌊y⌋ + 1
  else if ⌊y⌋ % 2 = 0 then ⌊y⌋ else ⌊y⌋ + 1

/-- The value of the binary64 number nearest to `x` (53-bit significand, round to nearest, ties to
even). The exponent range is not limited: every magnitude the sketch code produces lies between
`2 ^ (-64)` and `2 ^ 96`, far inside the normal range of a `double`. -/
def roundToDouble (x : ℚ) : ℚ :=
  if x = 0 then 0
  else roundHalfEven (x / (2 : ℚ) ^ (Int.log 2 |x| - 52)) * (2 : ℚ) ^ (Int.log 2 |x| - 52)

/-- A `double` as the sketch code can produce it: a finite value, `+inf` (a positive count divided
by `0.0`) or `NaN` (`0 / 0.0`). No negative value occurs in the code. -/
inductive Dbl where
  | fin (q : ℚ)
  | inf
  | nan
  deriving DecidableEq

namespace Dbl

/-- Conversion `static_cast<double>(n)` of an unsigned integer (also the implicit conversion of an
integer operand or return value to `double`). -/
def ofNat (n : Nat) : Dbl := fin (roundToDouble n)

/-- Division of two non-negative doubles. -/
def div : Dbl → Dbl → Dbl
  | fin a, fin b => if b = 0 then (if a = 0 then nan else inf) else fin (roundToDouble (a / b))
  | fin _, inf => fin 0
  | inf, fin _ => inf
  | inf, inf => nan
  | nan, _ => nan
  | _, nan => nan

end Dbl

/-! ## Data model -/

/-- Entry table of an Update Sketch or of a Union Engine, with the field names the source uses
(`table_.theta_`, `table_.entries_`, ...). `entries_` is the slot array of `1 << lg_cur_size_`
slots; a slot whose key is the sentinel `0` is empty. `rf_` is the base-2 logarithm of the growth
factor (the source prints `1 << table_.rf_`). -/
structure theta_update_sketch_base (EN : Type) where
  lg_cur_size_ : Nat
  lg_nom_size_ : Nat
  rf_ : Nat
  theta_ : Nat
  seed_ : Nat
  is_empty_ : Bool
  num_entries_ : Nat
  entries_ : List EN

/-- Modelled from the spec: the iterator class is declared outside the two source files. The range
`iterator(entries, size, 0) .. iterator(nullptr, 0, size)` is the sequence of occupied slots among
the first `size` slots, in slot order (spec 4.1 "iteration"); a slot is occupied when its key is
not the sentinel `0` (spec 3, 9). `EK` is the key extractor. -/
def theta_iterator {EN : Type} (EK : EN → Nat) (entries : List EN) (size : Nat) : List EN :=
  (entries.take size).filter (fun e => EK e != 0)

/-- Mutable sketch: it owns one entry table of 64-bit hashes. -/
structure update_theta_sketch_experimental where
  table_ : theta_update_sketch_base Nat

/-- Immutable snapshot, with the fields the two constructors initialise. -/
structure compact_theta_sketch_experimental where
  is_empty_ : Bool
  is_ordered_ : Bool
  seed_hash_ : Nat
  theta_ : Nat
  entries_ : List Nat

/-- The abstract base class: a sketch is an Update Sketch or a Compact Sketch, and every virtual
call dispatches on the variant. -/
inductive theta_sketch_experimental where
  | update (s : update_theta_sketch_experimental)
  | compact (s : compact_theta_sketch_experimental)

namespace update_theta_sketch_experimental

def is_empty (s : update_theta_sketch_experimental) : Bool := s.table_.is_empty_

def is_ordered (_s : update_theta_sketch_experimental) : Bool := false

def get_theta64 (s : update_theta_sketch_experimental) : Nat := s.table_.theta_

/-- Source: `return table_.num_entries_;` with return type `uint32_t`. -/
def get_num_retained (s : update_theta_sketch_experimental) : Nat :=
  s.table_.num_entries_ % 2 ^ 32

/-- The seed fingerprint; `compute_seed_hash` is the external 16-bit fingerprint function. -/
def get_seed_hash (compute_seed_hash : Nat → Nat) (s : update_theta_sketch_experimental) : Nat :=
  compute_seed_hash s.table_.seed_

def get_lg_k (s : update_theta_sketch_experimental) : Nat := s.table_.lg_nom_size_

def get_rf (s : update_theta_sketch_experimental) : Nat := s.table_.rf_

/-- The range `begin() .. end()`. -/
def iter (s : update_theta_sketch_experimental) : List Nat :=
  theta_iterator id s.table_.entries_ (2 ^ s.table_.lg_cur_size_)

end update_theta_sketch_experimental

namespace compact_theta_sketch_experimental

def is_empty (s : compact_theta_sketch_experimental) : Bool := s.is_empty_

def is_ordered (s : compact_theta_sketch_experimental) : Bool := s.is_ordered_

def get_theta64 (s : compact_theta_sketch_experimental) : Nat := s.theta_

/-- The result `entries_.size()` is narrowed to `uint32_t`. -/
def get_num_retained (s : compact_theta_sketch_experimental) : Nat := s.entries_.length % 2 ^ 32

def get_seed_hash (s : compact_theta_sketch_experimental) : Nat := s.seed_hash_

/-- The range `begin() .. end()`. -/
def iter (s : compact_theta_sketch_experimental) : List Nat :=
  theta_iterator id s.entries_ s.entries_.length

end compact_theta_sketch_experimental

namespace theta_sketch_experimental

def is_empty : theta_sketch_experimental → Bool
  | update s => s.is_empty
  | compact s => s.is_empty

def is_ordered : theta_sketch_experimental → Bool
  | update s => s.is_ordered
  | compact s => s.is_ordered

def get_theta64 : theta_sketch_experimental → Nat
  | update s => s.get_theta64
  | compact s => s.get_theta64

def get_num_retained : theta_sketch_experimental → Nat
  | update s => s.get_num_retained
  | compact s => s.get_num_retained

def get_seed_hash (compute_seed_hash : Nat → Nat) : theta_sketch_experimental → Nat
  | update s => s.get_seed_hash compute_seed_hash
  | compact s => s.get_seed_hash

/-- The range `begin() .. end()` of the sketch. -/
def iter : theta_sketch_experimental → List Nat
  | update s => s.iter
  | compact s => s.iter

/-- Source: `get_theta64() < theta_constants::MAX_THETA && !is_empty()`. -/
def is_estimation_mode (MAX_THETA : Nat) (s : theta_sketch_experimental) : Bool :=
  decide (s.get_theta64 < MAX_THETA) && !s.is_empty

/-- Source: `static_cast<double>(get_theta64()) / theta_constants::MAX_THETA`; the integer
constant is converted to `double` for the division. -/
def get_theta (MAX_THETA : Nat) (s : theta_sketch_experimental) : Dbl :=
  Dbl.div (Dbl.ofNat s.get_theta64) (Dbl.ofNat MAX_THETA)

/-- Source: `get_num_retained() / get_theta()`. -/
def get_estimate (MAX_THETA : Nat) (s : theta_sketch_experimental) : Dbl :=
  Dbl.div (Dbl.ofNat s.get_num_retained) (s.get_theta MAX_THETA)

/-- The parameter `bound` stands for `binomial_bounds::get_lower_bound`, which is external and may
throw. -/
def get_lower_bound (MAX_THETA : Nat) (bound : Nat → Dbl → Nat → Except String Dbl)
    (s : theta_sketch_experimental) (num_std_devs : Nat) : Except String Dbl :=
  if !s.is_estimation_mode MAX_THETA then .ok (Dbl.ofNat s.get_num_retained)
  else bound s.get_num_retained (s.get_theta MAX_THETA) num_std_devs

/-- The parameter `bound` stands for `binomial_bounds::get_upper_bound`, which is external and may
throw. -/
def get_upper_bound (MAX_THETA : Nat) (bound : Nat → Dbl → Nat → Except String Dbl)
    (s : theta_sketch_experimental) (num_std_devs : Nat) : Except String Dbl :=
  if !s.is_estimation_mode MAX_THETA then .ok (Dbl.ofNat s.get_num_retained)
  else bound s.get_num_retained (s.get_theta MAX_THETA) num_std_devs

end theta_sketch_experimental

/-- The constructor `compact_theta_sketch_experimental(const Base& other, bool ordered)`.
`std::sort` on 64-bit keys is specified by its result, the ascending rearrangement; insertion sort
computes it. -/
def compact_theta_sketch_experimental.ofBase (compute_seed_hash : Nat → Nat)
    (other : theta_sketch_experimental) (ordered : Bool) : compact_theta_sketch_experimental :=
  { is_empty_ := other.is_empty
    is_ordered_ := other.is_ordered
    seed_hash_ := other.get_seed_hash compute_seed_hash
    theta_ := other.get_theta64
    entries_ :=
      if ordered && !other.is_ordered then other.iter.insertionSort (fun a b => a ≤ b)
      else other.iter }

/-- Source: `update_theta_sketch_experimental::compact(bool ordered)`. -/
def update_theta_sketch_experimental.compact (compute_seed_hash : Nat → Nat)
    (s : update_theta_sketch_experimental) (ordered : Bool) : compact_theta_sketch_experimental :=
  compact_theta_sketch_experimental.ofBase compute_seed_hash (.update s) ordered

/-! ## Entry table operations

The member functions of the entry table are called by the source files but defined outside them;
they follow sections 4.1 and 4.3 of the specification. The specification leaves the probing order
and the load factor open: a new entry goes to the first free slot, and the load-factor threshold
is the parameter `threshold`, from the number of slots to the largest admissible occupancy.
`blank` is the content of a slot that holds no entry (its key is `0`). -/

namespace theta_update_sketch_base

/-- Modelled from the spec: `hash_and_screen` is defined outside the source files. Spec 4.1: hash
the bytes with the seeded hash function; a hash at or above the current theta is discarded, which
the caller sees as the sentinel `0`. An ingest that reaches the table clears the empty flag. -/
def hash_and_screen {EN : Type} (compute_hash : List Nat → Nat → Nat)
    (t : theta_update_sketch_base EN) (data : List Nat) : theta_update_sketch_base EN × Nat :=
  ({ t with is_empty_ := false },
    if t.theta_ ≤ compute_hash data t.seed_ then 0 else compute_hash data t.seed_)

/-- Modelled from the spec: `find` is defined outside the source files. Spec 4.1: probe the table
for an existing entry with equal hash. The result is the slot of that entry and `true`, or the
first free slot and `false`. -/
def find {EN : Type} (EK : EN → Nat) (t : theta_update_sketch_base EN) (key : Nat) : Nat × Bool :=
  if t.entries_.findIdx (fun e => EK e == key) < t.entries_.length then
    (t.entries_.findIdx (fun e => EK e == key), true)
  else (t.entries_.findIdx (fun e => EK e == 0), false)

/-- Modelled from the spec: `resize` is defined outside the source files. Spec 4.1: growth by the
configured growth factor, up to a capacity ceiling of twice the nominal capacity; the occupied
slots are carried over. -/
def resize {EN : Type} (EK : EN → Nat) (blank : EN) (t : theta_update_sketch_base EN) :
    theta_update_sketch_base EN :=
  { t with
    lg_cur_size_ := min (t.lg_cur_size_ + t.rf_) (t.lg_nom_size_ + 1)
    entries_ := theta_iterator EK t.entries_ (2 ^ t.lg_cur_size_) ++
      List.replicate (2 ^ min (t.lg_cur_size_ + t.rf_) (t.lg_nom_size_ + 1) -
        (theta_iterator EK t.entries_ (2 ^ t.lg_cur_size_)).length) blank }

/-- The `k`-th smallest key among the occupied slots of a slot array, counting from zero as a
selection routine does: exactly `k` occupied keys are smaller. -/
def kth_smallest {EN : Type} (EK : EN → Nat) (entries : List EN) (size k : Nat) : Option Nat :=
  (((theta_iterator EK entries size).map EK).insertionSort (fun a b => a ≤ b))[k]?

/-- Modelled from the spec: `rebuild` is defined outside the source files. Spec 4.1: select the
k-th smallest hash among all occupied entries (k = nominal capacity), set theta to that value,
discard every entry with hash at or above the new theta, and keep the table at nominal capacity:
the selection counts from zero, so that the k entries below the new theta stay. The number of
slots stays as it is. With no more than k occupied slots there is nothing to select and the
table is left alone. -/
def rebuild {EN : Type} (EK : EN → Nat) (blank : EN) (t : theta_update_sketch_base EN) :
    theta_update_sketch_base EN :=
  match kth_smallest EK t.entries_ (2 ^ t.lg_cur_size_) (2 ^ t.lg_nom_size_) with
  | none => t
  | some th =>
    { t with
      theta_ := th
      num_entries_ :=
        ((theta_iterator EK t.entries_ (2 ^ t.lg_cur_size_)).filter (fun e => EK e < th)).length
      entries_ :=
        (theta_iterator EK t.entries_ (2 ^ t.lg_cur_size_)).filter (fun e => EK e < th) ++
        List.replicate (2 ^ t.lg_cur_size_ -
          ((theta_iterator EK t.entries_ (2 ^ t.lg_cur_size_)).filter
            (fun e => EK e < th)).length) blank }

/-- Modelled from the spec: `insert` is defined outside the source files. Spec 4.1: store the new
entry in the slot that `find` returned; an insertion that pushes occupancy above the load-factor
threshold of the current capacity triggers growth while the capacity is below the ceiling of
twice the nominal capacity, and a rebuild once the ceiling is reached. -/
def insert {EN : Type} (EK : EN → Nat) (blank : EN) (threshold : Nat → Nat)
    (t : theta_update_sketch_base EN) (idx : Nat) (entry : EN) : theta_update_sketch_base EN :=
  if threshold (2 ^ t.lg_cur_size_) < t.num_entries_ + 1 then
    if t.lg_cur_size_ < t.lg_nom_size_ + 1 then
      resize EK blank
        { t with entries_ := t.entries_.set idx entry, num_entries_ := t.num_entries_ + 1 }
    else
      rebuild EK blank
        { t with entries_ := t.entries_.set idx entry, num_entries_ := t.num_entries_ + 1 }
  else { t with entries_ := t.entries_.set idx entry, num_entries_ := t.num_entries_ + 1 }

/-- Modelled from the spec: `trim` of the table is defined outside the source files. Spec 4.1:
shrink the capacity to the smallest power of two still respecting the load factor for the
current occupancy; theta and the entries are not changed. -/
def trim {EN : Type} (EK : EN → Nat) (blank : EN) (threshold : Nat → Nat)
    (t : theta_update_sketch_base EN) : theta_update_sketch_base EN :=
  { t with
    lg_cur_size_ :=
      ((List.range t.lg_cur_size_).find? (fun l => t.num_entries_ ≤ threshold (2 ^ l))).getD
        t.lg_cur_size_
    entries_ := theta_iterator EK t.entries_ (2 ^ t.lg_cur_size_) ++
      List.replicate
        (2 ^ ((List.range t.lg_cur_size_).find?
            (fun l => t.num_entries_ ≤ threshold (2 ^ l))).getD t.lg_cur_size_ -
          (theta_iterator EK t.entries_ (2 ^ t.lg_cur_size_)).length) blank }

/-- Class invariant of the entry table (spec 3): the slot array has `1 << lg_cur_size_` slots, the
occupied count equals the number of occupied slots, at least one slot is free, the retained keys
are pairwise distinct, and every retained key is below theta. -/
def wf {EN : Type} (EK : EN → Nat) (t : theta_update_sketch_base EN) : Prop :=
  t.entries_.length = 2 ^ t.lg_cur_size_ ∧
  t.num_entries_ = (theta_iterator EK t.entries_ (2 ^ t.lg_cur_size_)).length ∧
  t.num_entries_ < 2 ^ t.lg_cur_size_ ∧
  ((theta_iterator EK t.entries_ (2 ^ t.lg_cur_size_)).map EK).Nodup ∧
  ∀ e ∈ theta_iterator EK t.entries_ (2 ^ t.lg_cur_size_), EK e < t.theta_

end theta_update_sketch_base

/-! ## Update Sketch: mutating calls -/

/-- The object representation of an unsigned integer of `len` bytes, least significant byte
first. -/
def le_bytes (n len : Nat) : List Nat :=
  (List.range len).map (fun i => n / 256 ^ i % 256)

/-- Conversion `static_cast` to a signed integer of `w` bits: the value with the same low `w` bits
in two's complement. -/
def to_signed (w : Nat) (v : Int) : Int :=
  if v % 2 ^ w < 2 ^ (w - 1) then v % 2 ^ w else v % 2 ^ w - 2 ^ w

namespace update_theta_sketch_experimental

/-- Source: `update(const void* data, size_t length)`; `data` is the byte string. The table of
hashes has key extractor `id` and blank slot `0`. -/
def update (compute_hash : List Nat → Nat → Nat) (threshold : Nat → Nat)
    (s : update_theta_sketch_experimental) (data : List Nat) : update_theta_sketch_experimental :=
  if (s.table_.hash_and_screen compute_hash data).2 = 0 then
    { table_ := (s.table_.hash_and_screen compute_hash data).1 }
  else if !((s.table_.hash_and_screen compute_hash data).1.find id
      (s.table_.hash_and_screen compute_hash data).2).2 then
    { table_ := (s.table_.hash_and_screen compute_hash data).1.insert id 0 threshold
        ((s.table_.hash_and_screen compute_hash data).1.find id
          (s.table_.hash_and_screen compute_hash data).2).1
        (s.table_.hash_and_screen compute_hash data).2 }
  else { table_ := (s.table_.hash_and_screen compute_hash data).1 }

/-- Source: `update(int64_t value)`, that is `update(&value, sizeof(value))`. -/
def update_int64 (compute_hash : List Nat → Nat → Nat) (threshold : Nat → Nat)
    (s : update_theta_sketch_experimental) (value : Int) : update_theta_sketch_experimental :=
  s.update compute_hash threshold (le_bytes (value % 2 ^ 64).toNat 8)

/-- Source: `update(uint64_t value)`, that is `update(&value, sizeof(value))`. -/
def update_uint64 (compute_hash : List Nat → Nat → Nat) (threshold : Nat → Nat)
    (s : update_theta_sketch_experimental) (value : Nat) : update_theta_sketch_experimental :=
  s.update compute_hash threshold (le_bytes (value % 2 ^ 64) 8)

/-- Source: `update(int32_t value)`, that is `update(static_cast<int64_t>(value))`. -/
def update_int32 (compute_hash : List Nat → Nat → Nat) (threshold : Nat → Nat)
    (s : update_theta_sketch_experimental) (value : Int) : update_theta_sketch_experimental :=
  s.update_int64 compute_hash threshold (to_signed 64 value)

/-- Source: `update(uint32_t value)`, that is `update(static_cast<int32_t>(value))`. -/
def update_uint32 (compute_hash : List Nat → Nat → Nat) (threshold : Nat → Nat)
    (s : update_theta_sketch_experimental) (value : Nat) : update_theta_sketch_experimental :=
  s.update_int32 compute_hash threshold (to_signed 32 value)

/-- Source: `update(int16_t value)`, that is `update(static_cast<int64_t>(value))`. -/
def update_int16 (compute_hash : List Nat → Nat → Nat) (threshold : Nat → Nat)
    (s : update_theta_sketch_experimental) (value : Int) : update_theta_sketch_experimental :=
  s.update_int64 compute_hash threshold (to_signed 64 value)

/-- Source: `update(uint16_t value)`, that is `update(static_cast<int16_t>(value))`. -/
def update_uint16 (compute_hash : List Nat → Nat → Nat) (threshold : Nat → Nat)
    (s : update_theta_sketch_experimental) (value : Nat) : update_theta_sketch_experimental :=
  s.update_int16 compute_hash threshold (to_signed 16 value)

/-- Source: `update(int8_t value)`, that is `update(static_cast<int64_t>(value))`. -/
def update_int8 (compute_hash : List Nat → Nat → Nat) (threshold : Nat → Nat)
    (s : update_theta_sketch_experimental) (value : Int) : update_theta_sketch_experimental :=
  s.update_int64 compute_hash threshold (to_signed 64 value)

/-- Source: `update(uint8_t value)`, that is `update(static_cast<int8_t>(value))`. -/
def update_uint8 (compute_hash : List Nat → Nat → Nat) (threshold : Nat → Nat)
    (s : update_theta_sketch_experimental) (value : Nat) : update_theta_sketch_experimental :=
  s.update_int8 compute_hash threshold (to_signed 8 value)

/-- Source: `update(double value)`, that is `update(canonical_double(value))`. The external
`canonical_double` maps a double of type `D` to a 64-bit integer. -/
def update_double {D : Type} (canonical_double : D → Int)
    (compute_hash : List Nat → Nat → Nat) (threshold : Nat → Nat)
    (s : update_theta_sketch_experimental) (value : D) : update_theta_sketch_experimental :=
  s.update_int64 compute_hash threshold (to_signed 64 (canonical_double value))

/-- Source: `update(float value)`, that is `update(static_cast<double>(value))`; `widen` is the
conversion from the float type `F` to the double type `D`. -/
def update_float {F D : Type} (widen : F → D) (canonical_double : D → Int)
    (compute_hash : List Nat → Nat → Nat) (threshold : Nat → Nat)
    (s : update_theta_sketch_experimental) (value : F) : update_theta_sketch_experimental :=
  s.update_double canonical_double compute_hash threshold (widen value)

/-- Source: `update(const std::string& value)`; the string is its list of bytes. -/
def update_string (compute_hash : List Nat → Nat → Nat) (threshold : Nat → Nat)
    (s : update_theta_sketch_experimental) (value : List Nat) : update_theta_sketch_experimental :=
  if value.isEmpty then s else s.update compute_hash threshold value

/-- Source: `trim()`, that is `table_.trim()`. -/
def trim (threshold : Nat → Nat) (s : update_theta_sketch_experimental) :
    update_theta_sketch_experimental :=
  { table_ := s.table_.trim id 0 threshold }

end update_theta_sketch_experimental

/-- The mutating member functions of an Update Sketch, each with its argument. `F` and `D` are
the types of `float` and `double` arguments. -/
inductive mutating_call (F D : Type) where
  | update_uint64 (value : Nat)
  | update_int64 (value : Int)
  | update_uint32 (value : Nat)
  | update_int32 (value : Int)
  | update_uint16 (value : Nat)
  | update_int16 (value : Int)
  | update_uint8 (value : Nat)
  | update_int8 (value : Int)
  | update_double (value : D)
  | update_float (value : F)
  | update_string (value : List Nat)
  | update (data : List Nat)
  | trim

/-- The state of an Update Sketch after one mutating call. -/
def update_theta_sketch_experimental.call {F D : Type} (widen : F → D)
    (canonical_double : D → Int) (compute_hash : List Nat → Nat → Nat) (threshold : Nat → Nat)
    (s : update_theta_sketch_experimental) : mutating_call F D → update_theta_sketch_experimental
  | .update_uint64 v => s.update_uint64 compute_hash threshold v
  | .update_int64 v => s.update_int64 compute_hash threshold v
  | .update_uint32 v => s.update_uint32 compute_hash threshold v
  | .update_int32 v => s.update_int32 compute_hash threshold v
  | .update_uint16 v => s.update_uint16 compute_hash threshold v
  | .update_int16 v => s.update_int16 compute_hash threshold v
  | .update_uint8 v => s.update_uint8 compute_hash threshold v
  | .update_int8 v => s.update_int8 compute_hash threshold v
  | .update_double v => s.update_double canonical_double compute_hash threshold v
  | .update_float v => s.update_float widen canonical_double compute_hash threshold v
  | .update_string v => s.update_string compute_hash threshold v
  | .update data => s.update compute_hash threshold data
  | .trim => s.trim threshold

/-! ## Union Engine -/

/-- Source: `default_union_policy::operator()`, `summary += other`. The result is the new value of
`summary`; `other` is passed by const reference. -/
def default_union_policy {S : Type} [Add S] (summary other : S) : S := summary + other

/-- Modelled from the spec: the tuple sketch classes are declared outside the source files. This is
the read surface of spec 6 that a Union Engine consumes: the flags, theta, the seed fingerprint
and the sequence of retained entries (hash and Summary). -/
structure tuple_sketch (S : Type) where
  is_empty : Bool
  is_ordered : Bool
  get_theta64 : Nat
  get_seed_hash : Nat
  entries : List (Nat × S)

/-- Modelled from the spec: `theta_union_base` is declared outside the source files. Spec 4.3: a
working table of the shape of an Update Sketch's and a running theta. -/
structure theta_union_base (EN : Type) where
  table_ : theta_update_sketch_base EN
  union_theta_ : Nat

/-- The class `tuple_union<Summary, Policy>`: its one data member is `state_`. The policy is a
parameter of the member functions. -/
structure tuple_union (S : Type) where
  state_ : theta_union_base (Nat × S)

/-- Source: `tuple_union::internal_policy::operator()`: the user policy is applied to the two
summaries and the internal entry is returned. -/
def tuple_union.internal_policy {S : Type} (policy : S → S → S)
    (internal_entry incoming_entry : Nat × S) : Nat × S :=
  (internal_entry.1, policy internal_entry.2 incoming_entry.2)

namespace theta_union_base

/-- Modelled from the spec: one step of the ingest loop of spec 4.3. An entry whose hash is at or
above the running theta `th` is skipped; otherwise the working table is probed and the entry is
merged into the existing entry by the policy, or inserted as in the ingest of 4.1, which discards
a hash at or above the theta of the table. A hash that the probe finds is in the table and so
below its theta, hence that screen only bears on a hash that is not found. -/
def ingest_entry {EN : Type} (EK : EN → Nat) (blank : EN) (threshold : Nat → Nat)
    (policy : EN → EN → EN) (th : Nat) (t : theta_update_sketch_base EN) (e : EN) :
    theta_update_sketch_base EN :=
  if th ≤ EK e then t
  else if (t.find EK (EK e)).2 then
    { t with entries_ :=
        t.entries_.set (t.find EK (EK e)).1 (policy (t.entries_.getD (t.find EK (EK e)).1 blank) e) }
  else if t.theta_ ≤ EK e then t
  else t.insert EK blank threshold (t.find EK (EK e)).1 e

/-- Modelled from the spec: `theta_union_base::update` is defined outside the source files. Spec
4.3: a seed fingerprint that does not match is a fatal contract violation; otherwise the running
theta becomes the minimum of itself and the theta of the sketch, and every retained entry of the
sketch is ingested. -/
def update {EN : Type} (EK : EN → Nat) (blank : EN) (threshold : Nat → Nat)
    (policy : EN → EN → EN) (compute_seed_hash : Nat → Nat) (u : theta_union_base EN)
    (sketch_seed_hash sketch_theta : Nat) (sketch_entries : List EN) :
    Except String (theta_union_base EN) :=
  if sketch_seed_hash ≠ compute_seed_hash u.table_.seed_ then .error "seed hash mismatch"
  else
    .ok
      { union_theta_ := min u.union_theta_ sketch_theta
        table_ :=
          sketch_entries.foldl
            (ingest_entry EK blank threshold policy (min u.union_theta_ sketch_theta)) u.table_ }

end theta_union_base

/-- Modelled from the spec: `tuple_union::update` is declared in the source and defined outside
it; it hands the sketch to the union state (spec 4.3). -/
def tuple_union.update {S : Type} (blank : Nat × S) (threshold : Nat → Nat) (policy : S → S → S)
    (compute_seed_hash : Nat → Nat) (u : tuple_union S) (sketch : tuple_sketch S) :
    Except String (tuple_union S) :=
  match u.state_.update Prod.fst blank threshold (tuple_union.internal_policy policy)
      compute_seed_hash sketch.get_seed_hash sketch.get_theta64 sketch.entries with
  | .error e => .error e
  | .ok st => .ok { state_ := st }

/-! ## Integer canonicalisation, as the claim words it -/

/-- The occupied slots of a table, in slot order: what an iteration over the table yields. -/
def theta_update_sketch_base.occupied {EN : Type} (EK : EN → Nat)
    (t : theta_update_sketch_base EN) : List EN :=
  theta_iterator EK t.entries_ (2 ^ t.lg_cur_size_)

/-- Screening invariant of a table: every retained key is below theta. -/
def theta_update_sketch_base.screened {EN : Type} (EK : EN → Nat)
    (t : theta_update_sketch_base EN) : Prop :=
  ∀ e ∈ t.occupied EK, EK e < t.theta_



/-- Spec 3, "occupied count == number of occupied slots": the count a sketch stores is the number
of entries its iteration yields. -/
def theta_sketch_experimental.count_consistent : theta_sketch_experimental → Prop
  | .update s => s.table_.num_entries_ = s.iter.length
  | .compact s => s.entries_.length = s.iter.length

/-- Screening invariant (spec 8): every retained hash is positive and below theta. -/
def theta_sketch_experimental.screened (s : theta_sketch_experimental) : Prop :=
  ∀ h ∈ s.iter, 0 < h ∧ h < s.get_theta64

/-! ## Union Engine: result extraction -/

/-- Modelled from the spec: the compact tuple sketch class is declared outside the source files.
Spec 3: ordered flag, theta, 16-bit seed fingerprint, empty flag and the entry sequence, here of
hash and Summary. -/
structure compact_tuple_sketch (S : Type) where
  is_empty_ : Bool
  is_ordered_ : Bool
  seed_hash_ : Nat
  theta_ : Nat
  entries_ : List (Nat × S)

namespace compact_tuple_sketch

/-- The read surface of a compact tuple sketch, as a Union Engine consumes it; the entries are
what an iteration yields. -/
def to_sketch {S : Type} (c : compact_tuple_sketch S) : tuple_sketch S :=
  { is_empty := c.is_empty_
    is_ordered := c.is_ordered_
    get_theta64 := c.theta_
    get_seed_hash := c.seed_hash_
    entries := theta_iterator Prod.fst c.entries_ c.entries_.length }

/-- Modelled from the spec: the estimate of spec 4.1, retained count over theta as a fraction of
MAX_THETA, on the read surface that spec 6 gives every sketch. -/
def get_estimate {S : Type} (MAX_THETA : Nat) (c : compact_tuple_sketch S) : Dbl :=
  Dbl.div (Dbl.ofNat (c.entries_.length % 2 ^ 32))
    (Dbl.div (Dbl.ofNat c.theta_) (Dbl.ofNat MAX_THETA))

end compact_tuple_sketch

/-- The copy of the working table that `get_result` reads: spec 4.3, if the occupancy exceeds the
nominal capacity, the rebuild rule of 4.1 is applied to the copy. -/
def tuple_union.result_table {S : Type} (blank : Nat × S) (u : tuple_union S) :
    theta_update_sketch_base (Nat × S) :=
  if 2 ^ u.state_.table_.lg_nom_size_ < u.state_.table_.num_entries_ then
    u.state_.table_.rebuild Prod.fst blank
  else u.state_.table_

/-- The theta that `get_result` reports: spec 4.3, the minimum of the running theta and any
rebuild theta, that is the theta of the working table, which every rebuild of an ingest has set,
and the theta of the copy, which the rebuild for the result has set. -/
def tuple_union.result_theta {S : Type} (blank : Nat × S) (u : tuple_union S) : Nat :=
  min u.state_.union_theta_
    (min u.state_.table_.theta_ (tuple_union.result_table blank u).theta_)

/-- Modelled from the spec: `tuple_union::get_result` is declared in the source and defined outside
it. Spec 4.3: the result is read from a copy of the working table, rebuilt if the occupancy
exceeds the nominal capacity; its theta is the minimum of the running theta and any rebuild
theta; it holds the retained entries, that is (glossary) the entries with hash below that theta,
sorted ascending by hash if `ordered` is requested. The spec does not say when a union clears
its empty flag; the result carries the flag of the working table. The union itself is not
changed. -/
def tuple_union.get_result {S : Type} (blank : Nat × S) (compute_seed_hash : Nat → Nat)
    (u : tuple_union S) (ordered : Bool) : compact_tuple_sketch S :=
  { is_empty_ := u.state_.table_.is_empty_
    is_ordered_ := ordered
    seed_hash_ := compute_seed_hash u.state_.table_.seed_
    theta_ := tuple_union.result_theta blank u
    entries_ :=
      if ordered then
        (((tuple_union.result_table blank u).occupied Prod.fst).filter
          (fun e => e.1 < tuple_union.result_theta blank u)).insertionSort (fun a b => a.1 ≤ b.1)
      else
        ((tuple_union.result_table blank u).occupied Prod.fst).filter
          (fun e => e.1 < tuple_union.result_theta blank u) }

/-- The compact sketch that a union returns after ingesting the given sketches one after the
other, or the error of the first ingest that fails. -/
def tuple_union.result_of {S : Type} (blank : Nat × S) (threshold : Nat → Nat)
    (policy : S → S → S) (compute_seed_hash : Nat → Nat) (u : tuple_union S)
    (sketches : List (tuple_sketch S)) (ordered : Bool) : Except String (compact_tuple_sketch S) :=
  match sketches.foldlM (tuple_union.update blank threshold policy compute_seed_hash) u with
  | .error e => .error e
  | .ok u' => .ok (tuple_union.get_result blank compute_seed_hash u' ordered)

/-! ## The content of a table as a finite map -/

/-- The Summary that a list of entries holds under the hash `k`, if it holds one: that of the
first entry with that hash. -/
def entry_lookup {S : Type} (l : List (Nat × S)) (k : Nat) : Option S :=
  (l.find? (fun e => e.1 == k)).map Prod.snd

/-- The Summary under a hash after an incoming Summary `v` has met what the table held there: `v`
itself if the hash was new, the policy's combination otherwise. -/
def merge_value {S : Type} (policy : S → S → S) (o : Option S) (v : S) : S :=
  match o with
  | none => v
  | some a => policy a v

/-- The Summary under the hash `k` once the entries `es` have been taken in one after the other,
starting from `o`: entries with another hash leave it as it is. -/
def absorb {S : Type} (policy : S → S → S) (k : Nat) (o : Option S) (es : List (Nat × S)) :
    Option S :=
  es.foldl (fun acc e => if e.1 = k then some (merge_value policy acc e.2) else acc) o

/-- The sum of the Summaries that the entries `es` carry for the hash `k`. -/
def summary_total {S : Type} [AddCommMonoid S] (k : Nat) (es : List (Nat × S)) : S :=
  ((es.filter (fun e => e.1 == k)).map Prod.snd).sum

/-- The hashes of a list of entries, as a set. -/
def key_set {S : Type} (l : List (Nat × S)) : Finset Nat := (l.map Prod.fst).toFinset

/-- The cut `c` of a set of hashes `F` under the bound `R`, for the nominal capacity `k`: the bound
itself if at most `k` hashes of `F` are below it, otherwise the hash of `F` below the bound that
has exactly `k` hashes of `F` below it. -/
def is_cut (k : Nat) (F : Finset Nat) (R c : Nat) : Prop :=
  (c = R ∧ (F.filter (fun x => x < R)).card ≤ k) ∨
    (c ∈ F ∧ c < R ∧ (F.filter (fun x => x < c)).card = k)

/-- The working table `t` of a union with running theta `R` keeps track of the entries `L` that
the union was offered since its table had the theta `th0`: the table satisfies its class
invariant and grows by a factor of at least two; its theta has not risen; under every hash below
both thetas it holds what the offers for that hash add up to; and if its theta is below the
running theta, it is still `th0`, or it is a hash that was offered and at least nominal-capacity
many offered hashes are below it. -/
def tracks {S : Type} (policy : S → S → S) (R th0 : Nat)
    (t : theta_update_sketch_base (Nat × S)) (L : List (Nat × S)) : Prop :=
  t.wf Prod.fst ∧ 1 ≤ t.rf_ ∧ t.theta_ ≤ th0 ∧
    (∀ x, x < R → x < t.theta_ →
      entry_lookup (t.occupied Prod.fst) x = absorb policy x none L) ∧
    (t.theta_ < R → t.theta_ = th0 ∨ (t.theta_ ∈ key_set L ∧
      2 ^ t.lg_nom_size_ ≤ ((key_set L).filter (fun x => x < t.theta_)).card))

/-! ## Sample states -/

/-- An Update Sketch of nominal capacity 2 with four slots holding `7, -, 3, 5` and theta 9. -/
def sample_update_sketch : update_theta_sketch_experimental :=
  ⟨{ lg_cur_size_ := 2, lg_nom_size_ := 1, rf_ := 1, theta_ := 9, seed_ := 9001,
     is_empty_ := false, num_entries_ := 3, entries_ := [7, 0, 3, 5] }⟩

/-- An Update Sketch built with a sampling probability of about one half that has ingested
nothing: theta is `2 ^ 62` and the empty flag is set. -/
def sample_presampled_sketch : update_theta_sketch_experimental :=
  ⟨{ lg_cur_size_ := 5, lg_nom_size_ := 12, rf_ := 3, theta_ := 2 ^ 62, seed_ := 9001,
     is_empty_ := true, num_entries_ := 0, entries_ := List.replicate 32 0 }⟩

/-- A seed fingerprint function for the sample states: the low 16 bits of the seed. -/
def sample_seed_hash (seed : Nat) : Nat := seed % 65536

/-- A Compact Sketch that retains the one hash `1` under theta 3. -/
def sample_compact_sketch : compact_theta_sketch_experimental :=
  { is_empty_ := false, is_ordered_ := true, seed_hash_ := 9001, theta_ := 3, entries_ := [1] }

/-- A hash function for the sample states: the value of the bytes, least significant first,
reduced to the range `1 .. 8`. It ignores the seed. -/
def sample_hash (data : List Nat) (_seed : Nat) : Nat :=
  data.foldr (fun b acc => b + 256 * acc) 0 % 8 + 1

/-- A load-factor threshold for the sample states: three quarters of the slots. -/
def sample_threshold (slots : Nat) : Nat := 3 * slots / 4

/-- A freshly built Update Sketch of nominal capacity `2 ^ 10`: 32 free slots, growth factor 8,
theta `2 ^ 63 - 1`, nothing ingested. -/
def sample_fresh_sketch : update_theta_sketch_experimental :=
  ⟨{ lg_cur_size_ := 5, lg_nom_size_ := 10, rf_ := 3, theta_ := 2 ^ 63 - 1, seed_ := 9001,
     is_empty_ := true, num_entries_ := 0, entries_ := List.replicate 32 0 }⟩

/-- A hash function for the sample ingestion: one more than the number of bytes. -/
def sample_length_hash (data : List Nat) (_seed : Nat) : Nat := data.length + 1

/-- The `n` distinct byte strings `a`, `aa`, `aaa`, ... -/
def sample_strings (n : Nat) : List (List Nat) :=
  (List.range n).map (fun i => List.replicate (i + 1) 97)

/-- The fresh sample sketch after ingesting the first `n` of these byte strings. -/
def sample_ingested (n : Nat) : update_theta_sketch_experimental :=
  (sample_strings n).foldl (fun x d => x.update sample_length_hash sample_threshold d)
    sample_fresh_sketch

/-- A Bound Estimator for the sample states that rejects every call. -/
def sample_failing_bound (_n : Nat) (_theta : Dbl) (_num_std_devs : Nat) : Except String Dbl :=
  .error "unsupported number of standard deviations"

/-- A Union Engine with Summaries in `Nat` that has ingested nothing: four free slots, nominal
capacity 2, running theta `2 ^ 63 - 1`. -/
def sample_union : tuple_union Nat :=
  ⟨{ table_ :=
       { lg_cur_size_ := 2, lg_nom_size_ := 1, rf_ := 1, theta_ := 2 ^ 63 - 1, seed_ := 9001,
         is_empty_ := true, num_entries_ := 0, entries_ := List.replicate 4 (0, 0) }
     union_theta_ := 2 ^ 63 - 1 }⟩

/-- A tuple sketch with theta 9 that retains the hashes 3 and 5 with Summaries 10 and 20. -/
def sample_tuple_sketch : tuple_sketch Nat :=
  { is_empty := false, is_ordered := true, get_theta64 := 9,
    get_seed_hash := sample_seed_hash 9001, entries := [(3, 10), (5, 20)] }

/-- A Compact Sketch with theta `2 ^ 62` and no entries whose empty flag is set: the snapshot of
a pre-sampled Update Sketch that has ingested nothing. -/
def sample_compact_untouched : compact_theta_sketch_experimental :=
  { is_empty_ := true, is_ordered_ := true, seed_hash_ := 9001, theta_ := 2 ^ 62, entries_ := [] }

/-- A Compact Sketch with theta `2 ^ 62` and no entries whose empty flag is cleared: the snapshot
of a pre-sampled Update Sketch whose ingested items all hashed at or above theta. -/
def sample_compact_screened : compact_theta_sketch_experimental :=
  { is_empty_ := false, is_ordered_ := true, seed_hash_ := 9001, theta_ := 2 ^ 62, entries_ := [] }

/-- A Compact Sketch that holds 3, 5, 7 ascending and is flagged ordered; theta is 9. -/
def sample_compact_sorted : compact_theta_sketch_experimental :=
  { is_empty_ := false, is_ordered_ := true, seed_hash_ := 9001, theta_ := 9,
    entries_ := [3, 5, 7] }

/-- A Compact Sketch that holds 7, 3, 5 and is flagged unordered; theta is 9. -/
def sample_compact_shuffled : compact_theta_sketch_experimental :=
  { is_empty_ := false, is_ordered_ := false, seed_hash_ := 9001, theta_ := 9,
    entries_ := [7, 3, 5] }

/-- A Bound Estimator for the sample states that honours the call contract of spec 4.4: it
accepts 1, 2 or 3 standard deviations, for which it answers with the plain estimate, and rejects
every other number. -/
def sample_checked_bound (n : Nat) (theta : Dbl) (num_std_devs : Nat) : Except String Dbl :=
  if 1 ≤ num_std_devs ∧ num_std_devs ≤ 3 then .ok (Dbl.div (Dbl.ofNat n) theta)
  else .error "unsupported number of standard deviations"

/-- A tuple sketch that retains the one hash 5 with Summary 3. -/
def sample_tuple_three : tuple_sketch Nat :=
  { is_empty := false, is_ordered := true, get_theta64 := 2 ^ 63 - 1,
    get_seed_hash := sample_seed_hash 9001, entries := [(5, 3)] }

/-- A tuple sketch that retains the one hash 5 with Summary 4. -/
def sample_tuple_four : tuple_sketch Nat :=
  { is_empty := false, is_ordered := true, get_theta64 := 2 ^ 63 - 1,
    get_seed_hash := sample_seed_hash 9001, entries := [(5, 4)] }

/-- The sample Union Engine after it has ingested the sample tuple sketch with Summary 3: the
hash 5 sits in the first slot with Summary 3. -/
def sample_union_three : tuple_union Nat :=
  ⟨{ table_ :=
       { lg_cur_size_ := 2, lg_nom_size_ := 1, rf_ := 1, theta_ := 2 ^ 63 - 1, seed_ := 9001,
         is_empty_ := true, num_entries_ := 1, entries_ := [(5, 3), (0, 0), (0, 0), (0, 0)] }
     union_theta_ := 2 ^ 63 - 1 }⟩

/-- A tuple sketch that has never sampled and retains the one hash 5. -/
def sample_tuple_high : tuple_sketch Nat :=
  { is_empty := false, is_ordered := true, get_theta64 := 2 ^ 63 - 1,
    get_seed_hash := sample_seed_hash 9001, entries := [(5, 1)] }

/-- A tuple sketch that has never sampled and retains the hashes 4, 3, 2 and 1. -/
def sample_tuple_low : tuple_sketch Nat :=
  { is_empty := false, is_ordered := false, get_theta64 := 2 ^ 63 - 1,
    get_seed_hash := sample_seed_hash 9001, entries := [(4, 1), (3, 1), (2, 1), (1, 1)] }

/-- The Compact Sketch that the sample union of nominal capacity 2 returns once it has been
offered the hashes 1 to 5: theta 3, retaining 1 and 2. -/
def sample_union_result : compact_tuple_sketch Nat :=
  { is_empty_ := true, is_ordered_ := true, seed_hash_ := 9001, theta_ := 3,
    entries_ := [(1, 1), (2, 1)] }

/-! ## Facts about rounding -/

theorem roundHalfEven_intCast (k : ℤ) : roundHalfEven (k : ℚ) = k := by
  simp [roundHalfEven]

theorem floor_le_roundHalfEven (y : ℚ) : ⌊y⌋ ≤ roundHalfEven y := by
  unfold roundHalfEven
  split_ifs <;> omega

theorem roundToDouble_pos {x : ℚ} (hx : 0 < x) : 0 < roundToDouble x := by
  have hx0 : x ≠ 0 := ne_of_gt hx
  simp only [roundToDouble, hx0, if_false, abs_of_pos hx]
  have hu : (0 : ℚ) < (2 : ℚ) ^ (Int.log 2 x - 52) := zpow_pos (by norm_num) _
  refine mul_pos ?_ hu
  have h1 : ((2 : ℕ) : ℚ) ^ Int.log 2 x ≤ x := Int.zpow_log_le_self (by norm_num) hx
  have h2 : (2 : ℚ) ^ (52 : ℤ) ≤ x / (2 : ℚ) ^ (Int.log 2 x - 52) := by
    rw [le_div_iff₀ hu, ← zpow_add₀ (by norm_num : (2 : ℚ) ≠ 0)]
    simpa using h1
  have h3 : ((2 ^ 52 : ℤ) : ℚ) ≤ x / (2 : ℚ) ^ (Int.log 2 x - 52) := by
    refine le_trans ?_ h2
    norm_num
  have h4 : (2 ^ 52 : ℤ) ≤ ⌊x / (2 : ℚ) ^ (Int.log 2 x - 52)⌋ := Int.le_floor.mpr h3
  have h5 := floor_le_roundHalfEven (x / (2 : ℚ) ^ (Int.log 2 x - 52))
  have h6 : (0 : ℤ) < roundHalfEven (x / (2 : ℚ) ^ (Int.log 2 x - 52)) := by
    have : (0 : ℤ) < 2 ^ 52 := by norm_num
    omega
  exact_mod_cast h6

theorem roundToDouble_natCast (n : ℕ) (hn : n < 2 ^ 53) : roundToDouble (n : ℚ) = n := by
  rcases Nat.eq_zero_or_pos n with h0 | hpos
  · simp [h0, roundToDouble]
  have hq : (0 : ℚ) < n := by exact_mod_cast hpos
  have hne : (n : ℚ) ≠ 0 := ne_of_gt hq
  simp only [roundToDouble, hne, if_false, abs_of_pos hq, Int.log_natCast]
  have hlog : Nat.log 2 n < 53 := Nat.log_lt_of_lt_pow (by omega) hn
  obtain ⟨d, hd⟩ : ∃ d : ℕ, (Nat.log 2 n : ℤ) - 52 = -(d : ℤ) := ⟨52 - Nat.log 2 n, by omega⟩
  rw [hd, zpow_neg, zpow_natCast]
  have hpow : ((2 : ℚ) ^ d) ≠ 0 := pow_ne_zero _ (by norm_num)
  have hdiv : (n : ℚ) / ((2 : ℚ) ^ d)⁻¹ = (((n * 2 ^ d : ℕ) : ℤ) : ℚ) := by
    rw [div_inv_eq_mul]
    push_cast
    ring
  rw [hdiv, roundHalfEven_intCast]
  push_cast
  field_simp

theorem int_log_two_eq {x : ℚ} (e : ℤ) (hx : 0 < x) (h1 : (2 : ℚ) ^ e ≤ x)
    (h2 : x < (2 : ℚ) ^ (e + 1)) : Int.log 2 x = e := by
  have a : e ≤ Int.log 2 x := (Int.zpow_le_iff_le_log (by norm_num) hx).mp (by simpa using h1)
  have b : Int.log 2 x < e + 1 := (Int.lt_zpow_iff_log_lt (by norm_num) hx).mp (by simpa using h2)
  omega

theorem roundHalfEven_of_lt (y : ℚ) (f : ℤ) (h1 : (f : ℚ) ≤ y) (h2 : y - f < 1 / 2) :
    roundHalfEven y = f := by
  have hf : ⌊y⌋ = f := Int.floor_eq_iff.mpr ⟨h1, by linarith⟩
  simp only [roundHalfEven, hf, h2, if_true]

theorem roundHalfEven_of_gt (y : ℚ) (f : ℤ) (h1 : (f : ℚ) ≤ y) (h2 : 1 / 2 < y - f)
    (h3 : y < f + 1) : roundHalfEven y = f + 1 := by
  have hf : ⌊y⌋ = f := Int.floor_eq_iff.mpr ⟨h1, h3⟩
  have h4 : ¬ (y - f < 1 / 2) := not_lt.mpr (le_of_lt h2)
  simp only [roundHalfEven, hf, h4, h2, if_true, if_false]

theorem roundToDouble_eq {x : ℚ} (e m : ℤ) (hx : 0 < x) (h1 : (2 : ℚ) ^ e ≤ x)
    (h2 : x < (2 : ℚ) ^ (e + 1)) (hm : roundHalfEven (x / (2 : ℚ) ^ (e - 52)) = m) :
    roundToDouble x = m * (2 : ℚ) ^ (e - 52) := by
  simp only [roundToDouble, ne_of_gt hx, if_false, abs_of_pos hx, int_log_two_eq e hx h1 h2, hm]

theorem roundToDouble_max_theta : roundToDouble ((2 ^ 63 - 1 : ℕ) : ℚ) = 2 ^ 63 := by
  rw [roundToDouble_eq 62 (2 ^ 53) (by norm_num) (by norm_num) (by norm_num)
    (by
      have := roundHalfEven_of_gt (((2 ^ 63 - 1 : ℕ) : ℚ) / (2 : ℚ) ^ ((62 : ℤ) - 52)) (2 ^ 53 - 1)
        (by norm_num) (by norm_num) (by norm_num)
      simpa using this)]
  norm_num

theorem roundToDouble_three_fraction : roundToDouble ((3 : ℚ) / 2 ^ 63) = 3 / 2 ^ 63 := by
  rw [roundToDouble_eq (-62) (3 * 2 ^ 51) (by norm_num) (by norm_num) (by norm_num)
    (roundHalfEven_of_lt _ _ (by norm_num) (by norm_num))]
  norm_num

theorem roundToDouble_third : roundToDouble ((2 : ℚ) ^ 63 / 3) = 3074457345618258432 := by
  rw [roundToDouble_eq 61 6004799503160661 (by norm_num) (by norm_num) (by norm_num)
    (roundHalfEven_of_lt _ _ (by norm_num) (by norm_num))]
  norm_num

theorem roundHalfEven_err (y : ℚ) : |(roundHalfEven y : ℚ) - y| ≤ 1 / 2 := by
  have h1 : (⌊y⌋ : ℚ) ≤ y := Int.floor_le y
  have h2 : y < ⌊y⌋ + 1 := Int.lt_floor_add_one y
  unfold roundHalfEven
  split_ifs with a b c
  · rw [abs_le]; constructor <;> linarith
  · rw [abs_le]; push_cast; constructor <;> linarith
  · rw [abs_le]; constructor <;> linarith
  · rw [abs_le]; push_cast; constructor <;> linarith

theorem roundToDouble_err {x : ℚ} (hx : 0 < x) : |roundToDouble x - x| ≤ x / 2 ^ 53 := by
  have hx0 : x ≠ 0 := ne_of_gt hx
  simp only [roundToDouble, hx0, if_false, abs_of_pos hx]
  have hu : (0 : ℚ) < (2 : ℚ) ^ (Int.log 2 x - 52) := zpow_pos (by norm_num) _
  have h1 : ((2 : ℕ) : ℚ) ^ Int.log 2 x ≤ x := Int.zpow_log_le_self (by norm_num) hx
  have h2 := roundHalfEven_err (x / (2 : ℚ) ^ (Int.log 2 x - 52))
  have h3 : (roundHalfEven (x / (2 : ℚ) ^ (Int.log 2 x - 52)) : ℚ) * (2 : ℚ) ^ (Int.log 2 x - 52) - x
      = ((roundHalfEven (x / (2 : ℚ) ^ (Int.log 2 x - 52)) : ℚ) - x / (2 : ℚ) ^ (Int.log 2 x - 52))
        * (2 : ℚ) ^ (Int.log 2 x - 52) := by
    field_simp
  rw [h3, abs_mul, abs_of_pos hu]
  have h4 : (2 : ℚ) ^ (Int.log 2 x - 52) = (2 : ℚ) ^ Int.log 2 x / 2 ^ 52 := by
    rw [zpow_sub₀ (by norm_num : (2 : ℚ) ≠ 0)]
    norm_num
  have h5 : (2 : ℚ) ^ (Int.log 2 x - 52) ≤ x / 2 ^ 52 := by
    rw [h4]
    have : (2 : ℚ) ^ Int.log 2 x ≤ x := by simpa using h1
    gcongr
  calc |(roundHalfEven (x / (2 : ℚ) ^ (Int.log 2 x - 52)) : ℚ) - x / (2 : ℚ) ^ (Int.log 2 x - 52)|
        * (2 : ℚ) ^ (Int.log 2 x - 52)
      ≤ 1 / 2 * (x / 2 ^ 52) := by gcongr
    _ = x / 2 ^ 53 := by ring

theorem roundToDouble_bounds {x : ℚ} (hx : 0 ≤ x) :
    (1 - 1 / 2 ^ 53) * x ≤ roundToDouble x ∧ roundToDouble x ≤ (1 + 1 / 2 ^ 53) * x := by
  rcases eq_or_lt_of_le hx with h0 | hpos
  · simp [← h0, roundToDouble]
  · have h := abs_le.mp (roundToDouble_err hpos)
    constructor <;> linarith [h.1, h.2]

theorem quotient_chain (ε θ M n a b t E : ℚ) (hε0 : 0 ≤ ε) (hε1 : ε ≤ 1 / 4)
    (hM : 0 < M) (hn : 0 ≤ n) (hb0 : 0 ≤ b) (hE0 : 0 ≤ E)
    (ha1 : (1 - ε) * θ ≤ a) (ha2 : a ≤ (1 + ε) * θ)
    (hb1 : (1 - ε) * M ≤ b) (hb2 : b ≤ (1 + ε) * M)
    (ht1 : (1 - ε) * a ≤ t * b) (ht2 : t * b ≤ (1 + ε) * a)
    (hE1 : (1 - ε) * n ≤ E * t) (hE2 : E * t ≤ (1 + ε) * n) :
    (1 - 8 * ε) * (n * M) ≤ E * θ ∧ E * θ ≤ (1 + 8 * ε) * (n * M) := by
  have h1ε : 0 < 1 - ε := by linarith
  have h1ε' : 0 < 1 + ε := by linarith
  have hnM : 0 ≤ n * M := mul_nonneg hn (le_of_lt hM)
  constructor
  · -- (1-ε)^2 n M ≤ (1-ε) n b ≤ E t b ≤ E (1+ε) a ≤ E (1+ε)^2 θ
    have s1 : (1 - ε) * ((1 - ε) * (n * M)) ≤ (1 - ε) * n * b := by
      calc (1 - ε) * ((1 - ε) * (n * M)) = (1 - ε) * n * ((1 - ε) * M) := by ring
        _ ≤ (1 - ε) * n * b := mul_le_mul_of_nonneg_left hb1 (mul_nonneg (le_of_lt h1ε) hn)
    have s2 : (1 - ε) * n * b ≤ E * t * b := mul_le_mul_of_nonneg_right hE1 hb0
    have s3 : E * t * b ≤ E * ((1 + ε) * a) := by
      calc E * t * b = E * (t * b) := by ring
        _ ≤ E * ((1 + ε) * a) := mul_le_mul_of_nonneg_left ht2 hE0
    have s4 : E * ((1 + ε) * a) ≤ E * ((1 + ε) * ((1 + ε) * θ)) := by
      have := mul_le_mul_of_nonneg_left ha2 (le_of_lt h1ε')
      exact mul_le_mul_of_nonneg_left this hE0
    have s5 : (1 - ε) * ((1 - ε) * (n * M)) ≤ (1 + ε) * (1 + ε) * (E * θ) := by
      calc (1 - ε) * ((1 - ε) * (n * M)) ≤ E * ((1 + ε) * ((1 + ε) * θ)) :=
            le_trans s1 (le_trans s2 (le_trans s3 s4))
        _ = (1 + ε) * (1 + ε) * (E * θ) := by ring
    have s6 : (1 - 8 * ε) * ((1 + ε) * (1 + ε)) ≤ (1 - ε) * (1 - ε) := by
      have e2 := mul_nonneg hε0 hε0
      have e3 := mul_nonneg e2 hε0
      nlinarith [e2, e3]
    have s7 : (1 + ε) * (1 + ε) * ((1 - 8 * ε) * (n * M)) ≤ (1 + ε) * (1 + ε) * (E * θ) := by
      calc (1 + ε) * (1 + ε) * ((1 - 8 * ε) * (n * M))
          = (1 - 8 * ε) * ((1 + ε) * (1 + ε)) * (n * M) := by ring
        _ ≤ (1 - ε) * (1 - ε) * (n * M) := mul_le_mul_of_nonneg_right s6 hnM
        _ = (1 - ε) * ((1 - ε) * (n * M)) := by ring
        _ ≤ (1 + ε) * (1 + ε) * (E * θ) := s5
    exact le_of_mul_le_mul_left s7 (mul_pos h1ε' h1ε')
  · have s1 : E * ((1 - ε) * ((1 - ε) * θ)) ≤ E * ((1 - ε) * a) := by
      have := mul_le_mul_of_nonneg_left ha1 (le_of_lt h1ε)
      exact mul_le_mul_of_nonneg_left this hE0
    have s2 : E * ((1 - ε) * a) ≤ E * (t * b) := mul_le_mul_of_nonneg_left ht1 hE0
    have s3 : E * (t * b) ≤ (1 + ε) * n * b := by
      calc E * (t * b) = E * t * b := by ring
        _ ≤ (1 + ε) * n * b := mul_le_mul_of_nonneg_right hE2 hb0
    have s4 : (1 + ε) * n * b ≤ (1 + ε) * n * ((1 + ε) * M) :=
      mul_le_mul_of_nonneg_left hb2 (mul_nonneg (le_of_lt h1ε') hn)
    have s5 : (1 - ε) * (1 - ε) * (E * θ) ≤ (1 + ε) * (1 + ε) * (n * M) := by
      calc (1 - ε) * (1 - ε) * (E * θ) = E * ((1 - ε) * ((1 - ε) * θ)) := by ring
        _ ≤ (1 + ε) * n * ((1 + ε) * M) := le_trans s1 (le_trans s2 (le_trans s3 s4))
        _ = (1 + ε) * (1 + ε) * (n * M) := by ring
    have s6 : (1 + ε) * (1 + ε) ≤ (1 + 8 * ε) * ((1 - ε) * (1 - ε)) := by
      have e2 := mul_nonneg hε0 hε0
      have e3 := mul_nonneg e2 hε0
      have e4 : 0 ≤ ε * (1 - 4 * ε) := mul_nonneg hε0 (by linarith)
      nlinarith [e2, e3, e4]
    have s7 : (1 - ε) * (1 - ε) * (E * θ) ≤ (1 - ε) * (1 - ε) * ((1 + 8 * ε) * (n * M)) := by
      calc (1 - ε) * (1 - ε) * (E * θ) ≤ (1 + ε) * (1 + ε) * (n * M) := s5
        _ ≤ (1 + 8 * ε) * ((1 - ε) * (1 - ε)) * (n * M) := mul_le_mul_of_nonneg_right s6 hnM
        _ = (1 - ε) * (1 - ε) * ((1 + 8 * ε) * (n * M)) := by ring
    exact le_of_mul_le_mul_left s7 (mul_pos h1ε h1ε)

theorem Dbl.div_fin (a b : ℚ) (hb : b ≠ 0) :
    Dbl.div (Dbl.fin a) (Dbl.fin b) = Dbl.fin (roundToDouble (a / b)) := by
  simp [Dbl.div, hb]

theorem Dbl.ofNat_eq_fin (n : ℕ) (hn : n < 2 ^ 53) : Dbl.ofNat n = Dbl.fin n := by
  simp [Dbl.ofNat, roundToDouble_natCast n hn]

/-! ## Read contract -/

namespace theta_sketch_experimental

theorem get_num_retained_lt (s : theta_sketch_experimental) : s.get_num_retained < 2 ^ 32 := by
  cases s <;>
    simp only [get_num_retained, update_theta_sketch_experimental.get_num_retained,
      compact_theta_sketch_experimental.get_num_retained] <;>
    exact Nat.mod_lt _ (by norm_num)

theorem ofNat_get_num_retained (s : theta_sketch_experimental) :
    Dbl.ofNat s.get_num_retained = Dbl.fin (s.get_num_retained : ℚ) :=
  Dbl.ofNat_eq_fin _ (lt_of_lt_of_le s.get_num_retained_lt (by norm_num))

end theta_sketch_experimental

/-- C10, as the code has it: a sketch is in estimation mode exactly when theta is below MAX_THETA
and the sketch is not empty. -/
theorem C10_is_estimation_mode_iff (MAX_THETA : Nat) (s : theta_sketch_experimental) :
    s.is_estimation_mode MAX_THETA = true ↔ (s.get_theta64 < MAX_THETA ∧ s.is_empty = false) := by
  simp [theta_sketch_experimental.is_estimation_mode]

/-- C10, the claim as stated fails: the sample Update Sketch that was built with sampling
probability one half and has ingested nothing has theta `2 ^ 62`, below MAX_THETA `2 ^ 63 - 1`,
and is not in estimation mode, because it is empty. -/
theorem C10_counterexample :
    (theta_sketch_experimental.update sample_presampled_sketch).get_theta64 < 2 ^ 63 - 1 ∧
      (theta_sketch_experimental.update sample_presampled_sketch).is_estimation_mode
        (2 ^ 63 - 1) = false := by
  decide

/-- C2: outside estimation mode both bounds are the retained count, whatever the Bound Estimator
would do (it is not consulted, so the query cannot fail); in estimation mode both are the result
of the Bound Estimator on the retained count, theta as a fraction, and `num_std_devs`. This holds
for every `num_std_devs`. -/
theorem C2_bounds (MAX_THETA : Nat) (lb ub : Nat → Dbl → Nat → Except String Dbl)
    (s : theta_sketch_experimental) (num_std_devs : Nat) :
    (s.is_estimation_mode MAX_THETA = false →
      s.get_lower_bound MAX_THETA lb num_std_devs = .ok (Dbl.fin (s.get_num_retained : ℚ)) ∧
      s.get_upper_bound MAX_THETA ub num_std_devs = .ok (Dbl.fin (s.get_num_retained : ℚ))) ∧
    (s.is_estimation_mode MAX_THETA = true →
      s.get_lower_bound MAX_THETA lb num_std_devs =
        lb s.get_num_retained (s.get_theta MAX_THETA) num_std_devs ∧
      s.get_upper_bound MAX_THETA ub num_std_devs =
        ub s.get_num_retained (s.get_theta MAX_THETA) num_std_devs) := by
  constructor
  · intro h
    simp [theta_sketch_experimental.get_lower_bound, theta_sketch_experimental.get_upper_bound, h,
      s.ofNat_get_num_retained]
  · intro h
    simp [theta_sketch_experimental.get_lower_bound, theta_sketch_experimental.get_upper_bound, h]

/-! ## Compaction -/

theorem mem_theta_iterator_ne_zero {EN : Type} (EK : EN → Nat) (entries : List EN) (size : Nat)
    {e : EN} (he : e ∈ theta_iterator EK entries size) : EK e ≠ 0 := by
  simpa [theta_iterator] using (List.mem_filter.mp he).2

theorem theta_iterator_of_ne_zero (l : List Nat) (h : ∀ x ∈ l, x ≠ 0) :
    theta_iterator id l l.length = l := by
  simp only [theta_iterator, List.take_length]
  exact List.filter_eq_self.mpr (fun x hx => by simpa using h x hx)

theorem theta_sketch_experimental.iter_ne_zero (s : theta_sketch_experimental) :
    ∀ x ∈ s.iter, x ≠ 0 := by
  intro x hx
  cases s with
  | update u => exact mem_theta_iterator_ne_zero id _ _ hx
  | compact c => exact mem_theta_iterator_ne_zero id _ _ hx

theorem compact_iter_unordered (compute_seed_hash : Nat → Nat) (src : theta_sketch_experimental) :
    (compact_theta_sketch_experimental.ofBase compute_seed_hash src false).iter = src.iter := by
  simp only [compact_theta_sketch_experimental.ofBase, compact_theta_sketch_experimental.iter,
    Bool.false_and, Bool.false_eq_true, if_false]
  exact theta_iterator_of_ne_zero _ src.iter_ne_zero

theorem compact_iter_sorted (compute_seed_hash : Nat → Nat) (src : theta_sketch_experimental)
    (h : src.is_ordered = false) :
    (compact_theta_sketch_experimental.ofBase compute_seed_hash src true).iter =
      src.iter.insertionSort (fun a b => a ≤ b) := by
  simp only [compact_theta_sketch_experimental.ofBase, compact_theta_sketch_experimental.iter, h,
    Bool.not_false, Bool.and_self, if_true]
  refine theta_iterator_of_ne_zero _ (fun x hx => ?_)
  exact src.iter_ne_zero x ((List.perm_insertionSort _ _).mem_iff.mp hx)

theorem compact_iter_of_ordered (compute_seed_hash : Nat → Nat) (src : theta_sketch_experimental)
    (ordered : Bool) (h : src.is_ordered = true) :
    (compact_theta_sketch_experimental.ofBase compute_seed_hash src ordered).iter = src.iter := by
  simp only [compact_theta_sketch_experimental.ofBase, compact_theta_sketch_experimental.iter, h,
    Bool.not_true, Bool.and_false, Bool.false_eq_true, if_false]
  exact theta_iterator_of_ne_zero _ src.iter_ne_zero

/-- C4: when the retained hashes of the source are pairwise distinct (and ascending if the source
reports itself ordered), iterating `compact(true)` yields strictly ascending, duplicate-free
hashes that are a permutation of the source's; iterating `compact(false)` yields the source's
hashes in the source's iteration order. -/
theorem C4_compact_round_trip (compute_seed_hash : Nat → Nat) (src : theta_sketch_experimental)
    (hdistinct : src.iter.Nodup)
    (hordered : src.is_ordered = true → src.iter.Sorted (fun a b => a ≤ b)) :
    (compact_theta_sketch_experimental.ofBase compute_seed_hash src true).iter.Sorted
        (fun a b => a < b) ∧
      (compact_theta_sketch_experimental.ofBase compute_seed_hash src true).iter.Nodup ∧
      (compact_theta_sketch_experimental.ofBase compute_seed_hash src true).iter.Perm src.iter ∧
      (compact_theta_sketch_experimental.ofBase compute_seed_hash src false).iter = src.iter := by
  have key : (compact_theta_sketch_experimental.ofBase compute_seed_hash src true).iter.Sorted
        (fun a b => a ≤ b) ∧
      (compact_theta_sketch_experimental.ofBase compute_seed_hash src true).iter.Perm src.iter := by
    cases h : src.is_ordered with
    | true =>
      rw [compact_iter_of_ordered compute_seed_hash src true h]
      exact ⟨hordered h, List.Perm.refl _⟩
    | false =>
      rw [compact_iter_sorted compute_seed_hash src h]
      exact ⟨List.sorted_insertionSort _ _, List.perm_insertionSort _ _⟩
  have hnodup := key.2.nodup_iff.mpr hdistinct
  exact ⟨key.1.lt_of_le hnodup, hnodup, key.2, compact_iter_unordered compute_seed_hash src⟩

/-- C4 at the sample Update Sketch with slots `7, -, 3, 5`: the ordered copy iterates as
`3, 5, 7`, the unordered one as `7, 3, 5`. -/
theorem C4_compact_round_trip_witness :
    (compact_theta_sketch_experimental.ofBase sample_seed_hash (.update sample_update_sketch)
        true).iter.Sorted (fun a b => a < b) ∧
      (compact_theta_sketch_experimental.ofBase sample_seed_hash (.update sample_update_sketch)
        true).iter.Nodup ∧
      (compact_theta_sketch_experimental.ofBase sample_seed_hash (.update sample_update_sketch)
        true).iter.Perm (theta_sketch_experimental.update sample_update_sketch).iter ∧
      (compact_theta_sketch_experimental.ofBase sample_seed_hash (.update sample_update_sketch)
        false).iter = (theta_sketch_experimental.update sample_update_sketch).iter :=
  C4_compact_round_trip sample_seed_hash (.update sample_update_sketch) (by decide) (by decide)

theorem ofBase_entries_length (compute_seed_hash : Nat → Nat) (src : theta_sketch_experimental)
    (ordered : Bool) :
    (compact_theta_sketch_experimental.ofBase compute_seed_hash src ordered).entries_.length =
      src.iter.length := by
  simp only [compact_theta_sketch_experimental.ofBase]
  split_ifs
  · exact List.length_insertionSort _ _
  · rfl

theorem ofBase_num_retained (compute_seed_hash : Nat → Nat) (src : theta_sketch_experimental)
    (ordered : Bool) (h : src.count_consistent) :
    (theta_sketch_experimental.compact
        (compact_theta_sketch_experimental.ofBase compute_seed_hash src ordered)).get_num_retained =
      src.get_num_retained := by
  simp only [theta_sketch_experimental.get_num_retained,
    compact_theta_sketch_experimental.get_num_retained, ofBase_entries_length]
  cases src with
  | update u =>
    simp only [theta_sketch_experimental.count_consistent] at h
    simp [theta_sketch_experimental.iter, update_theta_sketch_experimental.get_num_retained, h]
  | compact c =>
    simp only [theta_sketch_experimental.count_consistent] at h
    simp [theta_sketch_experimental.iter, h]

/-- C5: for a source whose stored count is the number of its occupied slots, and for both values
of `ordered`, the result of `compact(ordered)` has the theta, the seed fingerprint, the empty flag
and the retained count of the source, hence the same estimate and the same lower and upper bound
for every number of standard deviations. Compaction is a function of the source: it returns the
new sketch and has no access to change the source. -/
theorem C5_compact_preserves (compute_seed_hash : Nat → Nat) (MAX_THETA : Nat)
    (lb ub : Nat → Dbl → Nat → Except String Dbl) (src : theta_sketch_experimental)
    (ordered : Bool) (hcount : src.count_consistent) :
    (theta_sketch_experimental.compact
        (compact_theta_sketch_experimental.ofBase compute_seed_hash src ordered)).get_theta64 =
        src.get_theta64 ∧
      (theta_sketch_experimental.compact
        (compact_theta_sketch_experimental.ofBase compute_seed_hash src ordered)).get_seed_hash
          compute_seed_hash = src.get_seed_hash compute_seed_hash ∧
      (theta_sketch_experimental.compact
        (compact_theta_sketch_experimental.ofBase compute_seed_hash src ordered)).is_empty =
        src.is_empty ∧
      (theta_sketch_experimental.compact
        (compact_theta_sketch_experimental.ofBase compute_seed_hash src ordered)).get_num_retained =
        src.get_num_retained ∧
      (theta_sketch_experimental.compact
        (compact_theta_sketch_experimental.ofBase compute_seed_hash src ordered)).get_estimate
          MAX_THETA = src.get_estimate MAX_THETA ∧
      ∀ k : Nat,
        (theta_sketch_experimental.compact
          (compact_theta_sketch_experimental.ofBase compute_seed_hash src ordered)).get_lower_bound
            MAX_THETA lb k = src.get_lower_bound MAX_THETA lb k ∧
        (theta_sketch_experimental.compact
          (compact_theta_sketch_experimental.ofBase compute_seed_hash src ordered)).get_upper_bound
            MAX_THETA ub k = src.get_upper_bound MAX_THETA ub k := by
  have hn := ofBase_num_retained compute_seed_hash src ordered hcount
  have ht : (theta_sketch_experimental.compact
      (compact_theta_sketch_experimental.ofBase compute_seed_hash src ordered)).get_theta64 =
      src.get_theta64 := rfl
  have he : (theta_sketch_experimental.compact
      (compact_theta_sketch_experimental.ofBase compute_seed_hash src ordered)).is_empty =
      src.is_empty := rfl
  refine ⟨ht, rfl, he, hn, ?_, fun k => ⟨?_, ?_⟩⟩
  · simp only [theta_sketch_experimental.get_estimate, theta_sketch_experimental.get_theta, hn, ht]
  · simp only [theta_sketch_experimental.get_lower_bound,
      theta_sketch_experimental.is_estimation_mode, theta_sketch_experimental.get_theta, hn, ht, he]
  · simp only [theta_sketch_experimental.get_upper_bound,
      theta_sketch_experimental.is_estimation_mode, theta_sketch_experimental.get_theta, hn, ht, he]

/-- C5 at the sample Update Sketch with slots `7, -, 3, 5`, compacted in order. -/
theorem C5_compact_preserves_witness :
    (theta_sketch_experimental.compact
        (compact_theta_sketch_experimental.ofBase sample_seed_hash (.update sample_update_sketch)
          true)).get_theta64 = 9 ∧
      (theta_sketch_experimental.compact
        (compact_theta_sketch_experimental.ofBase sample_seed_hash (.update sample_update_sketch)
          true)).get_num_retained = 3 ∧
      (theta_sketch_experimental.compact
        (compact_theta_sketch_experimental.ofBase sample_seed_hash (.update sample_update_sketch)
          true)).get_estimate (2 ^ 63 - 1) =
        (theta_sketch_experimental.update sample_update_sketch).get_estimate (2 ^ 63 - 1) := by
  have h := C5_compact_preserves sample_seed_hash (2 ^ 63 - 1) sample_failing_bound
    sample_failing_bound (.update sample_update_sketch) true
    (by unfold theta_sketch_experimental.count_consistent; decide)
  exact ⟨h.1, h.2.2.2.1, h.2.2.2.2.1⟩

/-- C6, what the code does: the ordered flag of a compaction result is the ordered flag of the
source, whatever was requested; for an Update Sketch it is `false`. -/
theorem compact_is_ordered (compute_seed_hash : Nat → Nat) (src : theta_sketch_experimental)
    (ordered : Bool) :
    (compact_theta_sketch_experimental.ofBase compute_seed_hash src ordered).is_ordered =
      src.is_ordered := rfl

/-- C6 at the failing input: `compact(true)` of the sample Update Sketch with slots `7, -, 3, 5`
holds the entries `3, 5, 7` in ascending order, and reports `is_ordered() == false`. -/
theorem C6_compact_ordered_flag_lost :
    (sample_update_sketch.compact sample_seed_hash true).entries_ = [3, 5, 7] ∧
      (sample_update_sketch.compact sample_seed_hash true).is_ordered = false := by
  decide

/-! ## Estimate -/

theorem get_estimate_rounded (MAX_THETA : Nat) (s : theta_sketch_experimental)
    (hpos : 0 < s.get_theta64) (hle : s.get_theta64 ≤ MAX_THETA) :
    s.get_estimate MAX_THETA =
        Dbl.fin (roundToDouble ((s.get_num_retained : ℚ) /
          roundToDouble (roundToDouble (s.get_theta64 : ℚ) / roundToDouble (MAX_THETA : ℚ)))) ∧
      (s.get_theta64 = MAX_THETA → s.get_estimate MAX_THETA = Dbl.fin (s.get_num_retained : ℚ)) := by
  have h1 : (0 : ℚ) < roundToDouble (s.get_theta64 : ℚ) :=
    roundToDouble_pos (by exact_mod_cast hpos)
  have h2 : (0 : ℚ) < roundToDouble (MAX_THETA : ℚ) :=
    roundToDouble_pos (by exact_mod_cast lt_of_lt_of_le hpos hle)
  have h3 : (0 : ℚ) <
      roundToDouble (roundToDouble (s.get_theta64 : ℚ) / roundToDouble (MAX_THETA : ℚ)) :=
    roundToDouble_pos (div_pos h1 h2)
  have hest : s.get_estimate MAX_THETA =
      Dbl.fin (roundToDouble ((s.get_num_retained : ℚ) /
        roundToDouble (roundToDouble (s.get_theta64 : ℚ) / roundToDouble (MAX_THETA : ℚ)))) := by
    rw [theta_sketch_experimental.get_estimate, theta_sketch_experimental.get_theta,
      s.ofNat_get_num_retained, Dbl.ofNat, Dbl.ofNat, Dbl.div_fin _ _ (ne_of_gt h2),
      Dbl.div_fin _ _ (ne_of_gt h3)]
  refine ⟨hest, fun heq => ?_⟩
  rw [hest, heq, div_self (ne_of_gt h2)]
  have hone : roundToDouble (1 : ℚ) = 1 := by
    simpa using roundToDouble_natCast 1 (by norm_num)
  rw [hone, div_one,
    roundToDouble_natCast _ (lt_of_lt_of_le s.get_num_retained_lt (by norm_num))]

theorem get_estimate_error (MAX_THETA : Nat) (s : theta_sketch_experimental)
    (hpos : 0 < s.get_theta64) (hle : s.get_theta64 ≤ MAX_THETA) :
    |roundToDouble ((s.get_num_retained : ℚ) /
          roundToDouble (roundToDouble (s.get_theta64 : ℚ) / roundToDouble (MAX_THETA : ℚ))) -
        (s.get_num_retained : ℚ) * MAX_THETA / s.get_theta64| ≤
      (s.get_num_retained : ℚ) * MAX_THETA / s.get_theta64 / 2 ^ 50 := by
  have hθ : (0 : ℚ) < s.get_theta64 := by exact_mod_cast hpos
  have hM : (0 : ℚ) < MAX_THETA := by exact_mod_cast lt_of_lt_of_le hpos hle
  have hn : (0 : ℚ) ≤ s.get_num_retained := Nat.cast_nonneg _
  have ha0 : (0 : ℚ) < roundToDouble (s.get_theta64 : ℚ) := roundToDouble_pos hθ
  have hb0 : (0 : ℚ) < roundToDouble (MAX_THETA : ℚ) := roundToDouble_pos hM
  have ht0 : (0 : ℚ) <
      roundToDouble (roundToDouble (s.get_theta64 : ℚ) / roundToDouble (MAX_THETA : ℚ)) :=
    roundToDouble_pos (div_pos ha0 hb0)
  have ha := roundToDouble_bounds (le_of_lt hθ)
  have hb := roundToDouble_bounds (le_of_lt hM)
  have ht := roundToDouble_bounds (le_of_lt (div_pos ha0 hb0))
  have hE := roundToDouble_bounds (div_nonneg hn (le_of_lt ht0))
  generalize roundToDouble (s.get_theta64 : ℚ) = a at *
  generalize roundToDouble (MAX_THETA : ℚ) = b at *
  generalize roundToDouble (a / b) = t at *
  generalize roundToDouble ((s.get_num_retained : ℚ) / t) = E at *
  generalize (s.get_num_retained : ℚ) = n at *
  generalize (s.get_theta64 : ℚ) = θ at *
  generalize (MAX_THETA : ℚ) = M at *
  have ht1 : (1 - 1 / 2 ^ 53) * a ≤ t * b := by
    have := mul_le_mul_of_nonneg_right ht.1 (le_of_lt hb0)
    rwa [mul_assoc, div_mul_cancel₀ _ (ne_of_gt hb0)] at this
  have ht2 : t * b ≤ (1 + 1 / 2 ^ 53) * a := by
    have := mul_le_mul_of_nonneg_right ht.2 (le_of_lt hb0)
    rwa [mul_assoc, div_mul_cancel₀ _ (ne_of_gt hb0)] at this
  have hE1 : (1 - 1 / 2 ^ 53) * n ≤ E * t := by
    have := mul_le_mul_of_nonneg_right hE.1 (le_of_lt ht0)
    rwa [mul_assoc, div_mul_cancel₀ _ (ne_of_gt ht0)] at this
  have hE2 : E * t ≤ (1 + 1 / 2 ^ 53) * n := by
    have := mul_le_mul_of_nonneg_right hE.2 (le_of_lt ht0)
    rwa [mul_assoc, div_mul_cancel₀ _ (ne_of_gt ht0)] at this
  have hE0 : 0 ≤ E :=
    le_trans (mul_nonneg (by norm_num) (div_nonneg hn (le_of_lt ht0))) hE.1
  have key := quotient_chain (1 / 2 ^ 53) θ M n a b t E (by norm_num) (by norm_num) hM hn
    (le_of_lt hb0) hE0 ha.1 ha.2 hb.1 hb.2 ht1 ht2 hE1 hE2
  have hsub : E - n * M / θ = (E * θ - n * M) / θ := by
    field_simp
  have habs : |E * θ - n * M| ≤ n * M / 2 ^ 50 := by
    rw [abs_le]
    constructor <;> linarith [key.1, key.2]
  rw [hsub, abs_div, abs_of_pos hθ]
  calc |E * θ - n * M| / θ ≤ n * M / 2 ^ 50 / θ := div_le_div_of_nonneg_right habs (le_of_lt hθ)
    _ = n * M / θ / 2 ^ 50 := by ring

/-- C1, as the code has it: for a sketch with `0 < theta <= MAX_THETA` the estimate is finite and
is the quotient `n / t` rounded to the nearest double, where `t` is the rounded quotient of
`double(theta)` by `double(MAX_THETA)`; it lies within relative error `2 ^ (-50)` of the exact
rational `n * MAX_THETA / theta`; and when theta equals MAX_THETA it is the retained count,
exactly. -/
theorem C1_get_estimate (MAX_THETA : Nat) (s : theta_sketch_experimental)
    (hpos : 0 < s.get_theta64) (hle : s.get_theta64 ≤ MAX_THETA) :
    s.get_estimate MAX_THETA =
        Dbl.fin (roundToDouble ((s.get_num_retained : ℚ) /
          roundToDouble (roundToDouble (s.get_theta64 : ℚ) / roundToDouble (MAX_THETA : ℚ)))) ∧
      |roundToDouble ((s.get_num_retained : ℚ) /
            roundToDouble (roundToDouble (s.get_theta64 : ℚ) / roundToDouble (MAX_THETA : ℚ))) -
          (s.get_num_retained : ℚ) * MAX_THETA / s.get_theta64| ≤
        (s.get_num_retained : ℚ) * MAX_THETA / s.get_theta64 / 2 ^ 50 ∧
      (s.get_theta64 = MAX_THETA → s.get_estimate MAX_THETA = Dbl.fin (s.get_num_retained : ℚ)) :=
  ⟨(get_estimate_rounded MAX_THETA s hpos hle).1, get_estimate_error MAX_THETA s hpos hle,
    (get_estimate_rounded MAX_THETA s hpos hle).2⟩

/-- C1 at the sample Compact Sketch (theta 3, one retained hash) with MAX_THETA `2 ^ 63 - 1`: the
estimate is a finite double within relative error `2 ^ (-50)` of `(2 ^ 63 - 1) / 3`. -/
theorem C1_get_estimate_witness :
    ∃ q : ℚ,
      (theta_sketch_experimental.compact sample_compact_sketch).get_estimate (2 ^ 63 - 1) =
        Dbl.fin q ∧
      |q - ((theta_sketch_experimental.compact sample_compact_sketch).get_num_retained : ℚ) *
            ((2 ^ 63 - 1 : ℕ) : ℚ) /
            ((theta_sketch_experimental.compact sample_compact_sketch).get_theta64 : ℚ)| ≤
        ((theta_sketch_experimental.compact sample_compact_sketch).get_num_retained : ℚ) *
            ((2 ^ 63 - 1 : ℕ) : ℚ) /
            ((theta_sketch_experimental.compact sample_compact_sketch).get_theta64 : ℚ) / 2 ^ 50 :=
  ⟨_, (C1_get_estimate (2 ^ 63 - 1) (.compact sample_compact_sketch) (by decide) (by decide)).1,
    (C1_get_estimate (2 ^ 63 - 1) (.compact sample_compact_sketch) (by decide) (by decide)).2.1⟩

/-- C1, the claim as stated fails: with MAX_THETA `2 ^ 63 - 1`, the sample Compact Sketch has
theta 3 and retains one hash; its estimate is the double `3074457345618258432`, and not the
rational `1 * (2 ^ 63 - 1) / 3`. -/
theorem C1_counterexample :
    0 < (theta_sketch_experimental.compact sample_compact_sketch).get_theta64 ∧
      (theta_sketch_experimental.compact sample_compact_sketch).get_theta64 ≤ 2 ^ 63 - 1 ∧
      (theta_sketch_experimental.compact sample_compact_sketch).get_estimate (2 ^ 63 - 1) =
        Dbl.fin 3074457345618258432 ∧
      (theta_sketch_experimental.compact sample_compact_sketch).get_estimate (2 ^ 63 - 1) ≠
        Dbl.fin
          (((theta_sketch_experimental.compact sample_compact_sketch).get_num_retained : ℚ) *
            ((2 ^ 63 - 1 : ℕ) : ℚ) /
            ((theta_sketch_experimental.compact sample_compact_sketch).get_theta64 : ℚ)) := by
  have hn : (theta_sketch_experimental.compact sample_compact_sketch).get_num_retained = 1 := by
    decide
  have ht : (theta_sketch_experimental.compact sample_compact_sketch).get_theta64 = 3 := rfl
  have hest : (theta_sketch_experimental.compact sample_compact_sketch).get_estimate (2 ^ 63 - 1) =
      Dbl.fin 3074457345618258432 := by
    rw [(get_estimate_rounded (2 ^ 63 - 1) (.compact sample_compact_sketch) (by decide)
      (by decide)).1, hn, ht, roundToDouble_max_theta]
    have h3 : roundToDouble ((3 : ℕ) : ℚ) = 3 := by
      simpa using roundToDouble_natCast 3 (by norm_num)
    rw [h3, roundToDouble_three_fraction]
    have : ((1 : ℕ) : ℚ) / (3 / 2 ^ 63) = (2 : ℚ) ^ 63 / 3 := by norm_num
    rw [this, roundToDouble_third]
  refine ⟨by decide, by decide, hest, ?_⟩
  rw [hest, hn, ht]
  intro h
  injection h with h
  norm_num at h

/-- C3: a sketch whose theta is still MAX_THETA and that retains `n` entries has estimate `n`, and
lower and upper bound `n` for every number of standard deviations, whatever the Bound Estimator
would answer. -/
theorem C3_exact_below_threshold (MAX_THETA : Nat) (lb ub : Nat → Dbl → Nat → Except String Dbl)
    (s : theta_sketch_experimental) (hmax : 0 < MAX_THETA) (htheta : s.get_theta64 = MAX_THETA) :
    s.get_estimate MAX_THETA = Dbl.fin (s.get_num_retained : ℚ) ∧
      ∀ k : Nat,
        s.get_lower_bound MAX_THETA lb k = .ok (Dbl.fin (s.get_num_retained : ℚ)) ∧
        s.get_upper_bound MAX_THETA ub k = .ok (Dbl.fin (s.get_num_retained : ℚ)) := by
  have hmode : s.is_estimation_mode MAX_THETA = false := by
    simp [theta_sketch_experimental.is_estimation_mode, htheta]
  refine ⟨(get_estimate_rounded MAX_THETA s (by omega) (by omega)).2 htheta, fun k => ?_⟩
  simp [theta_sketch_experimental.get_lower_bound, theta_sketch_experimental.get_upper_bound,
    hmode, s.ofNat_get_num_retained]

/-! ## Entry table: screening and theta -/

namespace theta_update_sketch_base

theorem mem_iterator_set {EN : Type} (EK : EN → Nat) (l : List EN) (i n : Nat) (x e : EN)
    (he : e ∈ theta_iterator EK (l.set i x) n) : e ∈ theta_iterator EK l n ∨ e = x := by
  simp only [theta_iterator, List.mem_filter, List.set_take] at he ⊢
  rcases List.mem_or_eq_of_mem_set he.1 with h | h
  · exact Or.inl ⟨h, he.2⟩
  · exact Or.inr h

theorem mem_iterator_pad {EN : Type} (EK : EN → Nat) (blank : EN) (hblank : EK blank = 0)
    (l : List EN) (m n : Nat) (e : EN)
    (he : e ∈ theta_iterator EK (l ++ List.replicate m blank) n) : e ∈ l := by
  simp only [theta_iterator, List.mem_filter] at he
  rcases List.mem_append.mp (List.mem_of_mem_take he.1) with h | h
  · exact h
  · have := (List.mem_replicate.mp h).2
    subst this
    simp [hblank] at he

theorem iterator_pad_eq {EN : Type} (EK : EN → Nat) (blank : EN) (hblank : EK blank = 0)
    (l : List EN) (m n : Nat) (hl : ∀ e ∈ l, EK e ≠ 0) (hn : l.length ≤ n) :
    theta_iterator EK (l ++ List.replicate m blank) n = l := by
  simp only [theta_iterator, List.take_append_eq_append_take, List.take_of_length_le hn,
    List.filter_append, List.take_replicate, List.filter_replicate, hblank]
  simp only [bne_self_eq_false, Bool.false_eq_true, if_false, List.append_nil]
  exact List.filter_eq_self.mpr (fun e he => by simpa using hl e he)

theorem resize_screened {EN : Type} (EK : EN → Nat) (blank : EN) (hblank : EK blank = 0)
    (t : theta_update_sketch_base EN) (h : t.screened EK) : (t.resize EK blank).screened EK := by
  intro e he
  exact h e (mem_iterator_pad EK blank hblank _ _ _ e he)

theorem kth_smallest_mem {EN : Type} (EK : EN → Nat) (entries : List EN) (size k th : Nat)
    (h : kth_smallest EK entries size k = some th) :
    ∃ e ∈ theta_iterator EK entries size, EK e = th := by
  have h1 : th ∈ ((theta_iterator EK entries size).map EK).insertionSort (fun a b => a ≤ b) :=
    List.getElem?_mem h
  have h2 := (List.perm_insertionSort _ _).mem_iff.mp h1
  simpa using h2

theorem rebuild_screened {EN : Type} (EK : EN → Nat) (blank : EN) (hblank : EK blank = 0)
    (t : theta_update_sketch_base EN) (h : t.screened EK) : (t.rebuild EK blank).screened EK := by
  unfold rebuild
  split
  · exact h
  · intro e he
    have := mem_iterator_pad EK blank hblank _ _ _ e he
    simpa using (List.mem_filter.mp this).2

theorem rebuild_theta_le {EN : Type} (EK : EN → Nat) (blank : EN)
    (t : theta_update_sketch_base EN) (h : t.screened EK) :
    (t.rebuild EK blank).theta_ ≤ t.theta_ := by
  unfold rebuild
  split
  · exact le_refl _
  · rename_i th hth
    obtain ⟨e, he, hk⟩ := kth_smallest_mem EK _ _ _ _ hth
    have := h e he
    simp only
    omega

theorem set_screened {EN : Type} (EK : EN → Nat) (t : theta_update_sketch_base EN) (idx n : Nat)
    (entry : EN) (h : t.screened EK) (hentry : EK entry < t.theta_) :
    screened EK { t with entries_ := t.entries_.set idx entry, num_entries_ := n } := by
  intro e he
  rcases mem_iterator_set EK _ _ _ _ e he with h1 | h1
  · exact h e h1
  · rw [h1]; exact hentry

theorem insert_screened {EN : Type} (EK : EN → Nat) (blank : EN) (hblank : EK blank = 0)
    (threshold : Nat → Nat) (t : theta_update_sketch_base EN) (idx : Nat) (entry : EN)
    (h : t.screened EK) (hentry : EK entry < t.theta_) :
    (t.insert EK blank threshold idx entry).screened EK := by
  have h1 := set_screened EK t idx (t.num_entries_ + 1) entry h hentry
  unfold insert
  split_ifs
  · exact resize_screened EK blank hblank _ h1
  · exact rebuild_screened EK blank hblank _ h1
  · exact h1

theorem insert_theta_le {EN : Type} (EK : EN → Nat) (blank : EN) (threshold : Nat → Nat)
    (t : theta_update_sketch_base EN) (idx : Nat) (entry : EN)
    (h : t.screened EK) (hentry : EK entry < t.theta_) :
    (t.insert EK blank threshold idx entry).theta_ ≤ t.theta_ := by
  have h1 := set_screened EK t idx (t.num_entries_ + 1) entry h hentry
  unfold insert
  split_ifs
  · exact le_refl _
  · exact rebuild_theta_le EK blank _ h1
  · exact le_refl _

theorem trim_screened {EN : Type} (EK : EN → Nat) (blank : EN) (hblank : EK blank = 0)
    (threshold : Nat → Nat) (t : theta_update_sketch_base EN) (h : t.screened EK) :
    (t.trim EK blank threshold).screened EK := by
  intro e he
  exact h e (mem_iterator_pad EK blank hblank _ _ _ e he)

end theta_update_sketch_base

/-! ## Update Sketch: screening and monotonicity of theta -/

namespace update_theta_sketch_experimental

theorem update_cases (compute_hash : List Nat → Nat → Nat) (threshold : Nat → Nat)
    (s : update_theta_sketch_experimental) (data : List Nat) :
    (s.update compute_hash threshold data).table_ = { s.table_ with is_empty_ := false } ∨
      ∃ idx h, h < s.table_.theta_ ∧
        (s.update compute_hash threshold data).table_ =
          theta_update_sketch_base.insert id 0 threshold { s.table_ with is_empty_ := false }
            idx h := by
  have hlt : (s.table_.hash_and_screen compute_hash data).2 ≠ 0 →
      (s.table_.hash_and_screen compute_hash data).2 < s.table_.theta_ := by
    unfold theta_update_sketch_base.hash_and_screen
    simp only
    split_ifs with h3
    · intro h; exact absurd rfl h
    · intro _; omega
  unfold update
  by_cases h1 : (s.table_.hash_and_screen compute_hash data).2 = 0
  · rw [if_pos h1]; exact Or.inl rfl
  · rw [if_neg h1]
    split_ifs with h2
    · exact Or.inr ⟨_, _, hlt h1, rfl⟩
    · exact Or.inl rfl

theorem call_cases {F D : Type} (widen : F → D) (canonical_double : D → Int)
    (compute_hash : List Nat → Nat → Nat) (threshold : Nat → Nat)
    (s : update_theta_sketch_experimental) (c : mutating_call F D) :
    s.call widen canonical_double compute_hash threshold c = s ∨
      (∃ data, s.call widen canonical_double compute_hash threshold c =
        s.update compute_hash threshold data) ∨
      s.call widen canonical_double compute_hash threshold c = s.trim threshold := by
  cases c with
  | update_string v =>
    by_cases hv : v.isEmpty = true
    · exact Or.inl (by simp [call, update_string, hv])
    · exact Or.inr (Or.inl ⟨v, by simp [call, update_string, hv]⟩)
  | trim => exact Or.inr (Or.inr rfl)
  | _ => exact Or.inr (Or.inl ⟨_, rfl⟩)

theorem screened_iff (s : update_theta_sketch_experimental) :
    (theta_sketch_experimental.update s).screened ↔ s.table_.screened id := by
  constructor
  · intro h e he
    exact (h e he).2
  · intro h e he
    exact ⟨Nat.pos_of_ne_zero (mem_theta_iterator_ne_zero id _ _ he), h e he⟩

theorem update_screened (compute_hash : List Nat → Nat → Nat) (threshold : Nat → Nat)
    (s : update_theta_sketch_experimental) (data : List Nat)
    (h : (theta_sketch_experimental.update s).screened) :
    (theta_sketch_experimental.update (s.update compute_hash threshold data)).screened := by
  rw [screened_iff] at h ⊢
  have h0 : theta_update_sketch_base.screened id
      ({ s.table_ with is_empty_ := false } : theta_update_sketch_base Nat) := h
  rcases update_cases compute_hash threshold s data with h1 | ⟨idx, k, hk, h1⟩
  · rw [h1]; exact h0
  · rw [h1]
    exact theta_update_sketch_base.insert_screened id 0 rfl threshold _ idx k h0 hk

theorem update_theta_le (compute_hash : List Nat → Nat → Nat) (threshold : Nat → Nat)
    (s : update_theta_sketch_experimental) (data : List Nat)
    (h : (theta_sketch_experimental.update s).screened) :
    (s.update compute_hash threshold data).get_theta64 ≤ s.get_theta64 := by
  rw [screened_iff] at h
  have h0 : theta_update_sketch_base.screened id
      ({ s.table_ with is_empty_ := false } : theta_update_sketch_base Nat) := h
  unfold get_theta64
  rcases update_cases compute_hash threshold s data with h1 | ⟨idx, k, hk, h1⟩
  · rw [h1]
  · rw [h1]
    exact theta_update_sketch_base.insert_theta_le id 0 threshold _ idx k h0 hk

theorem trim_keeps_screened (threshold : Nat → Nat) (s : update_theta_sketch_experimental)
    (h : (theta_sketch_experimental.update s).screened) :
    (theta_sketch_experimental.update (s.trim threshold)).screened := by
  rw [screened_iff] at h ⊢
  exact theta_update_sketch_base.trim_screened id 0 rfl threshold _ h

end update_theta_sketch_experimental

theorem ofBase_screened (compute_seed_hash : Nat → Nat) (src : theta_sketch_experimental)
    (ordered : Bool) (h : src.screened) :
    (theta_sketch_experimental.compact
      (compact_theta_sketch_experimental.ofBase compute_seed_hash src ordered)).screened := by
  intro x hx
  refine h x ?_
  have hmem : x ∈ (compact_theta_sketch_experimental.ofBase compute_seed_hash src
      ordered).entries_ := by
    have h1 : x ∈ theta_iterator id
        (compact_theta_sketch_experimental.ofBase compute_seed_hash src ordered).entries_
        (compact_theta_sketch_experimental.ofBase compute_seed_hash src ordered).entries_.length :=
      hx
    simp only [theta_iterator, List.mem_filter] at h1
    exact List.mem_of_mem_take h1.1
  simp only [compact_theta_sketch_experimental.ofBase] at hmem
  split_ifs at hmem
  · exact (List.perm_insertionSort _ _).mem_iff.mp hmem
  · exact hmem

/-- C8: the screening invariant `0 < hash < theta` for every retained entry is preserved by every
mutating call on an Update Sketch (each `update` overload and `trim`), and it carries over from
any source sketch to the result of `compact(ordered)` for both values of `ordered`. A sketch whose
slots are all free satisfies it. -/
theorem C8_screening_invariant {F D : Type} (widen : F → D) (canonical_double : D → Int)
    (compute_hash : List Nat → Nat → Nat) (threshold : Nat → Nat)
    (compute_seed_hash : Nat → Nat) (s : update_theta_sketch_experimental)
    (src : theta_sketch_experimental)
    (hs : (theta_sketch_experimental.update s).screened) (hsrc : src.screened) :
    (∀ c : mutating_call F D,
        (theta_sketch_experimental.update
          (s.call widen canonical_double compute_hash threshold c)).screened) ∧
      (∀ ordered : Bool,
        (theta_sketch_experimental.compact
          (compact_theta_sketch_experimental.ofBase compute_seed_hash src ordered)).screened) ∧
      (∀ t : theta_update_sketch_base Nat, (∀ e ∈ t.entries_, e = 0) →
        (theta_sketch_experimental.update ⟨t⟩).screened) := by
  refine ⟨fun c => ?_, fun ordered => ofBase_screened compute_seed_hash src ordered hsrc, ?_⟩
  · rcases s.call_cases widen canonical_double compute_hash threshold c with h | ⟨data, h⟩ | h
    · rw [h]; exact hs
    · rw [h]; exact s.update_screened compute_hash threshold data hs
    · rw [h]; exact s.trim_keeps_screened threshold hs
  · intro t ht x hx
    have hx0 := mem_theta_iterator_ne_zero id _ _ hx
    have hx1 : x ∈ theta_iterator id t.entries_ (2 ^ t.lg_cur_size_) := hx
    simp only [theta_iterator, List.mem_filter] at hx1
    exact absurd (ht x (List.mem_of_mem_take hx1.1)) hx0

/-- C8 at the sample Update Sketch (slots `7, -, 3, 5`, theta 9): after `update(uint64_t 3)`,
which hashes to 4 and forces a rebuild, and after compaction of the sample Compact Sketch. -/
theorem C8_screening_invariant_witness :
    (theta_sketch_experimental.update
        (sample_update_sketch.call (fun x : Int => x) (fun x : Int => x) sample_hash
          sample_threshold (.update_uint64 3))).screened ∧
      (theta_sketch_experimental.compact
        (compact_theta_sketch_experimental.ofBase sample_seed_hash
          (.compact sample_compact_sketch) true)).screened := by
  have h := @C8_screening_invariant Int Int (fun x => x) (fun x => x) sample_hash
    sample_threshold sample_seed_hash sample_update_sketch (.compact sample_compact_sketch)
    (by unfold theta_sketch_experimental.screened; decide)
    (by unfold theta_sketch_experimental.screened; decide)
  exact ⟨h.1 (.update_uint64 3), h.2.1 true⟩

theorem tuple_union_update_ok {S : Type} (blank : Nat × S) (threshold : Nat → Nat)
    (policy : S → S → S) (compute_seed_hash : Nat → Nat) (u u' : tuple_union S)
    (sketch : tuple_sketch S)
    (h : tuple_union.update blank threshold policy compute_seed_hash u sketch = .ok u') :
    sketch.get_seed_hash = compute_seed_hash u.state_.table_.seed_ ∧
      u'.state_.union_theta_ = min u.state_.union_theta_ sketch.get_theta64 := by
  unfold tuple_union.update theta_union_base.update at h
  split_ifs at h with h1
  · simp only [Except.ok.injEq] at h
    subst h
    exact ⟨not_not.mp h1, rfl⟩

theorem tuple_union_update_total {S : Type} (blank : Nat × S) (threshold : Nat → Nat)
    (policy : S → S → S) (compute_seed_hash : Nat → Nat) (u : tuple_union S)
    (sketch : tuple_sketch S)
    (h : sketch.get_seed_hash = compute_seed_hash u.state_.table_.seed_) :
    ∃ u', tuple_union.update blank threshold policy compute_seed_hash u sketch = .ok u' := by
  unfold tuple_union.update theta_union_base.update
  simp [h]

/-- C9: theta never grows. For an Update Sketch state that satisfies the screening invariant,
`get_theta64()` after any mutating call (each `update` overload, `trim`) is at most its value
before; for a Union Engine, every ingest that returns leaves a running theta that is at most the
running theta before, and an ingest returns whenever the seed fingerprints match. -/
theorem C9_theta_monotone {F D S : Type} (widen : F → D) (canonical_double : D → Int)
    (compute_hash : List Nat → Nat → Nat) (threshold : Nat → Nat)
    (s : update_theta_sketch_experimental) (blank : Nat × S) (policy : S → S → S)
    (compute_seed_hash : Nat → Nat) (u : tuple_union S) (sketch : tuple_sketch S)
    (hs : (theta_sketch_experimental.update s).screened) :
    (∀ c : mutating_call F D,
        (s.call widen canonical_double compute_hash threshold c).get_theta64 ≤ s.get_theta64) ∧
      (∀ u', tuple_union.update blank threshold policy compute_seed_hash u sketch = .ok u' →
        u'.state_.union_theta_ ≤ u.state_.union_theta_) ∧
      (sketch.get_seed_hash = compute_seed_hash u.state_.table_.seed_ →
        ∃ u', tuple_union.update blank threshold policy compute_seed_hash u sketch = .ok u') := by
  refine ⟨fun c => ?_, fun u' hu => ?_,
    tuple_union_update_total blank threshold policy compute_seed_hash u sketch⟩
  · rcases s.call_cases widen canonical_double compute_hash threshold c with h | ⟨data, h⟩ | h
    · rw [h]
    · rw [h]; exact s.update_theta_le compute_hash threshold data hs
    · rw [h]; exact le_refl _
  · rw [(tuple_union_update_ok blank threshold policy compute_seed_hash u u' sketch hu).2]
    exact min_le_left _ _

/-- C9 at the sample states: `update(uint64_t 3)` on the sample Update Sketch forces a rebuild and
theta drops from 9 to 4; the fresh sample Union Engine ingests the sample tuple sketch and its
running theta drops from `2 ^ 63 - 1` to 9. -/
theorem C9_theta_monotone_witness :
    (sample_update_sketch.call (fun x : Int => x) (fun x : Int => x) sample_hash
        sample_threshold (.update_uint64 3)).get_theta64 ≤ sample_update_sketch.get_theta64 ∧
      ∃ u', tuple_union.update (0, 0) sample_threshold default_union_policy sample_seed_hash
          sample_union sample_tuple_sketch = .ok u' ∧
        u'.state_.union_theta_ ≤ sample_union.state_.union_theta_ := by
  have h := @C9_theta_monotone Int Int Nat (fun x => x) (fun x => x) sample_hash
    sample_threshold sample_update_sketch (0, 0) default_union_policy sample_seed_hash
    sample_union sample_tuple_sketch (by unfold theta_sketch_experimental.screened; decide)
  obtain ⟨u', hu'⟩ := h.2.2 rfl
  exact ⟨h.1 (.update_uint64 3), u', hu', h.2.1 u' hu'⟩

/-! ## Idempotence of ingest -/

namespace theta_update_sketch_base

theorem mem_iterator_of_mem (l : List Nat) (c : Nat) (hc : c ≠ 0) (hmem : c ∈ l) :
    c ∈ theta_iterator id l l.length := by
  simp only [theta_iterator, List.take_length, List.mem_filter]
  exact ⟨hmem, by simpa using hc⟩

theorem insert_flags (threshold : Nat → Nat) (t : theta_update_sketch_base Nat) (idx c : Nat) :
    (t.insert id 0 threshold idx c).is_empty_ = t.is_empty_ ∧
      (t.insert id 0 threshold idx c).seed_ = t.seed_ := by
  unfold insert
  split_ifs
  · exact ⟨rfl, rfl⟩
  · unfold rebuild
    split <;> exact ⟨rfl, rfl⟩
  · exact ⟨rfl, rfl⟩

theorem insert_mem (threshold : Nat → Nat) (t : theta_update_sketch_base Nat) (idx c : Nat)
    (hlen : t.entries_.length = 2 ^ t.lg_cur_size_) (hidx : idx < t.entries_.length)
    (hc : c ≠ 0) (hlt : c < (t.insert id 0 threshold idx c).theta_) :
    c ∈ (t.insert id 0 threshold idx c).entries_ := by
  have hset : c ∈ t.entries_.set idx c := List.mem_set _ _ hidx _
  have hocc : c ∈ theta_iterator id (t.entries_.set idx c) (2 ^ t.lg_cur_size_) := by
    have := mem_iterator_of_mem (t.entries_.set idx c) c hc hset
    rwa [List.length_set, hlen] at this
  unfold insert at hlt ⊢
  split_ifs at hlt ⊢
  · exact List.mem_append_left _ hocc
  · unfold rebuild at hlt ⊢
    split at hlt
    · rename_i hnone
      simp only [hnone]
      exact hset
    · rename_i th hsome
      simp only [hsome]
      exact List.mem_append_left _ (List.mem_filter.mpr ⟨hocc, by simpa using hlt⟩)
  · exact hset

end theta_update_sketch_base

namespace update_theta_sketch_experimental

theorem update_eq (compute_hash : List Nat → Nat → Nat) (threshold : Nat → Nat)
    (s : update_theta_sketch_experimental) (data : List Nat) :
    s.update compute_hash threshold data =
      if compute_hash data s.table_.seed_ = 0 ∨
          s.table_.theta_ ≤ compute_hash data s.table_.seed_ then
        ⟨{ s.table_ with is_empty_ := false }⟩
      else if (theta_update_sketch_base.find id
          ({ s.table_ with is_empty_ := false } : theta_update_sketch_base Nat)
          (compute_hash data s.table_.seed_)).2 = true then
        ⟨{ s.table_ with is_empty_ := false }⟩
      else
        ⟨theta_update_sketch_base.insert id 0 threshold
          ({ s.table_ with is_empty_ := false } : theta_update_sketch_base Nat)
          (theta_update_sketch_base.find id
            ({ s.table_ with is_empty_ := false } : theta_update_sketch_base Nat)
            (compute_hash data s.table_.seed_)).1
          (compute_hash data s.table_.seed_)⟩ := by
  unfold update theta_update_sketch_base.hash_and_screen
  simp only
  by_cases hth : s.table_.theta_ ≤ compute_hash data s.table_.seed_
  · simp [hth]
  · by_cases hc : compute_hash data s.table_.seed_ = 0
    · simp [hth, hc]
    · simp only [hth, hc, if_false, or_self]
      by_cases hf : (theta_update_sketch_base.find id
          ({ s.table_ with is_empty_ := false } : theta_update_sketch_base Nat)
          (compute_hash data s.table_.seed_)).2 = true
      · simp [hf]
      · simp [hf]

theorem find_found_iff (t : theta_update_sketch_base Nat) (c : Nat) :
    (t.find id c).2 = true ↔ c ∈ t.entries_ := by
  unfold theta_update_sketch_base.find
  split_ifs with h
  · simp only [true_iff]
    obtain ⟨x, hx, hpx⟩ := List.findIdx_lt_length.mp h
    have : x = c := by simpa using hpx
    rw [← this]
    exact hx
  · simp only [Bool.false_eq_true, false_iff]
    intro hmem
    exact h (List.findIdx_lt_length.mpr ⟨c, hmem, by simp⟩)

theorem find_free_slot (t : theta_update_sketch_base Nat) (c : Nat)
    (h : (t.find id c).2 ≠ true) :
    (t.find id c).1 = t.entries_.findIdx (fun e => id e == 0) := by
  unfold theta_update_sketch_base.find at h ⊢
  split_ifs at h ⊢ with h1
  · exact absurd rfl h
  · rfl

theorem update_of_retained (compute_hash : List Nat → Nat → Nat) (threshold : Nat → Nat)
    (s : update_theta_sketch_experimental) (data : List Nat)
    (hflag : s.table_.is_empty_ = false)
    (hmem : compute_hash data s.table_.seed_ ≠ 0 →
      compute_hash data s.table_.seed_ < s.table_.theta_ →
      compute_hash data s.table_.seed_ ∈ s.table_.entries_) :
    s.update compute_hash threshold data = s := by
  have hself : ({ s.table_ with is_empty_ := false } : theta_update_sketch_base Nat) =
      s.table_ := by
    cases hs : s.table_ with
    | mk a b c d e f g h =>
      rw [hs] at hflag
      simp only at hflag
      simp [hflag]
  rw [update_eq, hself]
  split_ifs with h1 h2
  · rfl
  · rfl
  · exfalso
    have h3 : compute_hash data s.table_.seed_ ≠ 0 := fun h => h1 (Or.inl h)
    have h4 : compute_hash data s.table_.seed_ < s.table_.theta_ := by
      by_contra h
      exact h1 (Or.inr (not_lt.mp h))
    exact h2 ((find_found_iff _ _).mpr (hmem h3 h4))

theorem update_settled (compute_hash : List Nat → Nat → Nat) (threshold : Nat → Nat)
    (s : update_theta_sketch_experimental) (data : List Nat)
    (hlen : s.table_.entries_.length = 2 ^ s.table_.lg_cur_size_)
    (hslot : 0 ∈ s.table_.entries_) :
    (s.update compute_hash threshold data).table_.is_empty_ = false ∧
      (s.update compute_hash threshold data).table_.seed_ = s.table_.seed_ ∧
      (compute_hash data s.table_.seed_ ≠ 0 →
        compute_hash data s.table_.seed_ < (s.update compute_hash threshold data).table_.theta_ →
        compute_hash data s.table_.seed_ ∈
          (s.update compute_hash threshold data).table_.entries_) := by
  have hfree : s.table_.entries_.findIdx (fun e => id e == 0) < s.table_.entries_.length :=
    List.findIdx_lt_length.mpr ⟨0, hslot, by simp⟩
  rw [update_eq]
  split_ifs with h1 h2
  · refine ⟨rfl, rfl, fun hc hlt => ?_⟩
    exfalso
    simp only at hlt
    rcases h1 with h1 | h1
    · exact hc h1
    · omega
  · exact ⟨rfl, rfl, fun _ _ => (find_found_iff _ _).mp h2⟩
  · rw [find_free_slot _ _ h2]
    have hfl := theta_update_sketch_base.insert_flags threshold
      ({ s.table_ with is_empty_ := false } : theta_update_sketch_base Nat)
      (s.table_.entries_.findIdx (fun e => id e == 0)) (compute_hash data s.table_.seed_)
    refine ⟨hfl.1, hfl.2, fun hc hlt => ?_⟩
    exact theta_update_sketch_base.insert_mem threshold
      ({ s.table_ with is_empty_ := false } : theta_update_sketch_base Nat) _ _ hlen hfree hc hlt

theorem update_update (compute_hash : List Nat → Nat → Nat) (threshold : Nat → Nat)
    (s : update_theta_sketch_experimental) (data : List Nat)
    (hlen : s.table_.entries_.length = 2 ^ s.table_.lg_cur_size_)
    (hslot : 0 ∈ s.table_.entries_) :
    (s.update compute_hash threshold data).update compute_hash threshold data =
      s.update compute_hash threshold data := by
  obtain ⟨h1, h2, h3⟩ := update_settled compute_hash threshold s data hlen hslot
  refine update_of_retained compute_hash threshold _ data h1 ?_
  rw [h2]
  exact h3

end update_theta_sketch_experimental

/-- C7: for an Update Sketch whose slot array has its `1 << lg_cur_size_` slots, one of them
free, and for every byte string, applying `update` to the same bytes `n >= 1` times leaves the
sketch in the state that one application produces: the same retained count, the same retained
hashes in the same slots, the same theta. -/
theorem C7_update_idempotent (compute_hash : List Nat → Nat → Nat) (threshold : Nat → Nat)
    (s : update_theta_sketch_experimental) (data : List Nat) (n : Nat)
    (hlen : s.table_.entries_.length = 2 ^ s.table_.lg_cur_size_)
    (hslot : 0 ∈ s.table_.entries_) (hn : 1 ≤ n) :
    Nat.iterate (fun x => x.update compute_hash threshold data) n s =
        s.update compute_hash threshold data ∧
      (Nat.iterate (fun x => x.update compute_hash threshold data) n s).get_num_retained =
        (s.update compute_hash threshold data).get_num_retained ∧
      (Nat.iterate (fun x => x.update compute_hash threshold data) n s).iter =
        (s.update compute_hash threshold data).iter ∧
      (Nat.iterate (fun x => x.update compute_hash threshold data) n s).get_theta64 =
        (s.update compute_hash threshold data).get_theta64 := by
  have key : Nat.iterate (fun x => x.update compute_hash threshold data) n s =
      s.update compute_hash threshold data := by
    induction n with
    | zero => omega
    | succ m ih =>
      rcases Nat.eq_zero_or_pos m with h0 | hpos
      · subst h0; rfl
      · rw [Function.iterate_succ_apply', ih hpos]
        exact update_theta_sketch_experimental.update_update compute_hash threshold s data hlen
          hslot
  rw [key]
  exact ⟨rfl, rfl, rfl, rfl⟩

/-- C7 at the sample Update Sketch (slots `7, -, 3, 5`, theta 9): three updates with the byte
string `[3]`, which hashes to 4 and forces a rebuild at the first update, leave the state of one
update. -/
theorem C7_update_idempotent_witness :
    Nat.iterate (fun x => x.update sample_hash sample_threshold [3]) 3 sample_update_sketch =
        sample_update_sketch.update sample_hash sample_threshold [3] ∧
      (sample_update_sketch.update sample_hash sample_threshold [3]).get_theta64 = 5 ∧
      (sample_update_sketch.update sample_hash sample_threshold [3]).iter = [4, 3] := by
  have h := C7_update_idempotent sample_hash sample_threshold sample_update_sketch [3] 3
    (by decide) (by decide) (by decide)
  exact ⟨h.1, by decide, by decide⟩

/-! ## The class invariant of the entry table is preserved

With a load-factor threshold below the number of slots and a growth factor of at least two, every
mutating call takes a table that satisfies `wf` to one that does; in particular the slot array
keeps its size and a free slot, which is what idempotence of ingest needs. -/

namespace theta_update_sketch_base

theorem occupied_eq_filter {EN : Type} (EK : EN → Nat) (t : theta_update_sketch_base EN)
    (hlen : t.entries_.length = 2 ^ t.lg_cur_size_) :
    t.occupied EK = t.entries_.filter (fun e => EK e != 0) := by
  simp only [occupied, theta_iterator, ← hlen, List.take_length]

theorem filter_set_perm {EN : Type} (p : EN → Bool) (c : EN) (hc : p c = true) :
    ∀ (l : List EN) (i : Nat) (hi : i < l.length), p (l.get ⟨i, hi⟩) = false →
      ((l.set i c).filter p).Perm (c :: l.filter p) := by
  intro l
  induction l with
  | nil => intro i hi; simp at hi
  | cons x xs ih =>
    intro i hi hpi
    cases i with
    | zero =>
      have hx : p x = false := by simpa using hpi
      simp [List.filter_cons, hc, hx]
    | succ j =>
      have hj : j < xs.length := by simpa using hi
      have ih' := ih j hj (by simpa using hpi)
      simp only [List.set_cons_succ, List.filter_cons]
      split_ifs with hx
      · exact (List.Perm.cons x ih').trans (List.Perm.swap c x _)
      · exact ih'

theorem findIdx_get_free {EN : Type} (EK : EN → Nat) (l : List EN)
    (h : l.findIdx (fun e => EK e == 0) < l.length) :
    (fun e => EK e != 0) (l.get ⟨l.findIdx (fun e => EK e == 0), h⟩) = false := by
  have := @List.findIdx_getElem _ (fun e => EK e == 0) l h
  simp only [List.get_eq_getElem]
  simpa using this

theorem wf_free {EN : Type} (EK : EN → Nat) (t : theta_update_sketch_base EN) (h : t.wf EK) :
    t.entries_.findIdx (fun e => EK e == 0) < t.entries_.length := by
  obtain ⟨hlen, hnum, hfree, -, -⟩ := h
  rw [List.findIdx_lt_length]
  have h1 : (t.entries_.filter (fun e => EK e != 0)).length < t.entries_.length := by
    have h2 := occupied_eq_filter EK t hlen
    unfold occupied at h2
    rw [← h2, ← hnum, hlen]
    exact hfree
  obtain ⟨x, hx, hpx⟩ := List.length_filter_lt_length_iff_exists.mp h1
  exact ⟨x, hx, by simpa using hpx⟩

theorem set_wf_parts {EN : Type} (EK : EN → Nat) (t : theta_update_sketch_base EN) (entry : EN)
    (hwf : t.wf EK) (hkey : EK entry ≠ 0) (hlt : EK entry < t.theta_)
    (hnew : ∀ e ∈ t.entries_, EK e ≠ EK entry) :
    (t.entries_.set (t.entries_.findIdx (fun e => EK e == 0)) entry).length =
        2 ^ t.lg_cur_size_ ∧
      (theta_iterator EK (t.entries_.set (t.entries_.findIdx (fun e => EK e == 0)) entry)
          (2 ^ t.lg_cur_size_)).length = t.num_entries_ + 1 ∧
      ((theta_iterator EK (t.entries_.set (t.entries_.findIdx (fun e => EK e == 0)) entry)
          (2 ^ t.lg_cur_size_)).map EK).Nodup ∧
      (∀ e ∈ theta_iterator EK (t.entries_.set (t.entries_.findIdx (fun e => EK e == 0)) entry)
          (2 ^ t.lg_cur_size_), EK e < t.theta_) := by
  have hfree := wf_free EK t hwf
  obtain ⟨hlen, hnum, -, hnodup, hscr⟩ := hwf
  have hocc : theta_iterator EK t.entries_ (2 ^ t.lg_cur_size_) =
      t.entries_.filter (fun e => EK e != 0) := occupied_eq_filter EK t hlen
  have hocc1 : theta_iterator EK (t.entries_.set (t.entries_.findIdx (fun e => EK e == 0)) entry)
      (2 ^ t.lg_cur_size_) =
      (t.entries_.set (t.entries_.findIdx (fun e => EK e == 0)) entry).filter
        (fun e => EK e != 0) := by
    simp only [theta_iterator]
    rw [List.take_of_length_le (by rw [List.length_set, hlen])]
  have hperm := filter_set_perm (fun e => EK e != 0) entry (by simpa using hkey) t.entries_
    (t.entries_.findIdx (fun e => EK e == 0)) hfree (findIdx_get_free EK t.entries_ hfree)
  rw [hocc1]
  rw [hocc] at hnum hnodup hscr
  refine ⟨by rw [List.length_set, hlen], ?_, ?_, ?_⟩
  · rw [hperm.length_eq, List.length_cons, ← hnum]
  · rw [(hperm.map EK).nodup_iff, List.map_cons, List.nodup_cons]
    refine ⟨?_, hnodup⟩
    intro hmem
    obtain ⟨e, he, hk⟩ := List.mem_map.mp hmem
    exact hnew e (List.mem_of_mem_filter he) hk
  · intro e he
    rcases List.mem_cons.mp (hperm.mem_iff.mp he) with h | h
    · rw [h]; exact hlt
    · exact hscr e h

theorem wf_of_pad {EN : Type} (EK : EN → Nat) (blank : EN) (hblank : EK blank = 0)
    (t : theta_update_sketch_base EN) (l : List EN)
    (hent : t.entries_ = l ++ List.replicate (2 ^ t.lg_cur_size_ - l.length) blank)
    (hnum : t.num_entries_ = l.length) (hl0 : ∀ e ∈ l, EK e ≠ 0)
    (hlen : l.length < 2 ^ t.lg_cur_size_) (hnodup : (l.map EK).Nodup)
    (hscr : ∀ e ∈ l, EK e < t.theta_) : t.wf EK := by
  have hocc : theta_iterator EK t.entries_ (2 ^ t.lg_cur_size_) = l := by
    rw [hent]
    exact iterator_pad_eq EK blank hblank l _ _ hl0 (le_of_lt hlen)
  refine ⟨?_, ?_, ?_, ?_, ?_⟩
  · rw [hent, List.length_append, List.length_replicate]
    omega
  · rw [hocc, hnum]
  · rw [hnum]; exact hlen
  · rw [hocc]; exact hnodup
  · rw [hocc]; exact hscr

theorem kth_smallest_none {EN : Type} (EK : EN → Nat) (entries : List EN) (size k : Nat)
    (h : kth_smallest EK entries size k = none) :
    (theta_iterator EK entries size).length ≤ k := by
  unfold kth_smallest at h
  rw [List.getElem?_eq_none_iff, List.length_insertionSort, List.length_map] at h
  omega

theorem insert_wf {EN : Type} (EK : EN → Nat) (blank : EN) (hblank : EK blank = 0)
    (threshold : Nat → Nat) (hthr : ∀ c, 0 < c → threshold c < c)
    (t : theta_update_sketch_base EN) (entry : EN) (hwf : t.wf EK) (hrf : 1 ≤ t.rf_)
    (hkey : EK entry ≠ 0) (hlt : EK entry < t.theta_)
    (hnew : ∀ e ∈ t.entries_, EK e ≠ EK entry) :
    (t.insert EK blank threshold (t.entries_.findIdx (fun e => EK e == 0)) entry).wf EK := by
  obtain ⟨h1, h2, h3, h4⟩ := set_wf_parts EK t entry hwf hkey hlt hnew
  have hfree : t.num_entries_ < 2 ^ t.lg_cur_size_ := hwf.2.2.1
  have hnz : ∀ e ∈ theta_iterator EK
      (t.entries_.set (t.entries_.findIdx (fun e => EK e == 0)) entry) (2 ^ t.lg_cur_size_),
      EK e ≠ 0 := fun e he => mem_theta_iterator_ne_zero EK _ _ he
  unfold insert
  split_ifs with ha hb
  · -- growth
    have hlg : t.lg_cur_size_ + 1 ≤ min (t.lg_cur_size_ + t.rf_) (t.lg_nom_size_ + 1) := by
      simp only [le_min_iff]
      omega
    have hpow : 2 ^ (t.lg_cur_size_ + 1) ≤
        2 ^ min (t.lg_cur_size_ + t.rf_) (t.lg_nom_size_ + 1) :=
      Nat.pow_le_pow_right (by norm_num) hlg
    rw [pow_succ] at hpow
    refine wf_of_pad EK blank hblank _ _ rfl ?_ hnz ?_ h3 h4
    · exact h2.symm
    · show _ < 2 ^ min (t.lg_cur_size_ + t.rf_) (t.lg_nom_size_ + 1)
      dsimp only
      omega
  · -- rebuild
    unfold rebuild
    split
    · rename_i hnone
      have hk := kth_smallest_none EK _ _ _ hnone
      simp only at hk
      have hpow : 2 ^ (t.lg_nom_size_ + 1) ≤ 2 ^ t.lg_cur_size_ :=
        Nat.pow_le_pow_right (by norm_num) (by omega)
      rw [pow_succ] at hpow
      have hpos : 0 < 2 ^ t.lg_nom_size_ := Nat.pos_pow_of_pos _ (by norm_num)
      exact ⟨h1, h2.symm, by simp only; omega, h3, h4⟩
    · rename_i th hsome
      obtain ⟨e, he, hek⟩ := kth_smallest_mem EK _ _ _ _ hsome
      simp only at he
      have hlt' : ((theta_iterator EK
          (t.entries_.set (t.entries_.findIdx (fun e => EK e == 0)) entry)
          (2 ^ t.lg_cur_size_)).filter (fun e => decide (EK e < th))).length <
          (theta_iterator EK (t.entries_.set (t.entries_.findIdx (fun e => EK e == 0)) entry)
          (2 ^ t.lg_cur_size_)).length :=
        List.length_filter_lt_length_iff_exists.mpr ⟨e, he, by simp [hek]⟩
      refine wf_of_pad EK blank hblank _ _ rfl rfl ?_ ?_ ?_ ?_
      · exact fun x hx => hnz x (List.mem_of_mem_filter hx)
      · show _ < 2 ^ t.lg_cur_size_
        dsimp only at hlt' ⊢
        omega
      · exact (List.Sublist.map EK (List.filter_sublist _)).nodup h3
      · intro x hx
        simpa using (List.mem_filter.mp hx).2
  · -- below the threshold
    have := hthr (2 ^ t.lg_cur_size_) (Nat.pos_pow_of_pos _ (by norm_num))
    exact ⟨h1, h2.symm, by simp only; omega, h3, h4⟩

theorem insert_rf {EN : Type} (EK : EN → Nat) (blank : EN) (threshold : Nat → Nat)
    (t : theta_update_sketch_base EN) (idx : Nat) (entry : EN) :
    (t.insert EK blank threshold idx entry).rf_ = t.rf_ := by
  unfold insert
  split_ifs
  · rfl
  · unfold rebuild
    split <;> rfl
  · rfl

theorem trim_wf {EN : Type} (EK : EN → Nat) (blank : EN) (hblank : EK blank = 0)
    (threshold : Nat → Nat) (hthr : ∀ c, 0 < c → threshold c < c)
    (t : theta_update_sketch_base EN) (hwf : t.wf EK) : (t.trim EK blank threshold).wf EK := by
  obtain ⟨-, hnum, hfree, hnodup, hscr⟩ := hwf
  refine wf_of_pad EK blank hblank _ (theta_iterator EK t.entries_ (2 ^ t.lg_cur_size_)) rfl hnum
    (fun e he => mem_theta_iterator_ne_zero EK _ _ he) ?_ hnodup hscr
  show _ < 2 ^ ((List.range t.lg_cur_size_).find?
    (fun l => t.num_entries_ ≤ threshold (2 ^ l))).getD t.lg_cur_size_
  rw [← hnum]
  cases hfind : (List.range t.lg_cur_size_).find? (fun l => t.num_entries_ ≤ threshold (2 ^ l)) with
  | none => simpa using hfree
  | some l =>
    have h1 := List.find?_some hfind
    have h2 := hthr (2 ^ l) (Nat.pos_pow_of_pos _ (by norm_num))
    simp only [decide_eq_true_eq] at h1
    simp only [Option.getD_some]
    omega

end theta_update_sketch_base

namespace update_theta_sketch_experimental

theorem update_wf (compute_hash : List Nat → Nat → Nat) (threshold : Nat → Nat)
    (hthr : ∀ c, 0 < c → threshold c < c) (s : update_theta_sketch_experimental)
    (data : List Nat) (hwf : s.table_.wf id) (hrf : 1 ≤ s.table_.rf_) :
    (s.update compute_hash threshold data).table_.wf id ∧
      1 ≤ (s.update compute_hash threshold data).table_.rf_ := by
  have hwf' : theta_update_sketch_base.wf id
      ({ s.table_ with is_empty_ := false } : theta_update_sketch_base Nat) := hwf
  rw [update_eq]
  split_ifs with h1 h2
  · exact ⟨hwf', hrf⟩
  · exact ⟨hwf', hrf⟩
  · rw [find_free_slot _ _ h2, theta_update_sketch_base.insert_rf]
    refine ⟨?_, hrf⟩
    have h3 : compute_hash data s.table_.seed_ ≠ 0 := fun h => h1 (Or.inl h)
    have h4 : compute_hash data s.table_.seed_ < s.table_.theta_ := by
      by_contra h
      exact h1 (Or.inr (not_lt.mp h))
    refine theta_update_sketch_base.insert_wf id 0 rfl threshold hthr _ _ hwf' hrf h3 h4 ?_
    intro e he heq
    apply h2
    rw [find_found_iff]
    have : e = compute_hash data s.table_.seed_ := heq
    rw [← this]
    exact he

theorem call_wf {F D : Type} (widen : F → D) (canonical_double : D → Int)
    (compute_hash : List Nat → Nat → Nat) (threshold : Nat → Nat)
    (hthr : ∀ c, 0 < c → threshold c < c) (s : update_theta_sketch_experimental)
    (c : mutating_call F D) (hwf : s.table_.wf id) (hrf : 1 ≤ s.table_.rf_) :
    (s.call widen canonical_double compute_hash threshold c).table_.wf id ∧
      1 ≤ (s.call widen canonical_double compute_hash threshold c).table_.rf_ := by
  rcases s.call_cases widen canonical_double compute_hash threshold c with h | ⟨data, h⟩ | h
  · rw [h]; exact ⟨hwf, hrf⟩
  · rw [h]; exact s.update_wf compute_hash threshold hthr data hwf hrf
  · rw [h]
    exact ⟨theta_update_sketch_base.trim_wf id 0 rfl threshold hthr _ hwf, hrf⟩

end update_theta_sketch_experimental

theorem wf_slots (t : theta_update_sketch_base Nat) (h : t.wf id) :
    t.entries_.length = 2 ^ t.lg_cur_size_ ∧ 0 ∈ t.entries_ := by
  refine ⟨h.1, ?_⟩
  obtain ⟨x, hx, hpx⟩ := List.findIdx_lt_length.mp (theta_update_sketch_base.wf_free id t h)
  have hx0 : x = 0 := by simpa using hpx
  rw [← hx0]
  exact hx

/-! ## Ingest without rebuild -/

namespace theta_update_sketch_base

theorem insert_below_ceiling (threshold : Nat → Nat) (t : theta_update_sketch_base Nat)
    (idx c : Nat) (hlg : t.lg_cur_size_ ≤ t.lg_nom_size_ + 1)
    (hroom : t.num_entries_ + 1 ≤ threshold (2 ^ (t.lg_nom_size_ + 1))) :
    (t.insert id 0 threshold idx c).theta_ = t.theta_ ∧
      (t.insert id 0 threshold idx c).num_entries_ = t.num_entries_ + 1 ∧
      (t.insert id 0 threshold idx c).lg_nom_size_ = t.lg_nom_size_ ∧
      (t.insert id 0 threshold idx c).lg_cur_size_ ≤ t.lg_nom_size_ + 1 ∧
      ∀ x ∈ (t.insert id 0 threshold idx c).entries_, x ∈ t.entries_ ∨ x = c ∨ x = 0 := by
  have hset : ∀ x ∈ t.entries_.set idx c, x ∈ t.entries_ ∨ x = c ∨ x = 0 := by
    intro x hx
    rcases List.mem_or_eq_of_mem_set hx with h | h
    · exact Or.inl h
    · exact Or.inr (Or.inl h)
  unfold insert
  split_ifs with ha hb
  · refine ⟨rfl, rfl, rfl, min_le_right _ _, ?_⟩
    intro x hx
    rcases List.mem_append.mp hx with h | h
    · have h1 : x ∈ theta_iterator id (t.entries_.set idx c) (2 ^ t.lg_cur_size_) := h
      simp only [theta_iterator, List.mem_filter] at h1
      exact hset x (List.mem_of_mem_take h1.1)
    · exact Or.inr (Or.inr (List.mem_replicate.mp h).2)
  · exfalso
    have : t.lg_cur_size_ = t.lg_nom_size_ + 1 := by omega
    rw [this] at ha
    omega
  · exact ⟨rfl, rfl, rfl, hlg, hset⟩

end theta_update_sketch_base

namespace update_theta_sketch_experimental

theorem update_new_entry (compute_hash : List Nat → Nat → Nat) (threshold : Nat → Nat)
    (s : update_theta_sketch_experimental) (data : List Nat)
    (hne : compute_hash data s.table_.seed_ ≠ 0)
    (hlt : compute_hash data s.table_.seed_ < s.table_.theta_)
    (hnew : compute_hash data s.table_.seed_ ∉ s.table_.entries_) :
    s.update compute_hash threshold data =
      ⟨theta_update_sketch_base.insert id 0 threshold
        ({ s.table_ with is_empty_ := false } : theta_update_sketch_base Nat)
        (s.table_.entries_.findIdx (fun e => id e == 0))
        (compute_hash data s.table_.seed_)⟩ := by
  have hnf : (theta_update_sketch_base.find id
      ({ s.table_ with is_empty_ := false } : theta_update_sketch_base Nat)
      (compute_hash data s.table_.seed_)).2 ≠ true := by
    rw [Ne, find_found_iff]
    exact hnew
  rw [update_eq, if_neg (by rintro (h | h) <;> omega), if_neg hnf, find_free_slot _ _ hnf]

theorem ingest_exact (compute_hash : List Nat → Nat → Nat) (threshold : Nat → Nat)
    (hthr : ∀ c, 0 < c → threshold c < c) :
    ∀ (datas : List (List Nat)) (s : update_theta_sketch_experimental),
      s.table_.wf id → 1 ≤ s.table_.rf_ → s.table_.lg_cur_size_ ≤ s.table_.lg_nom_size_ + 1 →
      (datas.map (fun d => compute_hash d s.table_.seed_)).Nodup →
      (∀ d ∈ datas, compute_hash d s.table_.seed_ ≠ 0 ∧
        compute_hash d s.table_.seed_ < s.table_.theta_ ∧
        compute_hash d s.table_.seed_ ∉ s.table_.entries_) →
      s.table_.num_entries_ + datas.length ≤ threshold (2 ^ (s.table_.lg_nom_size_ + 1)) →
      (datas.foldl (fun x d => x.update compute_hash threshold d) s).table_.theta_ =
          s.table_.theta_ ∧
        (datas.foldl (fun x d => x.update compute_hash threshold d) s).table_.num_entries_ =
          s.table_.num_entries_ + datas.length := by
  intro datas
  induction datas with
  | nil => intro s _ _ _ _ _ _; exact ⟨rfl, rfl⟩
  | cons d ds ih =>
    intro s hwf hrf hlg hnodup hall hroom
    have hd := hall d (List.mem_cons_self _ _)
    simp only [List.length_cons] at hroom
    have hwf' : theta_update_sketch_base.wf id
        ({ s.table_ with is_empty_ := false } : theta_update_sketch_base Nat) := hwf
    have hins := theta_update_sketch_base.insert_below_ceiling threshold
      ({ s.table_ with is_empty_ := false } : theta_update_sketch_base Nat)
      (s.table_.entries_.findIdx (fun e => id e == 0)) (compute_hash d s.table_.seed_) hlg
      (by show s.table_.num_entries_ + 1 ≤ threshold (2 ^ (s.table_.lg_nom_size_ + 1)); omega)
    have hflags := theta_update_sketch_base.insert_flags threshold
      ({ s.table_ with is_empty_ := false } : theta_update_sketch_base Nat)
      (s.table_.entries_.findIdx (fun e => id e == 0)) (compute_hash d s.table_.seed_)
    have hwf1 := theta_update_sketch_base.insert_wf id 0 rfl threshold hthr
      ({ s.table_ with is_empty_ := false } : theta_update_sketch_base Nat)
      (compute_hash d s.table_.seed_) hwf' hrf hd.1 hd.2.1
      (fun e he heq => hd.2.2 (by
        have hee : e = compute_hash d s.table_.seed_ := heq
        rw [← hee]
        exact he))
    have hrf1 := theta_update_sketch_base.insert_rf id 0 threshold
      ({ s.table_ with is_empty_ := false } : theta_update_sketch_base Nat)
      (s.table_.entries_.findIdx (fun e => id e == 0)) (compute_hash d s.table_.seed_)
    have hupd := update_new_entry compute_hash threshold s d hd.1 hd.2.1 hd.2.2
    simp only [List.foldl_cons]
    rw [hupd]
    obtain ⟨hth, hnum, hnom, hcur, hmem⟩ := hins
    simp only [List.map_cons, List.nodup_cons] at hnodup
    have hstep := ih
      ⟨theta_update_sketch_base.insert id 0 threshold
        ({ s.table_ with is_empty_ := false } : theta_update_sketch_base Nat)
        (s.table_.entries_.findIdx (fun e => id e == 0)) (compute_hash d s.table_.seed_)⟩
      hwf1 (by rw [hrf1]; exact hrf) (by rw [hnom]; exact hcur)
      (by rw [hflags.2]; exact hnodup.2)
      (by
        intro d' hd'
        have hd2 := hall d' (List.mem_cons_of_mem _ hd')
        rw [hflags.2, hth]
        refine ⟨hd2.1, hd2.2.1, fun hin => ?_⟩
        rcases hmem _ hin with h | h | h
        · exact hd2.2.2 h
        · exact hnodup.1 (List.mem_map.mpr ⟨d', hd', h⟩)
        · exact hd2.1 h)
      (by
        rw [hnum, hnom]
        show s.table_.num_entries_ + 1 + ds.length ≤ threshold (2 ^ (s.table_.lg_nom_size_ + 1))
        omega)
    rw [hstep.1, hstep.2, hth, hnum]
    exact ⟨rfl, by
      show s.table_.num_entries_ + 1 + ds.length = s.table_.num_entries_ + (ds.length + 1)
      omega⟩

end update_theta_sketch_experimental

theorem sample_ingested_state (n : Nat) (hn : n ≤ 1536) :
    (sample_ingested n).table_.theta_ = 2 ^ 63 - 1 ∧
      (sample_ingested n).table_.num_entries_ = n := by
  have hhash : (sample_strings n).map (fun d => sample_length_hash d 9001) =
      (List.range n).map (fun i => i + 2) := by
    simp [sample_strings, sample_length_hash, List.map_map, Function.comp_def]
  have hlen : (sample_strings n).length = n := by simp [sample_strings]
  have h := update_theta_sketch_experimental.ingest_exact sample_length_hash sample_threshold
    (by intro c hc; unfold sample_threshold; omega) (sample_strings n) sample_fresh_sketch
    (by unfold theta_update_sketch_base.wf; decide) (by decide) (by decide)
    (by
      show ((sample_strings n).map (fun d => sample_length_hash d 9001)).Nodup
      rw [hhash]
      exact (List.nodup_range n).map (fun a b hab => by simpa using hab))
    (by
      intro d hd
      obtain ⟨i, hi, rfl⟩ := List.mem_map.mp hd
      have hi' : i < n := List.mem_range.mp hi
      refine ⟨by simp [sample_length_hash], ?_, ?_⟩
      · show sample_length_hash (List.replicate (i + 1) 97) 9001 < 2 ^ 63 - 1
        simp only [sample_length_hash, List.length_replicate]
        omega
      · show sample_length_hash (List.replicate (i + 1) 97) 9001 ∉ List.replicate 32 0
        simp [sample_length_hash])
    (by
      show 0 + (sample_strings n).length ≤ sample_threshold (2 ^ (10 + 1))
      rw [hlen]
      have : sample_threshold (2 ^ (10 + 1)) = 1536 := by decide
      omega)
  rw [hlen] at h
  exact ⟨h.1, h.2.trans (Nat.zero_add n)⟩

theorem get_theta64_update (s : update_theta_sketch_experimental) :
    (theta_sketch_experimental.update s).get_theta64 = s.table_.theta_ := rfl

theorem get_num_retained_update (s : update_theta_sketch_experimental) :
    (theta_sketch_experimental.update s).get_num_retained = s.table_.num_entries_ % 2 ^ 32 := rfl

/-- C3 at the sample ingestion: a fresh Update Sketch of nominal capacity `2 ^ 10` ingests 500
distinct byte strings; no rebuild happens, and the estimate and both bounds at two standard
deviations are 500, although the Bound Estimator given here rejects every call. -/
theorem C3_exact_below_threshold_witness :
    (theta_sketch_experimental.update (sample_ingested 500)).get_estimate (2 ^ 63 - 1) =
        Dbl.fin (500 : ℚ) ∧
      (theta_sketch_experimental.update (sample_ingested 500)).get_lower_bound (2 ^ 63 - 1)
        sample_failing_bound 2 = .ok (Dbl.fin (500 : ℚ)) ∧
      (theta_sketch_experimental.update (sample_ingested 500)).get_upper_bound (2 ^ 63 - 1)
        sample_failing_bound 2 = .ok (Dbl.fin (500 : ℚ)) := by
  have hstate := sample_ingested_state 500 (by norm_num)
  have htheta := (get_theta64_update (sample_ingested 500)).trans hstate.1
  have h := C3_exact_below_threshold (2 ^ 63 - 1) sample_failing_bound sample_failing_bound
    (.update (sample_ingested 500)) (by norm_num) htheta
  have hn : (theta_sketch_experimental.update (sample_ingested 500)).get_num_retained = 500 := by
    rw [get_num_retained_update, hstate.2]
    norm_num
  rw [hn] at h
  have hcast : ((500 : ℕ) : ℚ) = 500 := by norm_num
  rw [hcast] at h
  exact ⟨h.1, h.2 2⟩

/-! ## Update with an empty string -/

theorem update_clears_empty (compute_hash : List Nat → Nat → Nat) (threshold : Nat → Nat)
    (s : update_theta_sketch_experimental) (data : List Nat) :
    (s.update compute_hash threshold data).is_empty = false := by
  unfold update_theta_sketch_experimental.is_empty
  rw [update_theta_sketch_experimental.update_eq]
  split_ifs
  · rfl
  · rfl
  · exact (theta_update_sketch_base.insert_flags threshold _ _ _).1

/-- C16: `update` with the empty string returns the sketch as it is: theta, the retained entries,
the retained count and the empty flag are those before the call, so a sketch that was empty still
reports `is_empty() == true`. The call returns before `hash_and_screen`; `update(data, length)`
on the same sketch, which does call it, leaves the empty flag cleared. -/
theorem C16_update_empty_string (compute_hash : List Nat → Nat → Nat) (threshold : Nat → Nat)
    (s : update_theta_sketch_experimental) (data : List Nat) :
    s.update_string compute_hash threshold [] = s ∧
      (s.update_string compute_hash threshold []).get_theta64 = s.get_theta64 ∧
      (s.update_string compute_hash threshold []).iter = s.iter ∧
      (s.update_string compute_hash threshold []).get_num_retained = s.get_num_retained ∧
      (s.update_string compute_hash threshold []).is_empty = s.is_empty ∧
      (s.update compute_hash threshold data).is_empty = false :=
  ⟨rfl, rfl, rfl, rfl, rfl, update_clears_empty compute_hash threshold s data⟩

/-! ## Union Engine: policy and seed check -/

theorem set_getD_self {EN : Type} (l : List EN) (i : Nat) (d : EN) (hi : i < l.length)
    (f : EN → EN) (key : EN → Nat) (hkey : key (f (l.getD i d)) = key (l.getD i d)) :
    (l.set i (f (l.getD i d))).map key = l.map key := by
  apply List.ext_getElem
  · simp
  · intro n h1 h2
    simp only [List.getElem_map, List.getElem_set]
    split_ifs with h
    · subst h
      rw [hkey, List.getD_eq_getElem _ _ hi]
    · rfl

theorem find_idx_lt {EN : Type} (EK : EN → Nat) (t : theta_update_sketch_base EN) (key : Nat)
    (h : (t.find EK key).2 = true) : (t.find EK key).1 < t.entries_.length := by
  unfold theta_update_sketch_base.find at h ⊢
  split_ifs at h ⊢ with h1
  exact h1

/-- C18: `internal_policy` returns the existing entry with its key and with the summary that the
user policy computes from the two summaries; the result does not depend on the key of the incoming
entry, and the incoming entry is an argument that is only read. Hence a collision in the union's
working table leaves the key of every slot as it was. -/
theorem C18_internal_policy_frame {S : Type} (policy : S → S → S) (k1 k2 k2' : Nat) (s1 s2 : S)
    (blank : Nat × S) (threshold : Nat → Nat) (th : Nat)
    (t : theta_update_sketch_base (Nat × S)) (e : Nat × S) :
    tuple_union.internal_policy policy (k1, s1) (k2, s2) = (k1, policy s1 s2) ∧
      tuple_union.internal_policy policy (k1, s1) (k2, s2) =
        tuple_union.internal_policy policy (k1, s1) (k2', s2) ∧
      ((t.find Prod.fst e.1).2 = true →
        (theta_union_base.ingest_entry Prod.fst blank threshold
            (tuple_union.internal_policy policy) th t e).entries_.map Prod.fst =
          t.entries_.map Prod.fst) := by
  refine ⟨rfl, rfl, fun hfound => ?_⟩
  unfold theta_union_base.ingest_entry
  split_ifs with h1
  · rfl
  · exact set_getD_self t.entries_ _ blank (find_idx_lt Prod.fst t e.1 hfound)
      (fun x => tuple_union.internal_policy policy x e) Prod.fst rfl

/-- C14: an ingest whose sketch has a seed fingerprint different from the union's fails with the
error and produces no new state, so the caller's union is as it was before the call; an ingest
that returns a state was given a matching fingerprint, and with a matching fingerprint the
ingest does return a state. -/
theorem C14_seed_mismatch {S : Type} (blank : Nat × S) (threshold : Nat → Nat)
    (policy : S → S → S) (compute_seed_hash : Nat → Nat) (u : tuple_union S)
    (sketch : tuple_sketch S) :
    (sketch.get_seed_hash ≠ compute_seed_hash u.state_.table_.seed_ →
        tuple_union.update blank threshold policy compute_seed_hash u sketch =
          .error "seed hash mismatch") ∧
      (∀ u', tuple_union.update blank threshold policy compute_seed_hash u sketch = .ok u' →
        sketch.get_seed_hash = compute_seed_hash u.state_.table_.seed_) ∧
      (sketch.get_seed_hash = compute_seed_hash u.state_.table_.seed_ →
        ∃ u', tuple_union.update blank threshold policy compute_seed_hash u sketch = .ok u') := by
  refine ⟨fun h => ?_, fun u' hu => ?_,
    tuple_union_update_total blank threshold policy compute_seed_hash u sketch⟩
  · unfold tuple_union.update theta_union_base.update
    simp [h]
  · exact (tuple_union_update_ok blank threshold policy compute_seed_hash u u' sketch hu).1

/-! ## Integer updates -/

theorem compact_read_eq (MAX_THETA : Nat) (lb ub : Nat → Dbl → Nat → Except String Dbl)
    (a b : theta_sketch_experimental) (hn : a.get_num_retained = b.get_num_retained)
    (ht : a.get_theta64 = b.get_theta64) (he : a.is_empty = b.is_empty) :
    a.get_estimate MAX_THETA = b.get_estimate MAX_THETA ∧
      ∀ k : Nat, a.get_lower_bound MAX_THETA lb k = b.get_lower_bound MAX_THETA lb k ∧
        a.get_upper_bound MAX_THETA ub k = b.get_upper_bound MAX_THETA ub k := by
  refine ⟨?_, fun k => ⟨?_, ?_⟩⟩
  · simp only [theta_sketch_experimental.get_estimate, theta_sketch_experimental.get_theta, hn, ht]
  · simp only [theta_sketch_experimental.get_lower_bound,
      theta_sketch_experimental.is_estimation_mode, theta_sketch_experimental.get_theta, hn, ht, he]
  · simp only [theta_sketch_experimental.get_upper_bound,
      theta_sketch_experimental.is_estimation_mode, theta_sketch_experimental.get_theta, hn, ht, he]

/-- C11, as the code has it: two Compact Sketches with duplicate-free entries that form the same
set, with the same theta and the same empty flag, return the same retained count, estimate,
lower bound and upper bound for every number of standard deviations, whatever their ordered flags
and the order of their entries. -/
theorem C11_order_is_representation (MAX_THETA : Nat)
    (lb ub : Nat → Dbl → Nat → Except String Dbl) (a b : compact_theta_sketch_experimental)
    (hda : a.entries_.Nodup) (hdb : b.entries_.Nodup)
    (hset : ∀ x, x ∈ a.entries_ ↔ x ∈ b.entries_) (htheta : a.theta_ = b.theta_)
    (hempty : a.is_empty_ = b.is_empty_) :
    (theta_sketch_experimental.compact a).get_num_retained =
        (theta_sketch_experimental.compact b).get_num_retained ∧
      (theta_sketch_experimental.compact a).get_estimate MAX_THETA =
        (theta_sketch_experimental.compact b).get_estimate MAX_THETA ∧
      ∀ k : Nat,
        (theta_sketch_experimental.compact a).get_lower_bound MAX_THETA lb k =
          (theta_sketch_experimental.compact b).get_lower_bound MAX_THETA lb k ∧
        (theta_sketch_experimental.compact a).get_upper_bound MAX_THETA ub k =
          (theta_sketch_experimental.compact b).get_upper_bound MAX_THETA ub k := by
  have hperm : a.entries_.Perm b.entries_ := (List.perm_ext_iff_of_nodup hda hdb).mpr hset
  have hn : (theta_sketch_experimental.compact a).get_num_retained =
      (theta_sketch_experimental.compact b).get_num_retained := by
    simp only [theta_sketch_experimental.get_num_retained,
      compact_theta_sketch_experimental.get_num_retained, hperm.length_eq]
  exact ⟨hn, compact_read_eq MAX_THETA lb ub _ _ hn htheta hempty⟩

/-- C11 at the sample Compact Sketches that hold 3, 5, 7 ascending and flagged ordered, and
7, 3, 5 flagged unordered, both with theta 9 and a cleared empty flag. -/
theorem C11_order_is_representation_witness :
    (theta_sketch_experimental.compact sample_compact_sorted).get_num_retained =
        (theta_sketch_experimental.compact sample_compact_shuffled).get_num_retained ∧
      (theta_sketch_experimental.compact sample_compact_sorted).get_estimate (2 ^ 63 - 1) =
        (theta_sketch_experimental.compact sample_compact_shuffled).get_estimate (2 ^ 63 - 1) := by
  have h := C11_order_is_representation (2 ^ 63 - 1) sample_checked_bound sample_checked_bound
    sample_compact_sorted sample_compact_shuffled (by decide) (by decide)
    (by
      intro x
      simp only [sample_compact_sorted, sample_compact_shuffled, List.mem_cons,
        List.mem_singleton, List.not_mem_nil, or_false]
      tauto)
    rfl rfl
  exact ⟨h.1, h.2.1⟩

/-- C11, the claim as stated fails: the two sample Compact Sketches have the same (empty) set of
entries and the same theta `2 ^ 62`, below MAX_THETA `2 ^ 63 - 1`, and differ in the empty flag.
With a Bound Estimator that rejects zero standard deviations, `get_lower_bound(0)` returns 0 for
the one whose empty flag is set and fails for the other, which is in estimation mode. -/
theorem C11_counterexample :
    (∀ x, x ∈ sample_compact_untouched.entries_ ↔ x ∈ sample_compact_screened.entries_) ∧
      sample_compact_untouched.theta_ = sample_compact_screened.theta_ ∧
      (theta_sketch_experimental.compact sample_compact_untouched).get_lower_bound (2 ^ 63 - 1)
        sample_checked_bound 0 = .ok (Dbl.fin 0) ∧
      (theta_sketch_experimental.compact sample_compact_screened).get_lower_bound (2 ^ 63 - 1)
        sample_checked_bound 0 = .error "unsupported number of standard deviations" := by
  refine ⟨fun x => Iff.rfl, rfl, ?_, ?_⟩
  · have h := (theta_sketch_experimental.compact sample_compact_untouched).ofNat_get_num_retained
    simp only [theta_sketch_experimental.get_lower_bound,
      theta_sketch_experimental.is_estimation_mode, theta_sketch_experimental.is_empty,
      compact_theta_sketch_experimental.is_empty, sample_compact_untouched, Bool.not_true,
      Bool.and_false, Bool.not_false, if_true] at h ⊢
    rw [h]
    simp [theta_sketch_experimental.get_num_retained,
      compact_theta_sketch_experimental.get_num_retained]
  · simp [theta_sketch_experimental.get_lower_bound,
      theta_sketch_experimental.is_estimation_mode, theta_sketch_experimental.is_empty,
      compact_theta_sketch_experimental.is_empty, theta_sketch_experimental.get_theta64,
      compact_theta_sketch_experimental.get_theta64, sample_compact_screened,
      sample_checked_bound]

/-! ## Trim -/

theorem theta_iterator_length_le {EN : Type} (EK : EN → Nat) (entries : List EN) (size : Nat) :
    (theta_iterator EK entries size).length ≤ size := by
  unfold theta_iterator
  exact le_trans (List.length_filter_le _ _) (by simp)

theorem trim_iter (threshold : Nat → Nat) (hthr : ∀ c, threshold c ≤ c)
    (s : update_theta_sketch_experimental)
    (hcount : (theta_sketch_experimental.update s).count_consistent) :
    (s.trim threshold).iter = s.iter := by
  have hcount' : s.table_.num_entries_ =
      (theta_iterator id s.table_.entries_ (2 ^ s.table_.lg_cur_size_)).length := hcount
  show theta_iterator id
      (theta_iterator id s.table_.entries_ (2 ^ s.table_.lg_cur_size_) ++ List.replicate _ 0)
      (2 ^ ((List.range s.table_.lg_cur_size_).find?
        (fun l => s.table_.num_entries_ ≤ threshold (2 ^ l))).getD s.table_.lg_cur_size_) =
    theta_iterator id s.table_.entries_ (2 ^ s.table_.lg_cur_size_)
  refine theta_update_sketch_base.iterator_pad_eq id 0 rfl _ _ _
    (fun e he => mem_theta_iterator_ne_zero id _ _ he) ?_
  cases hfind : (List.range s.table_.lg_cur_size_).find?
      (fun l => s.table_.num_entries_ ≤ threshold (2 ^ l)) with
  | none =>
    simp only [Option.getD_none]
    exact theta_iterator_length_le id _ _
  | some l =>
    have h1 := List.find?_some hfind
    simp only [decide_eq_true_eq] at h1
    simp only [Option.getD_some]
    rw [← hcount']
    exact le_trans h1 (hthr _)

/-- C13: for an Update Sketch whose stored count is the number of its occupied slots, and a load
factor of at most one, `trim()` changes neither theta, nor the retained hashes and their order of
iteration, nor the retained count, nor the empty flag; the estimate and both bounds are
therefore the same before and after. -/
theorem C13_trim_is_pure (MAX_THETA : Nat) (lb ub : Nat → Dbl → Nat → Except String Dbl)
    (threshold : Nat → Nat) (s : update_theta_sketch_experimental)
    (hthr : ∀ c, threshold c ≤ c)
    (hcount : (theta_sketch_experimental.update s).count_consistent) :
    (s.trim threshold).get_theta64 = s.get_theta64 ∧
      (s.trim threshold).iter = s.iter ∧
      (s.trim threshold).get_num_retained = s.get_num_retained ∧
      (s.trim threshold).is_empty = s.is_empty ∧
      (theta_sketch_experimental.update (s.trim threshold)).get_estimate MAX_THETA =
        (theta_sketch_experimental.update s).get_estimate MAX_THETA ∧
      ∀ k : Nat,
        (theta_sketch_experimental.update (s.trim threshold)).get_lower_bound MAX_THETA lb k =
          (theta_sketch_experimental.update s).get_lower_bound MAX_THETA lb k ∧
        (theta_sketch_experimental.update (s.trim threshold)).get_upper_bound MAX_THETA ub k =
          (theta_sketch_experimental.update s).get_upper_bound MAX_THETA ub k :=
  ⟨rfl, trim_iter threshold hthr s hcount, rfl, rfl,
    compact_read_eq MAX_THETA lb ub (.update (s.trim threshold)) (.update s) rfl rfl rfl⟩

/-- C13 at the sample Update Sketch with slots `7, -, 3, 5`: after `trim()` it iterates as
`7, 3, 5` under the same theta 9. -/
theorem C13_trim_is_pure_witness :
    (sample_update_sketch.trim sample_threshold).get_theta64 = 9 ∧
      (sample_update_sketch.trim sample_threshold).iter = [7, 3, 5] ∧
      (sample_update_sketch.trim sample_threshold).get_num_retained = 3 := by
  have h := C13_trim_is_pure (2 ^ 63 - 1) sample_checked_bound sample_checked_bound
    sample_threshold sample_update_sketch
    (by intro c; unfold sample_threshold; omega)
    (by unfold theta_sketch_experimental.count_consistent; decide)
  exact ⟨h.1, h.2.1, h.2.2.1⟩

/-! ## Tuple merge under the default policy -/

theorem foldl_default_policy {S : Type} [AddMonoid S] (vs : List (Nat × S)) :
    ∀ (k : Nat) (a : S),
      vs.foldl (tuple_union.internal_policy default_union_policy) (k, a) =
        (k, a + (vs.map Prod.snd).sum) := by
  induction vs with
  | nil => intro k a; simp
  | cons v vs ih =>
    intro k a
    simp only [List.foldl_cons, List.map_cons, List.sum_cons]
    rw [show tuple_union.internal_policy default_union_policy (k, a) v = (k, a + v.2) from rfl,
      ih, add_assoc]

theorem findIdx_set_same {EN : Type} (p : EN → Bool) (x : EN) :
    ∀ (l : List EN) (i : Nat), p x = p (l.getD i x) → (l.set i x).findIdx p = l.findIdx p := by
  intro l
  induction l with
  | nil => intro i _; rfl
  | cons y ys ih =>
    intro i h
    cases i with
    | zero =>
      have hy : p x = p y := by simpa using h
      simp [List.findIdx_cons, hy]
    | succ j =>
      have hj : p x = p (ys.getD j x) := by simpa using h
      simp [List.findIdx_cons, ih j hj]

theorem ingest_collision {S : Type} (blank : Nat × S) (threshold : Nat → Nat)
    (policy : S → S → S) (th : Nat) (t : theta_update_sketch_base (Nat × S)) (e : Nat × S)
    (hlt : e.1 < th) (hfound : (t.find Prod.fst e.1).2 = true) :
    theta_union_base.ingest_entry Prod.fst blank threshold (tuple_union.internal_policy policy)
        th t e =
      { t with
        entries_ :=
          (t.entries_.set (t.find Prod.fst e.1).1
            (tuple_union.internal_policy policy
              (t.entries_.getD (t.find Prod.fst e.1).1 blank) e)) } := by
  unfold theta_union_base.ingest_entry
  rw [if_neg (by omega), if_pos hfound]

theorem find_after_collision {S : Type} (t : theta_update_sketch_base (Nat × S)) (k i : Nat)
    (x : Nat × S) (hi : i < t.entries_.length) (hx : x.1 = (t.entries_.get ⟨i, hi⟩).1) :
    theta_update_sketch_base.find Prod.fst
        ({ t with entries_ := t.entries_.set i x } : theta_update_sketch_base (Nat × S)) k =
      t.find Prod.fst k := by
  have h1 : ∀ key : Nat, (t.entries_.set i x).findIdx (fun e => e.1 == key) =
      t.entries_.findIdx (fun e => e.1 == key) := by
    intro key
    refine findIdx_set_same (fun e => e.1 == key) x t.entries_ i ?_
    rw [List.getD_eq_getElem _ _ hi]
    simp only [List.get_eq_getElem] at hx
    simp only [hx]
  unfold theta_update_sketch_base.find
  simp only [h1, List.length_set]

theorem fold_collisions {S : Type} [AddMonoid S] (blank : Nat × S) (threshold : Nat → Nat)
    (th k : Nat) (hlt : k < th) (vs : List (Nat × S)) (hvs : ∀ v ∈ vs, v.1 = k) :
    ∀ t : theta_update_sketch_base (Nat × S), (t.find Prod.fst k).2 = true →
      (vs.foldl (theta_union_base.ingest_entry Prod.fst blank threshold
          (tuple_union.internal_policy default_union_policy) th) t).num_entries_ =
          t.num_entries_ ∧
        (vs.foldl (theta_union_base.ingest_entry Prod.fst blank threshold
          (tuple_union.internal_policy default_union_policy) th) t).entries_ =
          t.entries_.set (t.find Prod.fst k).1
            ((t.entries_.getD (t.find Prod.fst k).1 blank).1,
              (t.entries_.getD (t.find Prod.fst k).1 blank).2 + (vs.map Prod.snd).sum) := by
  induction vs with
  | nil =>
    intro t hfound
    have hi := find_idx_lt Prod.fst t k hfound
    refine ⟨rfl, ?_⟩
    simp only [List.foldl_nil, List.map_nil, List.sum_nil, add_zero]
    apply List.ext_getElem
    · simp
    · intro n h1 h2
      simp only [List.getElem_set]
      split_ifs with h
      · subst h
        rw [List.getD_eq_getElem _ _ hi]
      · rfl
  | cons v vs ih =>
    intro t hfound
    have hv : v.1 = k := hvs v (List.mem_cons_self _ _)
    have hi := find_idx_lt Prod.fst t k hfound
    have hstep := ingest_collision blank threshold default_union_policy th t v
      (by rw [hv]; exact hlt) (by rw [hv]; exact hfound)
    rw [hv] at hstep
    have hfind := find_after_collision t k (t.find Prod.fst k).1
      (tuple_union.internal_policy default_union_policy
        (t.entries_.getD (t.find Prod.fst k).1 blank) v) hi
      (by
        rw [List.getD_eq_getElem _ _ hi]
        rfl)
    simp only [List.foldl_cons]
    rw [hstep]
    have hrec := ih (fun w hw => hvs w (List.mem_cons_of_mem _ hw)) _ (by rw [hfind]; exact hfound)
    rw [hfind] at hrec
    refine ⟨hrec.1, ?_⟩
    rw [hrec.2]
    simp only [List.set_set, List.map_cons, List.sum_cons]
    congr 1
    have hget : (t.entries_.set (t.find Prod.fst k).1
        (tuple_union.internal_policy default_union_policy
          (t.entries_.getD (t.find Prod.fst k).1 blank) v)).getD (t.find Prod.fst k).1 blank =
        tuple_union.internal_policy default_union_policy
          (t.entries_.getD (t.find Prod.fst k).1 blank) v := by
      rw [List.getD_eq_getElem _ _ (by rw [List.length_set]; exact hi), List.getElem_set_self]
    rw [hget]
    show ((t.entries_.getD (t.find Prod.fst k).1 blank).1,
        (t.entries_.getD (t.find Prod.fst k).1 blank).2 + v.2 + (vs.map Prod.snd).sum) = _
    rw [add_assoc]

/-- C12: the default policy leaves in the existing summary the sum of the two summaries and only
reads the incoming one; as `internal_policy` it keeps the key of the existing entry. Hence, when
the key `k` is in the union's working table and the incoming entries `vs` all have that key,
ingesting them leaves the occupied count as it was and the slot of `k` with the summary it had
plus the sum of the incoming summaries. -/
theorem C12_default_policy_additive {S : Type} [AddMonoid S] (blank : Nat × S)
    (threshold : Nat → Nat) (th k : Nat) (vs : List (Nat × S))
    (t : theta_update_sketch_base (Nat × S)) (hvs : ∀ v ∈ vs, v.1 = k) (hlt : k < th)
    (hfound : (t.find Prod.fst k).2 = true) :
    (∀ a b : S, default_union_policy a b = a + b) ∧
      (∀ (k1 : Nat) (a : S) (v : Nat × S),
        tuple_union.internal_policy default_union_policy (k1, a) v = (k1, a + v.2)) ∧
      (∀ a : S, vs.foldl (tuple_union.internal_policy default_union_policy) (k, a) =
        (k, a + (vs.map Prod.snd).sum)) ∧
      (vs.foldl (theta_union_base.ingest_entry Prod.fst blank threshold
          (tuple_union.internal_policy default_union_policy) th) t).num_entries_ =
        t.num_entries_ ∧
      (vs.foldl (theta_union_base.ingest_entry Prod.fst blank threshold
          (tuple_union.internal_policy default_union_policy) th) t).entries_ =
        t.entries_.set (t.find Prod.fst k).1
          ((t.entries_.getD (t.find Prod.fst k).1 blank).1,
            (t.entries_.getD (t.find Prod.fst k).1 blank).2 + (vs.map Prod.snd).sum) := by
  have h := fold_collisions blank threshold th k hlt vs hvs t hfound
  exact ⟨fun _ _ => rfl, fun _ _ _ => rfl, fun a => foldl_default_policy vs k a, h.1, h.2⟩

/-- C12 at the sample Union Engine: it ingests the hash 5 with Summary 3, which occupies one
slot, and then the hash 5 with Summary 4; the slot then holds Summary 7 and the occupied count
is still 1. -/
theorem C12_default_policy_additive_witness :
    tuple_union.update (0, 0) sample_threshold default_union_policy sample_seed_hash sample_union
        sample_tuple_three = .ok sample_union_three ∧
      ∃ u', tuple_union.update (0, 0) sample_threshold default_union_policy sample_seed_hash
          sample_union_three sample_tuple_four = .ok u' ∧
        u'.state_.table_.num_entries_ = 1 ∧
        u'.state_.table_.entries_ = [(5, 7), (0, 0), (0, 0), (0, 0)] := by
  have h := C12_default_policy_additive (0, 0) sample_threshold (2 ^ 63 - 1) 5 [(5, 4)]
    sample_union_three.state_.table_ (by decide) (by decide) (by decide)
  refine ⟨rfl, _, rfl, h.2.2.2.1, ?_⟩
  exact h.2.2.2.2.trans (by decide)

/-! ## Union: order of ingestion

What a union returns depends only on which entries it has taken in, not on their order: its theta
is the cut of the hashes it has seen, and it retains the hashes below the cut. The content of a
table is read as a finite map from hash to Summary. -/

theorem entry_lookup_nil {S : Type} (k : Nat) : entry_lookup ([] : List (Nat × S)) k = none := rfl

theorem entry_lookup_cons {S : Type} (x : Nat × S) (l : List (Nat × S)) (k : Nat) :
    entry_lookup (x :: l) k = if x.1 = k then some x.2 else entry_lookup l k := by
  unfold entry_lookup
  by_cases h : x.1 = k
  · simp [List.find?_cons, h]
  · simp [List.find?_cons, h]

theorem entry_lookup_eq_none_iff {S : Type} (l : List (Nat × S)) (k : Nat) :
    entry_lookup l k = none ↔ ∀ x ∈ l, x.1 ≠ k := by
  induction l with
  | nil => simp [entry_lookup_nil]
  | cons x xs ih =>
    rw [entry_lookup_cons]
    by_cases h : x.1 = k
    · simp [h]
    · simp [h, ih]

theorem entry_lookup_isSome_iff {S : Type} (l : List (Nat × S)) (k : Nat) :
    (entry_lookup l k).isSome = true ↔ ∃ x ∈ l, x.1 = k := by
  rw [Option.isSome_iff_ne_none, Ne, entry_lookup_eq_none_iff]
  push_neg
  rfl

theorem entry_lookup_eq_some_iff {S : Type} (l : List (Nat × S)) (hnd : (l.map Prod.fst).Nodup)
    (k : Nat) (s : S) : entry_lookup l k = some s ↔ (k, s) ∈ l := by
  induction l with
  | nil => simp [entry_lookup_nil]
  | cons x xs ih =>
    rw [List.map_cons, List.nodup_cons] at hnd
    rw [entry_lookup_cons, List.mem_cons]
    by_cases h : x.1 = k
    · rw [if_pos h]
      constructor
      · intro hs
        left
        rw [Option.some.injEq] at hs
        rw [← h, ← hs]
      · rintro (hx | hx)
        · rw [← hx]
        · exfalso
          apply hnd.1
          rw [h]
          exact List.mem_map.mpr ⟨(k, s), hx, rfl⟩
    · rw [if_neg h, ih hnd.2]
      constructor
      · exact Or.inr
      · rintro (hx | hx)
        · exfalso
          apply h
          rw [← hx]
        · exact hx

theorem entry_lookup_perm {S : Type} (l1 l2 : List (Nat × S)) (hnd : (l1.map Prod.fst).Nodup)
    (hp : l1.Perm l2) (k : Nat) : entry_lookup l1 k = entry_lookup l2 k := by
  have hnd2 : (l2.map Prod.fst).Nodup := (hp.map Prod.fst).nodup_iff.mp hnd
  apply Option.ext
  intro s
  rw [Option.mem_def, Option.mem_def, entry_lookup_eq_some_iff l1 hnd,
    entry_lookup_eq_some_iff l2 hnd2]
  exact hp.mem_iff

theorem entry_lookup_filter {S : Type} (q : Nat → Bool) (l : List (Nat × S)) (k : Nat) :
    entry_lookup (l.filter (fun e => q e.1)) k = if q k = true then entry_lookup l k else none := by
  induction l with
  | nil => simp [entry_lookup_nil]
  | cons x xs ih =>
    by_cases hq : q x.1 = true
    · rw [List.filter_cons_of_pos (by exact hq), entry_lookup_cons, entry_lookup_cons, ih]
      by_cases h : x.1 = k
      · rw [if_pos h, if_pos h, if_pos (by rw [← h]; exact hq)]
      · rw [if_neg h, if_neg h]
    · rw [List.filter_cons_of_neg (by exact hq), ih, entry_lookup_cons]
      by_cases h : x.1 = k
      · rw [if_pos h, if_neg (by rw [← h]; exact hq), if_neg (by rw [← h]; exact hq)]
      · rw [if_neg h]

theorem perm_of_entry_lookup {S : Type} (l1 l2 : List (Nat × S))
    (h1 : (l1.map Prod.fst).Nodup) (h2 : (l2.map Prod.fst).Nodup)
    (h : ∀ k, entry_lookup l1 k = entry_lookup l2 k) : l1.Perm l2 := by
  rw [List.perm_ext_iff_of_nodup (List.Nodup.of_map _ h1) (List.Nodup.of_map _ h2)]
  intro x
  rw [← entry_lookup_eq_some_iff l1 h1 x.1 x.2, ← entry_lookup_eq_some_iff l2 h2 x.1 x.2, h]

theorem keys_perm_of_entry_lookup {S : Type} (l1 l2 : List (Nat × S))
    (h1 : (l1.map Prod.fst).Nodup) (h2 : (l2.map Prod.fst).Nodup)
    (h : ∀ k, (entry_lookup l1 k).isSome = (entry_lookup l2 k).isSome) :
    (l1.map Prod.fst).Perm (l2.map Prod.fst) := by
  rw [List.perm_ext_iff_of_nodup h1 h2]
  intro k
  have e1 := entry_lookup_isSome_iff l1 k
  have e2 := entry_lookup_isSome_iff l2 k
  rw [h k] at e1
  simp only [List.mem_map]
  constructor
  · rintro ⟨x, hx, hk⟩
    obtain ⟨y, hy, hyk⟩ := e2.mp (e1.mpr ⟨x, hx, hk⟩)
    exact ⟨y, hy, hyk⟩
  · rintro ⟨x, hx, hk⟩
    obtain ⟨y, hy, hyk⟩ := e1.mp (e2.mpr ⟨x, hx, hk⟩)
    exact ⟨y, hy, hyk⟩

theorem absorb_cons {S : Type} (P : S → S → S) (k : Nat) (o : Option S) (e : Nat × S)
    (es : List (Nat × S)) :
    absorb P k o (e :: es) =
      absorb P k (if e.1 = k then some (merge_value P o e.2) else o) es := rfl

theorem absorb_append {S : Type} (P : S → S → S) (k : Nat) (o : Option S)
    (l1 l2 : List (Nat × S)) :
    absorb P k o (l1 ++ l2) = absorb P k (absorb P k o l1) l2 := by
  unfold absorb
  rw [List.foldl_append]

theorem absorb_isSome {S : Type} (P : S → S → S) (k : Nat) (es : List (Nat × S)) :
    ∀ o : Option S, (absorb P k o es).isSome = true ↔ o.isSome = true ∨ k ∈ es.map Prod.fst := by
  induction es with
  | nil => intro o; simp [absorb]
  | cons e es ih =>
    intro o
    rw [absorb_cons, ih, List.map_cons, List.mem_cons]
    by_cases h : e.1 = k
    · simp [h]
    · rw [if_neg h]
      have h' : ¬ k = e.1 := fun hk => h hk.symm
      simp [h']

theorem absorb_of_not_mem {S : Type} (P : S → S → S) (k : Nat) (es : List (Nat × S))
    (h : k ∉ es.map Prod.fst) : ∀ o : Option S, absorb P k o es = o := by
  induction es with
  | nil => intro o; rfl
  | cons e es ih =>
    intro o
    rw [List.map_cons, List.mem_cons, not_or] at h
    rw [absorb_cons, if_neg (fun hk => h.1 hk.symm), ih h.2]

theorem absorb_nodup {S : Type} (P : S → S → S) (k : Nat) (es : List (Nat × S))
    (hnd : (es.map Prod.fst).Nodup) :
    ∀ o : Option S, absorb P k o es =
      (entry_lookup es k).elim o (fun v => some (merge_value P o v)) := by
  induction es with
  | nil => intro o; rfl
  | cons e es ih =>
    intro o
    rw [List.map_cons, List.nodup_cons] at hnd
    rw [absorb_cons, entry_lookup_cons]
    by_cases h : e.1 = k
    · rw [if_pos h, if_pos h]
      rw [absorb_of_not_mem P k es (by rw [← h]; exact hnd.1)]
      rfl
    · rw [if_neg h, if_neg h]
      exact ih hnd.2 o

theorem summary_total_cons {S : Type} [AddCommMonoid S] (k : Nat) (e : Nat × S)
    (es : List (Nat × S)) :
    summary_total k (e :: es) = if e.1 = k then e.2 + summary_total k es else summary_total k es := by
  unfold summary_total
  by_cases h : e.1 = k
  · simp [List.filter_cons, h]
  · simp [List.filter_cons, h]

theorem summary_total_append {S : Type} [AddCommMonoid S] (k : Nat) (l1 l2 : List (Nat × S)) :
    summary_total k (l1 ++ l2) = summary_total k l1 + summary_total k l2 := by
  unfold summary_total
  rw [List.filter_append, List.map_append, List.sum_append]

theorem summary_total_of_not_mem {S : Type} [AddCommMonoid S] (k : Nat) (es : List (Nat × S))
    (h : k ∉ es.map Prod.fst) : summary_total k es = 0 := by
  induction es with
  | nil => rfl
  | cons e es ih =>
    rw [List.map_cons, List.mem_cons, not_or] at h
    rw [summary_total_cons, if_neg (fun hk => h.1 hk.symm), ih h.2]

theorem absorb_add {S : Type} [AddCommMonoid S] (P : S → S → S) (hadd : ∀ a b, P a b = a + b)
    (k : Nat) (es : List (Nat × S)) :
    ∀ o : Option S, absorb P k o es =
      if o.isSome = true ∨ k ∈ es.map Prod.fst then some (o.getD 0 + summary_total k es)
      else none := by
  induction es with
  | nil =>
    intro o
    cases o <;> simp [absorb, summary_total]
  | cons e es ih =>
    intro o
    rw [absorb_cons, ih, summary_total_cons]
    by_cases h : e.1 = k
    · cases o with
      | none => simp [h, merge_value]
      | some a => simp [h, merge_value, hadd, add_assoc]
    · have h' : ¬ k = e.1 := fun hk => h hk.symm
      have e1 : (if e.1 = k then some (merge_value P o e.2) else o) = o := if_neg h
      simp only [e1, List.map_cons, List.mem_cons, h', false_or, if_neg h]

namespace theta_update_sketch_base

theorem find_found_key {EN : Type} (EK : EN → Nat) (t : theta_update_sketch_base EN) (key : Nat) :
    (t.find EK key).2 = true ↔ ∃ x ∈ t.entries_, EK x = key := by
  unfold find
  split_ifs with h
  · simp only [true_iff]
    obtain ⟨x, hx, hpx⟩ := List.findIdx_lt_length.mp h
    exact ⟨x, hx, by simpa using hpx⟩
  · simp only [Bool.false_eq_true, false_iff]
    rintro ⟨x, hx, hk⟩
    exact h (List.findIdx_lt_length.mpr ⟨x, hx, by simpa using hk⟩)

theorem find_slot_found {EN : Type} (EK : EN → Nat) (t : theta_update_sketch_base EN) (key : Nat)
    (h : (t.find EK key).2 = true) :
    (t.find EK key).1 = t.entries_.findIdx (fun e => EK e == key) ∧
      t.entries_.findIdx (fun e => EK e == key) < t.entries_.length := by
  unfold find at h ⊢
  split_ifs at h ⊢ with h1
  exact ⟨rfl, h1⟩

theorem find_slot_free {EN : Type} (EK : EN → Nat) (t : theta_update_sketch_base EN) (key : Nat)
    (h : (t.find EK key).2 ≠ true) :
    (t.find EK key).1 = t.entries_.findIdx (fun e => EK e == 0) := by
  unfold find at h ⊢
  split_ifs at h ⊢ with h1
  · exact absurd rfl h
  · rfl

theorem occupied_set_perm {EN : Type} (EK : EN → Nat) (t : theta_update_sketch_base EN) (c : EN)
    (hwf : t.wf EK) (hc : EK c ≠ 0) :
    (theta_iterator EK (t.entries_.set (t.entries_.findIdx (fun e => EK e == 0)) c)
      (2 ^ t.lg_cur_size_)).Perm (c :: t.occupied EK) := by
  have hfree := wf_free EK t hwf
  have hlen := hwf.1
  rw [occupied_eq_filter EK t hlen]
  have h1 : theta_iterator EK (t.entries_.set (t.entries_.findIdx (fun e => EK e == 0)) c)
      (2 ^ t.lg_cur_size_) =
      (t.entries_.set (t.entries_.findIdx (fun e => EK e == 0)) c).filter
        (fun e => EK e != 0) := by
    simp only [theta_iterator]
    rw [List.take_of_length_le (by rw [List.length_set, hlen])]
  rw [h1]
  exact filter_set_perm (fun e => EK e != 0) c (by simpa using hc) t.entries_
    (t.entries_.findIdx (fun e => EK e == 0)) hfree (findIdx_get_free EK t.entries_ hfree)

theorem iterator_keys {EN : Type} (EK : EN → Nat) (l : List EN) (n : Nat) :
    (theta_iterator EK l n).map EK = ((l.map EK).take n).filter (fun k => k != 0) := by
  unfold theta_iterator
  rw [← List.map_take, List.filter_map]
  rfl

theorem wf_of_keys_eq {EN : Type} (EK : EN → Nat) (t t' : theta_update_sketch_base EN)
    (hkeys : t'.entries_.map EK = t.entries_.map EK) (hlg : t'.lg_cur_size_ = t.lg_cur_size_)
    (hnum : t'.num_entries_ = t.num_entries_) (hth : t'.theta_ = t.theta_) (hwf : t.wf EK) :
    t'.wf EK := by
  have hk : (theta_iterator EK t'.entries_ (2 ^ t'.lg_cur_size_)).map EK =
      (theta_iterator EK t.entries_ (2 ^ t.lg_cur_size_)).map EK := by
    rw [iterator_keys, iterator_keys, hkeys, hlg]
  obtain ⟨h1, h2, h3, h4, h5⟩ := hwf
  refine ⟨?_, ?_, ?_, ?_, ?_⟩
  · have := congrArg List.length hkeys
    simp only [List.length_map] at this
    rw [this, hlg, h1]
  · have := congrArg List.length hk
    simp only [List.length_map] at this
    rw [hnum, this, h2]
  · rw [hnum, hlg]; exact h3
  · rw [hk]; exact h4
  · intro e he
    have hmem : EK e ∈ (theta_iterator EK t.entries_ (2 ^ t.lg_cur_size_)).map EK := by
      rw [← hk]
      exact List.mem_map_of_mem EK he
    obtain ⟨x, hx, hxe⟩ := List.mem_map.mp hmem
    rw [hth, ← hxe]
    exact h5 x hx

end theta_update_sketch_base

theorem entry_lookup_set_found {S : Type} (key : Nat) (v : S) (k : Nat) :
    ∀ l : List (Nat × S), l.findIdx (fun e => e.1 == key) < l.length →
      entry_lookup (l.set (l.findIdx (fun e => e.1 == key)) (key, v)) k =
        if key = k then some v else entry_lookup l k := by
  intro l
  induction l with
  | nil => intro h; simp at h
  | cons y ys ih =>
    intro h
    by_cases hy : y.1 = key
    · have h0 : (y :: ys).findIdx (fun e => e.1 == key) = 0 := by
        simp [List.findIdx_cons, hy]
      rw [h0, List.set_cons_zero, entry_lookup_cons, entry_lookup_cons]
      by_cases hk : key = k
      · rw [if_pos hk, if_pos hk]
      · rw [if_neg hk, if_neg hk, if_neg (by rw [hy]; exact hk)]
    · have h1 : (y :: ys).findIdx (fun e => e.1 == key) =
          ys.findIdx (fun e => e.1 == key) + 1 := by
        have hne : (y.1 == key) = false := by simpa using hy
        simp [List.findIdx_cons, hne]
      rw [h1] at h ⊢
      have h2 : ys.findIdx (fun e => e.1 == key) < ys.length := by simpa using h
      rw [List.set_cons_succ, entry_lookup_cons, entry_lookup_cons, ih h2]
      by_cases hk : y.1 = k
      · rw [if_pos hk, if_neg (by rw [← hk]; exact fun h => hy h.symm), if_pos hk]
      · rw [if_neg hk, if_neg hk]

theorem entry_lookup_found {S : Type} (key : Nat) (blank : Nat × S) :
    ∀ l : List (Nat × S), l.findIdx (fun e => e.1 == key) < l.length →
      (l.getD (l.findIdx (fun e => e.1 == key)) blank).1 = key ∧
      entry_lookup l key = some (l.getD (l.findIdx (fun e => e.1 == key)) blank).2 := by
  intro l
  induction l with
  | nil => intro h; simp at h
  | cons y ys ih =>
    intro h
    by_cases hy : y.1 = key
    · have h0 : (y :: ys).findIdx (fun e => e.1 == key) = 0 := by
        simp [List.findIdx_cons, hy]
      rw [h0, entry_lookup_cons, if_pos hy]
      exact ⟨hy, rfl⟩
    · have h1 : (y :: ys).findIdx (fun e => e.1 == key) =
          ys.findIdx (fun e => e.1 == key) + 1 := by
        have hne : (y.1 == key) = false := by simpa using hy
        simp [List.findIdx_cons, hne]
      rw [h1] at h ⊢
      have h2 : ys.findIdx (fun e => e.1 == key) < ys.length := by simpa using h
      rw [entry_lookup_cons, if_neg hy]
      exact ih h2

theorem mem_entries_of_mem_occupied {EN : Type} (EK : EN → Nat) (t : theta_update_sketch_base EN)
    (x : EN) (hx : x ∈ t.occupied EK) : x ∈ t.entries_ := by
  unfold theta_update_sketch_base.occupied theta_iterator at hx
  exact List.mem_of_mem_take (List.mem_of_mem_filter hx)

theorem entry_lookup_occupied {S : Type} (t : theta_update_sketch_base (Nat × S))
    (hlen : t.entries_.length = 2 ^ t.lg_cur_size_) (k : Nat) :
    entry_lookup (t.occupied Prod.fst) k = if k = 0 then none else entry_lookup t.entries_ k := by
  rw [theta_update_sketch_base.occupied_eq_filter Prod.fst t hlen]
  have h := entry_lookup_filter (fun k => k != 0) t.entries_ k
  rw [h]
  by_cases hk : k = 0
  · simp [hk]
  · simp [hk]

theorem theta_iterator_all {EN : Type} (EK : EN → Nat) (l : List EN) (h : ∀ e ∈ l, EK e ≠ 0) :
    theta_iterator EK l l.length = l := by
  simp only [theta_iterator, List.take_length]
  exact List.filter_eq_self.mpr (fun e he => by simpa using h e he)

theorem entry_lookup_fresh {S : Type} (t : theta_update_sketch_base (Nat × S))
    (hwf : t.wf Prod.fst) (hfresh : t.num_entries_ = 0) (k : Nat) :
    entry_lookup (t.occupied Prod.fst) k = none := by
  have h : t.occupied Prod.fst = [] := by
    apply List.eq_nil_of_length_eq_zero
    rw [← hfresh]
    exact hwf.2.1.symm
  rw [h]
  rfl

theorem result_of_two {S : Type} (blank : Nat × S) (threshold : Nat → Nat) (P : S → S → S)
    (compute_seed_hash : Nat → Nat) (u u1 u2 : tuple_union S) (A B : tuple_sketch S)
    (ordered : Bool)
    (h1 : tuple_union.update blank threshold P compute_seed_hash u A = .ok u1)
    (h2 : tuple_union.update blank threshold P compute_seed_hash u1 B = .ok u2) :
    tuple_union.result_of blank threshold P compute_seed_hash u [A, B] ordered =
      .ok (tuple_union.get_result blank compute_seed_hash u2 ordered) := by
  unfold tuple_union.result_of
  simp only [List.foldlM, h1, h2, bind, Except.bind, pure, Except.pure]

theorem to_sketch_entries {S : Type} (r : compact_tuple_sketch S)
    (h : ∀ e ∈ r.entries_, e.1 ≠ 0) : r.to_sketch.entries = r.entries_ :=
  theta_iterator_all Prod.fst r.entries_ h

theorem absorb_none_nodup {S : Type} (P : S → S → S) (k : Nat) (es : List (Nat × S))
    (hnd : (es.map Prod.fst).Nodup) : absorb P k none es = entry_lookup es k := by
  rw [absorb_nodup P k es hnd]
  cases entry_lookup es k <;> rfl

theorem filter_lt_of_sorted : ∀ (s : List Nat), s.Pairwise (fun a b => a < b) →
    ∀ (i : Nat) (h : i < s.length), s.filter (fun x => x < s.get ⟨i, h⟩) = s.take i := by
  intro s
  induction s with
  | nil => intro _ i h; simp at h
  | cons a s ih =>
    intro hp i h
    rw [List.pairwise_cons] at hp
    cases i with
    | zero =>
      simp only [List.get_eq_getElem, List.getElem_cons_zero, List.take_zero,
        List.filter_eq_nil_iff, List.mem_cons, decide_eq_true_eq, not_lt]
      rintro x (hx | hx)
      · rw [hx]
      · exact le_of_lt (hp.1 x hx)
    | succ j =>
      have hj : j < s.length := by simpa using h
      have hlt : a < s.get ⟨j, hj⟩ := hp.1 _ (List.get_mem _ _ _)
      have := ih hp.2 j hj
      simp only [List.get_eq_getElem, List.getElem_cons_succ, List.take_succ_cons] at this ⊢
      rw [List.filter_cons_of_pos (by simpa using hlt), this]

theorem count_below_of_sorted_get (l : List Nat) (hnd : l.Nodup) (k th : Nat)
    (h : (l.insertionSort (fun a b => a ≤ b))[k]? = some th) :
    th ∈ l ∧ (l.filter (fun x => x < th)).length = k := by
  have hperm := List.perm_insertionSort (fun a b : Nat => a ≤ b) l
  have hs : (l.insertionSort (fun a b => a ≤ b)).Sorted (fun a b => a ≤ b) :=
    List.sorted_insertionSort _ l
  have hlt : (l.insertionSort (fun a b => a ≤ b)).Pairwise (fun a b => a < b) :=
    hs.lt_of_le (hperm.nodup_iff.mpr hnd)
  obtain ⟨hk, hget⟩ := List.getElem?_eq_some.mp h
  refine ⟨hperm.mem_iff.mp (List.getElem?_mem h), ?_⟩
  have h1 := filter_lt_of_sorted _ hlt k hk
  rw [List.get_eq_getElem, hget] at h1
  rw [← (hperm.filter (fun x => x < th)).length_eq, h1, List.length_take]
  omega

theorem is_cut_le (k : Nat) (F : Finset Nat) (R c : Nat) (h : is_cut k F R c) : c ≤ R := by
  rcases h with ⟨h1, -⟩ | ⟨-, h1, -⟩
  · exact le_of_eq h1
  · exact le_of_lt h1

theorem card_filter_lt_mono (F : Finset Nat) (a b : Nat) (hab : a < b) (ha : a ∈ F) :
    (F.filter (fun x => x < a)).card < (F.filter (fun x => x < b)).card := by
  apply Finset.card_lt_card
  rw [Finset.ssubset_iff_of_subset]
  · exact ⟨a, by simp [ha, hab], by simp⟩
  · intro x hx
    simp only [Finset.mem_filter] at hx ⊢
    exact ⟨hx.1, by omega⟩

theorem is_cut_unique (k : Nat) (F : Finset Nat) (R c c' : Nat) (h : is_cut k F R c)
    (h' : is_cut k F R c') : c = c' := by
  rcases h with ⟨h1, h2⟩ | ⟨h1, h2, h3⟩ <;> rcases h' with ⟨g1, g2⟩ | ⟨g1, g2, g3⟩
  · rw [h1, g1]
  · have := card_filter_lt_mono F c' R g2 g1
    omega
  · have := card_filter_lt_mono F c R h2 h1
    omega
  · rcases Nat.lt_trichotomy c c' with hlt | heq | hgt
    · have := card_filter_lt_mono F c c' hlt h1
      omega
    · exact heq
    · have := card_filter_lt_mono F c' c hgt g1
      omega

theorem filter_union_below (F G : Finset Nat) (c b : Nat) (hb : b ≤ c) :
    ((F.filter (fun x => x < c)) ∪ G).filter (fun x => x < b) =
      (F ∪ G).filter (fun x => x < b) := by
  ext x
  simp only [Finset.mem_filter, Finset.mem_union]
  constructor
  · rintro ⟨(⟨h1, -⟩ | h1), h2⟩
    · exact ⟨Or.inl h1, h2⟩
    · exact ⟨Or.inr h1, h2⟩
  · rintro ⟨(h1 | h1), h2⟩
    · exact ⟨Or.inl ⟨h1, by omega⟩, h2⟩
    · exact ⟨Or.inr h1, h2⟩

theorem is_cut_of_truncated (k : Nat) (F G : Finset Nat) (R c2 th c : Nat)
    (h2 : is_cut k F R c2) (h : is_cut k ((F.filter (fun x => x < c2)) ∪ G) (min c2 th) c) :
    is_cut k (F ∪ G) (min R th) c := by
  have hc2 := is_cut_le k F R c2 h2
  have hfil : ∀ b, b ≤ c2 → (((F.filter (fun x => x < c2)) ∪ G).filter (fun x => x < b)).card =
      ((F ∪ G).filter (fun x => x < b)).card := by
    intro b hb
    rw [filter_union_below F G c2 b hb]
  rcases h with ⟨hc, hcard⟩ | ⟨hmem, hlt, hcard⟩
  · rw [hfil _ (min_le_left _ _)] at hcard
    rcases h2 with ⟨e2, -⟩ | ⟨m2, l2, k2⟩
    · left
      rw [e2] at hc hcard
      exact ⟨hc, hcard⟩
    · by_cases hth : th ≤ c2
      · left
        have e1 : min c2 th = th := min_eq_right hth
        have e2 : min R th = th := min_eq_right (by omega)
        rw [e1] at hc hcard
        rw [e2]
        exact ⟨hc, hcard⟩
      · right
        have e1 : min c2 th = c2 := min_eq_left (by omega)
        rw [e1] at hc hcard
        rw [hc]
        refine ⟨Finset.mem_union_left _ m2, lt_min l2 (by omega), ?_⟩
        have hsub : (F.filter (fun x => x < c2)).card ≤
            ((F ∪ G).filter (fun x => x < c2)).card := by
          apply Finset.card_le_card
          intro x hx
          simp only [Finset.mem_filter, Finset.mem_union] at hx ⊢
          exact ⟨Or.inl hx.1, hx.2⟩
        omega
  · right
    have hle : c ≤ c2 := le_of_lt (lt_of_lt_of_le hlt (min_le_left _ _))
    rw [hfil c hle] at hcard
    refine ⟨?_, ?_, hcard⟩
    · rcases Finset.mem_union.mp hmem with h1 | h1
      · exact Finset.mem_union_left _ (Finset.mem_filter.mp h1).1
      · exact Finset.mem_union_right _ h1
    · have : c < th := lt_of_lt_of_le hlt (min_le_right _ _)
      exact lt_min (by omega) this

namespace theta_update_sketch_base

theorem iterator_length_le {EN : Type} (EK : EN → Nat) (l : List EN) (n : Nat) :
    (theta_iterator EK l n).length ≤ n := by
  unfold theta_iterator
  exact (List.length_filter_le _ _).trans (List.length_take_le _ _)

theorem rebuild_spec {EN : Type} (EK : EN → Nat) (blank : EN) (hblank : EK blank = 0)
    (t : theta_update_sketch_base EN) (hnd : ((t.occupied EK).map EK).Nodup) :
    (t.rebuild EK blank = t ∧ (t.occupied EK).length ≤ 2 ^ t.lg_nom_size_) ∨
      ((t.rebuild EK blank).occupied EK =
          (t.occupied EK).filter (fun e => EK e < (t.rebuild EK blank).theta_) ∧
        (t.rebuild EK blank).theta_ ∈ (t.occupied EK).map EK ∧
        (((t.occupied EK).map EK).filter
          (fun x => x < (t.rebuild EK blank).theta_)).length = 2 ^ t.lg_nom_size_) := by
  unfold rebuild
  split
  · rename_i hnone
    left
    exact ⟨rfl, kth_smallest_none EK _ _ _ hnone⟩
  · rename_i th hsome
    right
    obtain ⟨h1, h2⟩ := count_below_of_sorted_get _ hnd _ th hsome
    refine ⟨?_, h1, h2⟩
    unfold occupied
    refine iterator_pad_eq EK blank hblank _ _ _ ?_ ?_
    · exact fun e he => mem_theta_iterator_ne_zero EK _ _ (List.mem_of_mem_filter he)
    · exact (List.length_filter_le _ _).trans (iterator_length_le EK _ _)

theorem rebuild_frame {EN : Type} (EK : EN → Nat) (blank : EN)
    (t : theta_update_sketch_base EN) :
    (t.rebuild EK blank).lg_nom_size_ = t.lg_nom_size_ ∧
      (t.rebuild EK blank).seed_ = t.seed_ ∧
      (t.rebuild EK blank).is_empty_ = t.is_empty_ ∧
      (t.rebuild EK blank).rf_ = t.rf_ := by
  unfold rebuild
  split <;> exact ⟨rfl, rfl, rfl, rfl⟩

theorem insert_frame {EN : Type} (EK : EN → Nat) (blank : EN) (threshold : Nat → Nat)
    (t : theta_update_sketch_base EN) (idx : Nat) (c : EN) :
    (t.insert EK blank threshold idx c).lg_nom_size_ = t.lg_nom_size_ ∧
      (t.insert EK blank threshold idx c).seed_ = t.seed_ ∧
      (t.insert EK blank threshold idx c).is_empty_ = t.is_empty_ := by
  unfold insert
  split_ifs
  · exact ⟨rfl, rfl, rfl⟩
  · have h := rebuild_frame EK blank
      { t with entries_ := t.entries_.set idx c, num_entries_ := t.num_entries_ + 1 }
    exact ⟨h.1, h.2.1, h.2.2.1⟩
  · exact ⟨rfl, rfl, rfl⟩

theorem insert_spec {EN : Type} (EK : EN → Nat) (blank : EN) (hblank : EK blank = 0)
    (threshold : Nat → Nat) (t : theta_update_sketch_base EN) (c : EN)
    (hwf : t.wf EK) (hc : EK c ≠ 0) (hlt : EK c < t.theta_)
    (hnew : ∀ e ∈ t.entries_, EK e ≠ EK c) :
    ∀ t', t' = t.insert EK blank threshold (t.entries_.findIdx (fun e => EK e == 0)) c →
      ((t'.occupied EK).Perm ((c :: t.occupied EK).filter (fun e => EK e < t'.theta_))) ∧
      (t'.theta_ = t.theta_ ∨
        (t'.theta_ ∈ (c :: t.occupied EK).map EK ∧
          (((c :: t.occupied EK).map EK).filter (fun x => x < t'.theta_)).length =
            2 ^ t.lg_nom_size_)) := by
  intro t' ht'
  have hperm := occupied_set_perm EK t c hwf hc
  have hall : (c :: t.occupied EK).filter (fun e => EK e < t.theta_) = c :: t.occupied EK := by
    rw [List.filter_eq_self]
    intro e he
    rcases List.mem_cons.mp he with h | h
    · rw [h]; simpa using hlt
    · simpa using hwf.2.2.2.2 e h
  have hnd : ((c :: t.occupied EK).map EK).Nodup := by
    rw [List.map_cons, List.nodup_cons]
    refine ⟨?_, hwf.2.2.2.1⟩
    intro hmem
    obtain ⟨e, he, hk⟩ := List.mem_map.mp hmem
    exact hnew e (mem_entries_of_mem_occupied EK t e he) hk
  unfold insert at ht'
  split_ifs at ht' with ha hb
  · -- growth
    have hocc : t'.occupied EK =
        theta_iterator EK (t.entries_.set (t.entries_.findIdx (fun e => EK e == 0)) c)
          (2 ^ t.lg_cur_size_) := by
      rw [ht']
      unfold occupied resize
      refine iterator_pad_eq EK blank hblank _ _ _
        (fun e he => mem_theta_iterator_ne_zero EK _ _ he) ?_
      have h2 : 2 ^ t.lg_cur_size_ ≤ 2 ^ min (t.lg_cur_size_ + t.rf_) (t.lg_nom_size_ + 1) :=
        Nat.pow_le_pow_right (by norm_num) (by simp only [le_min_iff]; omega)
      exact (iterator_length_le EK _ _).trans h2
    have hth : t'.theta_ = t.theta_ := by rw [ht']; rfl
    rw [hth, hall, hocc]
    exact ⟨hperm, Or.inl rfl⟩
  · -- rebuild
    have hocc1 : occupied EK ({ t with
        entries_ := t.entries_.set (t.entries_.findIdx (fun e => EK e == 0)) c,
        num_entries_ := t.num_entries_ + 1 } : theta_update_sketch_base EN) =
        theta_iterator EK (t.entries_.set (t.entries_.findIdx (fun e => EK e == 0)) c)
          (2 ^ t.lg_cur_size_) := rfl
    have hnd1 : ((occupied EK ({ t with
        entries_ := t.entries_.set (t.entries_.findIdx (fun e => EK e == 0)) c,
        num_entries_ := t.num_entries_ + 1 } : theta_update_sketch_base EN)).map EK).Nodup := by
      rw [hocc1]
      exact ((hperm.map EK).nodup_iff).mpr hnd
    rcases rebuild_spec EK blank hblank _ hnd1 with ⟨h1, -⟩ | ⟨h1, h2, h3⟩
    · rw [h1] at ht'
      have hth : t'.theta_ = t.theta_ := by rw [ht']
      have hocc : t'.occupied EK =
          theta_iterator EK (t.entries_.set (t.entries_.findIdx (fun e => EK e == 0)) c)
            (2 ^ t.lg_cur_size_) := by rw [ht']; rfl
      rw [hth, hall, hocc]
      exact ⟨hperm, Or.inl rfl⟩
    · rw [← ht', hocc1] at h1 h2 h3
      refine ⟨?_, Or.inr ⟨?_, ?_⟩⟩
      · rw [h1]
        exact hperm.filter _
      · exact ((hperm.map EK).mem_iff).mp h2
      · rw [← h3]
        exact (((hperm.map EK).filter _).length_eq).symm
  · have hth : t'.theta_ = t.theta_ := by rw [ht']
    have hocc : t'.occupied EK =
        theta_iterator EK (t.entries_.set (t.entries_.findIdx (fun e => EK e == 0)) c)
          (2 ^ t.lg_cur_size_) := by rw [ht']; rfl
    rw [hth, hall, hocc]
    exact ⟨hperm, Or.inl rfl⟩

end theta_update_sketch_base

theorem absorb_snoc {S : Type} (P : S → S → S) (k : Nat) (o : Option S) (L : List (Nat × S))
    (e : Nat × S) :
    absorb P k o (L ++ [e]) =
      if e.1 = k then some (merge_value P (absorb P k o L) e.2) else absorb P k o L := by
  rw [absorb_append]
  rfl

theorem mem_key_set {S : Type} (L : List (Nat × S)) (x : Nat) :
    x ∈ key_set L ↔ x ∈ L.map Prod.fst := by
  unfold key_set
  exact List.mem_toFinset

theorem key_set_append {S : Type} (L1 L2 : List (Nat × S)) :
    key_set (L1 ++ L2) = key_set L1 ∪ key_set L2 := by
  unfold key_set
  rw [List.map_append, List.toFinset_append]

theorem mem_key_set_of_absorb {S : Type} (P : S → S → S) (x : Nat) (L : List (Nat × S))
    (h : (absorb P x none L).isSome = true) : x ∈ key_set L := by
  rw [absorb_isSome] at h
  rcases h with h | h
  · simp at h
  · exact (mem_key_set L x).mpr h

theorem mem_key_set_iff_absorb {S : Type} (P : S → S → S) (x : Nat) (L : List (Nat × S)) :
    x ∈ key_set L ↔ (absorb P x none L).isSome = true := by
  rw [absorb_isSome, mem_key_set]
  simp

theorem cut_part_mono {S : Type} (L L' : List (Nat × S)) (k th : Nat)
    (hsub : key_set L ⊆ key_set L')
    (h : th ∈ key_set L ∧ k ≤ ((key_set L).filter (fun x => x < th)).card) :
    th ∈ key_set L' ∧ k ≤ ((key_set L').filter (fun x => x < th)).card := by
  refine ⟨hsub h.1, h.2.trans (Finset.card_le_card ?_)⟩
  intro x hx
  simp only [Finset.mem_filter] at hx ⊢
  exact ⟨hsub hx.1, hx.2⟩

theorem ingest_found_lookup {S : Type} (blank : Nat × S) (threshold : Nat → Nat)
    (P : S → S → S) (th : Nat) (t : theta_update_sketch_base (Nat × S)) (e : Nat × S)
    (hwf : t.wf Prod.fst) (hlt : e.1 < th) (hkey : e.1 ≠ 0)
    (h2 : (t.find Prod.fst e.1).2 = true) :
    ∀ t', t' = theta_union_base.ingest_entry Prod.fst blank threshold
        (tuple_union.internal_policy P) th t e →
      t'.wf Prod.fst ∧ t'.rf_ = t.rf_ ∧ t'.lg_nom_size_ = t.lg_nom_size_ ∧
        t'.theta_ = t.theta_ ∧ t'.seed_ = t.seed_ ∧ t'.is_empty_ = t.is_empty_ ∧
        ∀ k, entry_lookup (t'.occupied Prod.fst) k =
          if e.1 = k then some (merge_value P (entry_lookup (t.occupied Prod.fst) k) e.2)
          else entry_lookup (t.occupied Prod.fst) k := by
  intro t' ht'
  obtain ⟨hidx, hi⟩ := theta_update_sketch_base.find_slot_found Prod.fst t e.1 h2
  obtain ⟨hk1, hlk⟩ := entry_lookup_found e.1 blank t.entries_ hi
  rw [ingest_collision blank threshold P th t e hlt h2, hidx] at ht'
  have hlen' : t'.entries_.length = 2 ^ t'.lg_cur_size_ := by
    rw [ht']
    simp only [List.length_set]
    exact hwf.1
  have hwf' : t'.wf Prod.fst := by
    refine theta_update_sketch_base.wf_of_keys_eq Prod.fst t t' ?_ (by rw [ht']) (by rw [ht'])
      (by rw [ht']) hwf
    rw [ht']
    exact set_getD_self t.entries_ _ blank hi (fun x => tuple_union.internal_policy P x e)
      Prod.fst rfl
  refine ⟨hwf', by rw [ht'], by rw [ht'], by rw [ht'], by rw [ht'], by rw [ht'], ?_⟩
  intro k
  rw [entry_lookup_occupied t' hlen', entry_lookup_occupied t hwf.1]
  have hent : t'.entries_ = t.entries_.set (t.entries_.findIdx (fun e' => e'.1 == e.1))
      (e.1, P (t.entries_.getD (t.entries_.findIdx (fun e' => e'.1 == e.1)) blank).2 e.2) := by
    rw [ht']
    show t.entries_.set _ ((t.entries_.getD _ blank).1, _) = _
    rw [hk1]
  rw [hent, entry_lookup_set_found e.1 _ k t.entries_ hi]
  by_cases hk : e.1 = k
  · rw [if_pos hk, if_pos hk, if_neg (by omega), if_neg (by omega), ← hk, hlk]
    rfl
  · rw [if_neg hk, if_neg hk]

theorem found_lt_theta {S : Type} (t : theta_update_sketch_base (Nat × S)) (key : Nat)
    (hwf : t.wf Prod.fst) (hkey : key ≠ 0) (h : (t.find Prod.fst key).2 = true) :
    key < t.theta_ := by
  obtain ⟨x, hx, hxk⟩ := (theta_update_sketch_base.find_found_key Prod.fst t key).mp h
  have hocc : x ∈ t.occupied Prod.fst := by
    rw [theta_update_sketch_base.occupied_eq_filter Prod.fst t hwf.1, List.mem_filter]
    exact ⟨hx, by simpa [hxk] using hkey⟩
  rw [← hxk]
  exact hwf.2.2.2.2 x hocc

theorem ingest_entry_tracks {S : Type} (blank : Nat × S) (hblank : blank.1 = 0)
    (threshold : Nat → Nat) (hthr : ∀ c, 0 < c → threshold c < c) (P : S → S → S)
    (R th0 : Nat) (t : theta_update_sketch_base (Nat × S)) (L : List (Nat × S)) (e : Nat × S)
    (h : tracks P R th0 t L) (hkey : e.1 ≠ 0) :
    ∀ t', t' = theta_union_base.ingest_entry Prod.fst blank threshold
        (tuple_union.internal_policy P) R t e →
      tracks P R th0 t' (L ++ [e]) ∧ t'.lg_nom_size_ = t.lg_nom_size_ ∧ t'.seed_ = t.seed_ ∧
        t'.is_empty_ = t.is_empty_ := by
  intro t' ht'
  obtain ⟨hwf, hrf, hle0, hI1, hI3⟩ := h
  have hsub : key_set L ⊆ key_set (L ++ [e]) := by
    rw [key_set_append]
    exact Finset.subset_union_left
  by_cases h1 : R ≤ e.1
  · have : t' = t := by
      rw [ht']
      unfold theta_union_base.ingest_entry
      rw [if_pos h1]
    subst this
    refine ⟨⟨hwf, hrf, hle0, ?_,
      fun hth => Or.imp_right (cut_part_mono L _ _ _ hsub) (hI3 hth)⟩, rfl, rfl, rfl⟩
    intro x hx hxt
    rw [absorb_snoc, if_neg (by omega)]
    exact hI1 x hx hxt
  · have hlt : e.1 < R := by omega
    by_cases h2 : (t.find Prod.fst e.1).2 = true
    · obtain ⟨f1, f2, f3, f4, f5, f6, f7⟩ :=
        ingest_found_lookup blank threshold P R t e hwf hlt hkey h2 t' ht'
      refine ⟨⟨f1, by rw [f2]; exact hrf, by rw [f4]; exact hle0, ?_, ?_⟩, f3, f5, f6⟩
      · intro x hx hxt
        rw [f4] at hxt
        rw [f7 x, absorb_snoc, hI1 x hx hxt]
      · intro hth
        rw [f4] at hth ⊢
        rw [f3]
        exact Or.imp_right (cut_part_mono L _ _ _ hsub) (hI3 hth)
    · by_cases h3 : t.theta_ ≤ e.1
      · have : t' = t := by
          rw [ht']
          unfold theta_union_base.ingest_entry
          rw [if_neg h1, if_neg h2, if_pos h3]
        subst this
        refine ⟨⟨hwf, hrf, hle0, ?_,
      fun hth => Or.imp_right (cut_part_mono L _ _ _ hsub) (hI3 hth)⟩, rfl, rfl, rfl⟩
        intro x hx hxt
        rw [absorb_snoc, if_neg (by omega)]
        exact hI1 x hx hxt
      · have hlt2 : e.1 < t.theta_ := by omega
        have hslot := theta_update_sketch_base.find_slot_free Prod.fst t e.1 h2
        have hnew : ∀ x ∈ t.entries_, x.1 ≠ e.1 := by
          intro x hx hxe
          exact h2 ((theta_update_sketch_base.find_found_key Prod.fst t e.1).mpr ⟨x, hx, hxe⟩)
        have hins : t' = t.insert Prod.fst blank threshold
            (t.entries_.findIdx (fun e' => e'.1 == 0)) e := by
          rw [ht']
          unfold theta_union_base.ingest_entry
          rw [if_neg h1, if_neg h2, if_neg h3, hslot]
        have hwf' := theta_update_sketch_base.insert_wf Prod.fst blank hblank threshold hthr t e
          hwf hrf hkey hlt2 hnew
        have hrf' := theta_update_sketch_base.insert_rf Prod.fst blank threshold t
          (t.entries_.findIdx (fun e' => e'.1 == 0)) e
        obtain ⟨g1, g2, g3⟩ := theta_update_sketch_base.insert_frame Prod.fst blank threshold t
          (t.entries_.findIdx (fun e' => e'.1 == 0)) e
        rw [← hins] at hwf' hrf' g1 g2 g3
        obtain ⟨hperm, hcase⟩ := theta_update_sketch_base.insert_spec Prod.fst blank hblank
          threshold t e hwf hkey hlt2 hnew t' hins
        have hkeys_lt : ∀ y ∈ (e :: t.occupied Prod.fst).map Prod.fst, y < t.theta_ := by
          intro y hy
          rw [List.map_cons, List.mem_cons] at hy
          rcases hy with hy | hy
          · rw [hy]; exact hlt2
          · obtain ⟨z, hz, hzy⟩ := List.mem_map.mp hy
            rw [← hzy]
            exact hwf.2.2.2.2 z hz
        have hth_le : t'.theta_ ≤ t.theta_ := by
          rcases hcase with hc | ⟨hc, -⟩
          · exact le_of_eq hc
          · exact le_of_lt (hkeys_lt _ hc)
        have hnone : entry_lookup (t.occupied Prod.fst) e.1 = none := by
          rw [entry_lookup_eq_none_iff]
          intro x hx
          exact hnew x (mem_entries_of_mem_occupied Prod.fst t x hx)
        have hlook : ∀ x, x < R → x < t'.theta_ →
            entry_lookup (t'.occupied Prod.fst) x = absorb P x none (L ++ [e]) := by
          intro x hx hxt
          rw [entry_lookup_perm (t'.occupied Prod.fst) _ hwf'.2.2.2.1 hperm x]
          have hf := entry_lookup_filter (fun k => decide (k < t'.theta_))
            (e :: t.occupied Prod.fst) x
          rw [hf, if_pos (by simpa using hxt), entry_lookup_cons, absorb_snoc,
            ← hI1 x hx (by omega)]
          by_cases hk : e.1 = x
          · rw [if_pos hk, if_pos hk, ← hk, hnone]
            rfl
          · rw [if_neg hk, if_neg hk]
        refine ⟨⟨hwf', by rw [hrf']; exact hrf, hth_le.trans hle0, hlook, ?_⟩, g1, g2, g3⟩
        intro hth
        rw [g1]
        rcases hcase with hc | ⟨hc1, hc2⟩
        · rw [hc] at hth ⊢
          exact Or.imp_right (cut_part_mono L _ _ _ hsub) (hI3 hth)
        · right
          have hin : ∀ y ∈ (e :: t.occupied Prod.fst).map Prod.fst, y ≤ t'.theta_ →
              y ∈ key_set (L ++ [e]) := by
            intro y hy hyle
            rw [List.map_cons, List.mem_cons] at hy
            rcases hy with hy | hy
            · rw [hy, key_set_append]
              apply Finset.mem_union_right
              rw [mem_key_set]
              simp
            · have hyt : y < t.theta_ :=
                hkeys_lt y (by rw [List.map_cons]; exact List.mem_cons_of_mem _ hy)
              apply hsub
              apply mem_key_set_of_absorb P
              rw [← hI1 y (by omega) hyt, entry_lookup_isSome_iff]
              obtain ⟨z, hz, hzy⟩ := List.mem_map.mp hy
              exact ⟨z, hz, hzy⟩
          refine ⟨hin _ hc1 (le_refl _), ?_⟩
          have hnd : ((e :: t.occupied Prod.fst).map Prod.fst).Nodup := by
            rw [List.map_cons, List.nodup_cons]
            refine ⟨?_, hwf.2.2.2.1⟩
            intro hmem
            obtain ⟨z, hz, hzk⟩ := List.mem_map.mp hmem
            exact hnew z (mem_entries_of_mem_occupied Prod.fst t z hz) hzk
          rw [← hc2, ← List.toFinset_card_of_nodup (hnd.filter _)]
          apply Finset.card_le_card
          intro y hy
          rw [List.mem_toFinset, List.mem_filter] at hy
          have hylt : y < t'.theta_ := by simpa using hy.2
          rw [Finset.mem_filter]
          exact ⟨hin y hy.1 (le_of_lt hylt), hylt⟩

theorem ingest_fold_tracks {S : Type} (blank : Nat × S) (hblank : blank.1 = 0)
    (threshold : Nat → Nat) (hthr : ∀ c, 0 < c → threshold c < c) (P : S → S → S)
    (R th0 : Nat) (es : List (Nat × S)) :
    ∀ (t : theta_update_sketch_base (Nat × S)) (L : List (Nat × S)), tracks P R th0 t L →
      (∀ e ∈ es, e.1 ≠ 0) →
      ∀ t', t' = es.foldl (theta_union_base.ingest_entry Prod.fst blank threshold
          (tuple_union.internal_policy P) R) t →
        tracks P R th0 t' (L ++ es) ∧ t'.lg_nom_size_ = t.lg_nom_size_ ∧ t'.seed_ = t.seed_ ∧
          t'.is_empty_ = t.is_empty_ := by
  induction es with
  | nil =>
    intro t L h _ t' ht'
    rw [List.foldl_nil] at ht'
    subst ht'
    rw [List.append_nil]
    exact ⟨h, rfl, rfl, rfl⟩
  | cons e es ih =>
    intro t L h hkeys t' ht'
    rw [List.foldl_cons] at ht'
    obtain ⟨s1, s2, s3, s4⟩ := ingest_entry_tracks blank hblank threshold hthr P R th0 t L e h
      (hkeys e (List.mem_cons_self _ _)) _ rfl
    obtain ⟨r1, r2, r3, r4⟩ := ih _ (L ++ [e]) s1
      (fun x hx => hkeys x (List.mem_cons_of_mem _ hx)) t' ht'
    rw [List.append_assoc, List.singleton_append] at r1
    exact ⟨r1, r2.trans s2, r3.trans s3, r4.trans s4⟩

theorem tracks_weaken {S : Type} (P : S → S → S) (R R' th0 : Nat)
    (t : theta_update_sketch_base (Nat × S)) (L : List (Nat × S)) (h : tracks P R th0 t L)
    (hR : R' ≤ R) : tracks P R' th0 t L := by
  obtain ⟨h1, h2, h0, h3, h4⟩ := h
  exact ⟨h1, h2, h0, fun x hx hxt => h3 x (by omega) hxt, fun hth => h4 (by omega)⟩

theorem tracks_fresh {S : Type} (P : S → S → S) (R : Nat)
    (t : theta_update_sketch_base (Nat × S)) (hwf : t.wf Prod.fst) (hrf : 1 ≤ t.rf_)
    (hfresh : t.num_entries_ = 0) : tracks P R t.theta_ t [] := by
  refine ⟨hwf, hrf, le_refl _, fun x _ _ => ?_, fun _ => Or.inl rfl⟩
  rw [entry_lookup_fresh t hwf hfresh x]
  rfl

theorem tuple_union_update_tracks {S : Type} (blank : Nat × S) (hblank : blank.1 = 0)
    (threshold : Nat → Nat) (hthr : ∀ c, 0 < c → threshold c < c) (P : S → S → S)
    (compute_seed_hash : Nat → Nat) (u : tuple_union S) (sk : tuple_sketch S) (th0 : Nat)
    (L : List (Nat × S)) (h : tracks P u.state_.union_theta_ th0 u.state_.table_ L)
    (hseed : sk.get_seed_hash = compute_seed_hash u.state_.table_.seed_)
    (hkeys : ∀ e ∈ sk.entries, e.1 ≠ 0) :
    ∃ u', tuple_union.update blank threshold P compute_seed_hash u sk = .ok u' ∧
      tracks P u'.state_.union_theta_ th0 u'.state_.table_ (L ++ sk.entries) ∧
      u'.state_.union_theta_ = min u.state_.union_theta_ sk.get_theta64 ∧
      u'.state_.table_.lg_nom_size_ = u.state_.table_.lg_nom_size_ ∧
      u'.state_.table_.seed_ = u.state_.table_.seed_ ∧
      u'.state_.table_.is_empty_ = u.state_.table_.is_empty_ := by
  obtain ⟨r1, r2, r3, r4⟩ := ingest_fold_tracks blank hblank threshold hthr P
    (min u.state_.union_theta_ sk.get_theta64) th0 sk.entries u.state_.table_ L
    (tracks_weaken P _ _ th0 _ L h (min_le_left _ _)) hkeys _ rfl
  refine ⟨⟨{ union_theta_ := min u.state_.union_theta_ sk.get_theta64
             table_ := sk.entries.foldl (theta_union_base.ingest_entry Prod.fst blank threshold
               (tuple_union.internal_policy P) (min u.state_.union_theta_ sk.get_theta64))
               u.state_.table_ }⟩, ?_, r1, rfl, r2, r3, r4⟩
  unfold tuple_union.update theta_union_base.update
  rw [if_neg (by rw [hseed]; exact fun h => h rfl)]

theorem card_key_set_below {S : Type} (P : S → S → S) (R th0 : Nat)
    (t : theta_update_sketch_base (Nat × S)) (L : List (Nat × S)) (h : tracks P R th0 t L)
    (b : Nat) (hbR : b ≤ R) (hbt : b ≤ t.theta_) :
    ((key_set L).filter (fun x => x < b)).card =
      (((t.occupied Prod.fst).map Prod.fst).filter (fun x => x < b)).length := by
  obtain ⟨hwf, -, -, hI1, -⟩ := h
  have hnd : ((t.occupied Prod.fst).map Prod.fst).Nodup := hwf.2.2.2.1
  rw [← List.toFinset_card_of_nodup (hnd.filter _)]
  congr 1
  ext x
  rw [Finset.mem_filter, List.mem_toFinset, List.mem_filter, mem_key_set_iff_absorb P]
  simp only [decide_eq_true_eq]
  constructor
  · rintro ⟨h1, h2⟩
    refine ⟨?_, h2⟩
    rw [← hI1 x (by omega) (by omega), entry_lookup_isSome_iff] at h1
    obtain ⟨z, hz, hzx⟩ := h1
    exact List.mem_map.mpr ⟨z, hz, hzx⟩
  · rintro ⟨h1, h2⟩
    refine ⟨?_, h2⟩
    rw [← hI1 x (by omega) (by omega), entry_lookup_isSome_iff]
    obtain ⟨z, hz, hzx⟩ := List.mem_map.mp h1
    exact ⟨z, hz, hzx⟩

theorem result_table_spec {S : Type} (blank : Nat × S) (hblank : blank.1 = 0)
    (u : tuple_union S) (hwf : u.state_.table_.wf Prod.fst) :
    (tuple_union.result_table blank u).theta_ ≤ u.state_.table_.theta_ ∧
      (tuple_union.result_table blank u).occupied Prod.fst =
        (u.state_.table_.occupied Prod.fst).filter
          (fun e => e.1 < (tuple_union.result_table blank u).theta_) ∧
      (((tuple_union.result_table blank u).theta_ = u.state_.table_.theta_ ∧
          (u.state_.table_.occupied Prod.fst).length ≤ 2 ^ u.state_.table_.lg_nom_size_) ∨
        ((tuple_union.result_table blank u).theta_ ∈
            (u.state_.table_.occupied Prod.fst).map Prod.fst ∧
          (((u.state_.table_.occupied Prod.fst).map Prod.fst).filter
            (fun x => x < (tuple_union.result_table blank u).theta_)).length =
              2 ^ u.state_.table_.lg_nom_size_)) := by
  have hall : (u.state_.table_.occupied Prod.fst).filter
      (fun e => e.1 < u.state_.table_.theta_) = u.state_.table_.occupied Prod.fst := by
    rw [List.filter_eq_self]
    intro e he
    simpa using hwf.2.2.2.2 e he
  have hnum : u.state_.table_.num_entries_ = (u.state_.table_.occupied Prod.fst).length :=
    hwf.2.1
  unfold tuple_union.result_table
  split_ifs with hk
  · rcases theta_update_sketch_base.rebuild_spec Prod.fst blank hblank u.state_.table_
      hwf.2.2.2.1 with ⟨h1, h2⟩ | ⟨h1, h2, h3⟩
    · rw [h1, hall]
      exact ⟨le_refl _, rfl, Or.inl ⟨rfl, h2⟩⟩
    · refine ⟨?_, h1, Or.inr ⟨h2, h3⟩⟩
      obtain ⟨z, hz, hzk⟩ := List.mem_map.mp h2
      rw [← hzk]
      exact le_of_lt (hwf.2.2.2.2 z hz)
  · rw [hall]
    exact ⟨le_refl _, rfl, Or.inl ⟨rfl, by omega⟩⟩

theorem get_result_tracks {S : Type} (blank : Nat × S) (hblank : blank.1 = 0)
    (P : S → S → S) (compute_seed_hash : Nat → Nat) (u : tuple_union S)
    (th0 : Nat) (L : List (Nat × S)) (ordered : Bool)
    (h : tracks P u.state_.union_theta_ th0 u.state_.table_ L) :
    ∀ r, r = tuple_union.get_result blank compute_seed_hash u ordered →
      is_cut (2 ^ u.state_.table_.lg_nom_size_) (key_set L) (min u.state_.union_theta_ th0)
        r.theta_ ∧
      r.seed_hash_ = compute_seed_hash u.state_.table_.seed_ ∧
      (r.entries_.map Prod.fst).Nodup ∧ (∀ e ∈ r.entries_, e.1 ≠ 0) ∧
      ∀ x, entry_lookup r.entries_ x = if x < r.theta_ then absorb P x none L else none := by
  have hwf := h.1
  have hle0 := h.2.2.1
  have hI1 := h.2.2.2.1
  have hI3 := h.2.2.2.2
  obtain ⟨c1, c2, c3⟩ := result_table_spec blank hblank u hwf
  have hnd : ((u.state_.table_.occupied Prod.fst).map Prod.fst).Nodup := hwf.2.2.2.1
  have hth : tuple_union.result_theta blank u =
      min u.state_.union_theta_ (tuple_union.result_table blank u).theta_ := by
    unfold tuple_union.result_theta
    rw [min_eq_right c1]
  intro r hr
  have hrth : r.theta_ = min u.state_.union_theta_ (tuple_union.result_table blank u).theta_ := by
    rw [hr, ← hth]
    rfl
  have hperm : r.entries_.Perm ((u.state_.table_.occupied Prod.fst).filter
      (fun e => e.1 < r.theta_)) := by
    have hfil : ((tuple_union.result_table blank u).occupied Prod.fst).filter
        (fun e => e.1 < tuple_union.result_theta blank u) =
        (u.state_.table_.occupied Prod.fst).filter (fun e => e.1 < r.theta_) := by
      rw [c2, List.filter_filter, hth, hrth]
      apply List.filter_congr
      intro e _
      by_cases hlt : e.1 < min u.state_.union_theta_ (tuple_union.result_table blank u).theta_
      · have : e.1 < (tuple_union.result_table blank u).theta_ :=
          lt_of_lt_of_le hlt (min_le_right _ _)
        simp [hlt, this]
      · simp [hlt]
    rw [← hfil, hr]
    unfold tuple_union.get_result
    cases ordered
    · simp only [Bool.false_eq_true, if_false]
      exact List.Perm.refl _
    · simp only [if_true]
      exact List.perm_insertionSort _ _
  have hnd1 : (((u.state_.table_.occupied Prod.fst).filter
      (fun e => e.1 < r.theta_)).map Prod.fst).Nodup :=
    (List.Sublist.map Prod.fst (List.filter_sublist _)).nodup hnd
  have hnd2 : (r.entries_.map Prod.fst).Nodup := (hperm.map Prod.fst).nodup_iff.mpr hnd1
  have hle : r.theta_ ≤ u.state_.table_.theta_ := by
    rw [hrth]
    exact (min_le_right _ _).trans c1
  refine ⟨?_, by rw [hr]; rfl, hnd2, ?_, ?_⟩
  · -- the cut
    rw [hrth]
    rcases c3 with ⟨e1, e2⟩ | ⟨e1, e2⟩
    · rw [e1]
      have hlen : (((u.state_.table_.occupied Prod.fst).map Prod.fst).filter
          (fun x => decide (x < u.state_.table_.theta_))).length ≤
          2 ^ u.state_.table_.lg_nom_size_ :=
        ((List.length_filter_le _ _).trans (by rw [List.length_map])).trans e2
      by_cases hc : u.state_.union_theta_ ≤ u.state_.table_.theta_
      · left
        rw [min_eq_left hc, min_eq_left (hc.trans hle0)]
        refine ⟨rfl, ?_⟩
        rw [card_key_set_below P _ th0 _ L h _ (le_refl _) hc]
        exact ((List.length_filter_le _ _).trans (by rw [List.length_map])).trans e2
      · have hlt : u.state_.table_.theta_ < u.state_.union_theta_ := by omega
        rw [min_eq_right (le_of_lt hlt)]
        by_cases heq : u.state_.table_.theta_ = th0
        · left
          rw [← heq, min_eq_right (le_of_lt hlt)]
          refine ⟨rfl, ?_⟩
          rw [card_key_set_below P _ th0 _ L h _ (le_of_lt hlt) (le_refl _)]
          exact hlen
        · right
          rcases hI3 hlt with i0 | ⟨i1, i2⟩
          · exact absurd i0 heq
          · refine ⟨i1, lt_min hlt (lt_of_le_of_ne hle0 heq), ?_⟩
            rw [card_key_set_below P _ th0 _ L h _ (le_of_lt hlt) (le_refl _)] at i2 ⊢
            omega
    · have hlt2 : (tuple_union.result_table blank u).theta_ < u.state_.table_.theta_ := by
        obtain ⟨z, hz, hzk⟩ := List.mem_map.mp e1
        rw [← hzk]
        exact hwf.2.2.2.2 z hz
      by_cases hc : u.state_.union_theta_ ≤ (tuple_union.result_table blank u).theta_
      · left
        rw [min_eq_left hc, min_eq_left (by omega)]
        refine ⟨rfl, ?_⟩
        rw [card_key_set_below P _ th0 _ L h _ (le_refl _) (hc.trans c1), ← e2]
        apply List.Sublist.length_le
        apply List.monotone_filter_right
        intro x hx
        simp only [decide_eq_true_eq] at hx ⊢
        omega
      · right
        have hlt : (tuple_union.result_table blank u).theta_ < u.state_.union_theta_ := by omega
        rw [min_eq_right (le_of_lt hlt)]
        refine ⟨?_, lt_min hlt (by omega), ?_⟩
        · rw [mem_key_set_iff_absorb P, ← hI1 _ hlt hlt2, entry_lookup_isSome_iff]
          obtain ⟨z, hz, hzk⟩ := List.mem_map.mp e1
          exact ⟨z, hz, hzk⟩
        · rw [card_key_set_below P _ th0 _ L h _ (le_of_lt hlt) c1, e2]
  · intro e he
    have h1 := List.mem_of_mem_filter (hperm.mem_iff.mp he)
    exact mem_theta_iterator_ne_zero Prod.fst _ _ h1
  · intro x
    rw [entry_lookup_perm _ _ hnd2 hperm x]
    have hf := entry_lookup_filter (fun k => decide (k < r.theta_))
      (u.state_.table_.occupied Prod.fst) x
    rw [hf]
    simp only [decide_eq_true_eq]
    by_cases hx : x < r.theta_
    · rw [if_pos hx, if_pos hx]
      exact hI1 x (by rw [hrth] at hx; exact lt_of_lt_of_le hx (min_le_left _ _)) (by omega)
    · rw [if_neg hx, if_neg hx]

theorem union_two_spec {S : Type} (blank : Nat × S) (hblank : blank.1 = 0)
    (threshold : Nat → Nat) (hthr : ∀ c, 0 < c → threshold c < c) (P : S → S → S)
    (compute_seed_hash : Nat → Nat) (u : tuple_union S) (A B : tuple_sketch S) (ordered : Bool)
    (hwf : u.state_.table_.wf Prod.fst) (hrf : 1 ≤ u.state_.table_.rf_)
    (hfresh : u.state_.table_.num_entries_ = 0)
    (hsA : A.get_seed_hash = compute_seed_hash u.state_.table_.seed_)
    (hsB : B.get_seed_hash = compute_seed_hash u.state_.table_.seed_)
    (hkA : ∀ e ∈ A.entries, e.1 ≠ 0) (hkB : ∀ e ∈ B.entries, e.1 ≠ 0) :
    ∃ r, tuple_union.result_of blank threshold P compute_seed_hash u [A, B] ordered = .ok r ∧
      is_cut (2 ^ u.state_.table_.lg_nom_size_) (key_set (A.entries ++ B.entries))
        (min (min (min u.state_.union_theta_ A.get_theta64) B.get_theta64)
          u.state_.table_.theta_) r.theta_ ∧
      r.seed_hash_ = compute_seed_hash u.state_.table_.seed_ ∧
      (r.entries_.map Prod.fst).Nodup ∧ (∀ e ∈ r.entries_, e.1 ≠ 0) ∧
      ∀ x, entry_lookup r.entries_ x =
        if x < r.theta_ then absorb P x none (A.entries ++ B.entries) else none := by
  have h0 := tracks_fresh P u.state_.union_theta_ u.state_.table_ hwf hrf hfresh
  obtain ⟨u1, a1, a2, a3, a4, a5, -⟩ := tuple_union_update_tracks blank hblank threshold hthr P
    compute_seed_hash u A _ [] h0 hsA hkA
  rw [List.nil_append] at a2
  obtain ⟨u2, b1, b2, b3, b4, b5, -⟩ := tuple_union_update_tracks blank hblank threshold hthr P
    compute_seed_hash u1 B _ A.entries a2 (by rw [a5]; exact hsB) hkB
  obtain ⟨c1, c2, c3, c4, c5⟩ := get_result_tracks blank hblank P compute_seed_hash u2 _
    (A.entries ++ B.entries) ordered b2 _ rfl
  rw [b3, a3, b4, a4] at c1
  rw [b5, a5] at c2
  exact ⟨_, result_of_two blank threshold P compute_seed_hash u u1 u2 A B ordered a1 b1, c1, c2,
    c3, c4, c5⟩

theorem key_set_of_lookup {S : Type} (P : S → S → S) (l L : List (Nat × S)) (c : Nat)
    (h : ∀ x, entry_lookup l x = if x < c then absorb P x none L else none) :
    key_set l = (key_set L).filter (fun x => x < c) := by
  ext x
  rw [Finset.mem_filter, mem_key_set_iff_absorb P x L, mem_key_set]
  have h1 := entry_lookup_isSome_iff l x
  have h2 := h x
  constructor
  · intro hx
    obtain ⟨z, hz, hzx⟩ := List.mem_map.mp hx
    have h3 := h1.mpr ⟨z, hz, hzx⟩
    by_cases hc : x < c
    · rw [h2, if_pos hc] at h3
      exact ⟨h3, hc⟩
    · rw [h2, if_neg hc] at h3
      simp at h3
  · rintro ⟨hx, hc⟩
    have h4 : entry_lookup l x = absorb P x none L := by rw [h2, if_pos hc]
    rw [← h4] at hx
    obtain ⟨z, hz, hzx⟩ := h1.mp hx
    exact List.mem_map.mpr ⟨z, hz, hzx⟩

theorem union_commutes {S : Type} [AddCommMonoid S] (blank : Nat × S) (hblank : blank.1 = 0)
    (threshold : Nat → Nat) (hthr : ∀ c, 0 < c → threshold c < c) (P : S → S → S)
    (compute_seed_hash : Nat → Nat) (MAX_THETA : Nat) (u : tuple_union S)
    (A B : tuple_sketch S) (ordered : Bool)
    (hwf : u.state_.table_.wf Prod.fst) (hrf : 1 ≤ u.state_.table_.rf_)
    (hfresh : u.state_.table_.num_entries_ = 0)
    (hsA : A.get_seed_hash = compute_seed_hash u.state_.table_.seed_)
    (hsB : B.get_seed_hash = compute_seed_hash u.state_.table_.seed_)
    (hkA : ∀ e ∈ A.entries, e.1 ≠ 0) (hkB : ∀ e ∈ B.entries, e.1 ≠ 0) :
    ∃ r1 r2,
      tuple_union.result_of blank threshold P compute_seed_hash u [A, B] ordered = .ok r1 ∧
      tuple_union.result_of blank threshold P compute_seed_hash u [B, A] ordered = .ok r2 ∧
      r1.theta_ = r2.theta_ ∧
      (r1.entries_.map Prod.fst).Perm (r2.entries_.map Prod.fst) ∧
      r1.get_estimate MAX_THETA = r2.get_estimate MAX_THETA ∧
      ((∀ a b, P a b = a + b) → r1.entries_.Perm r2.entries_) := by
  obtain ⟨r1, a1, a2, -, a4, -, a7⟩ := union_two_spec blank hblank threshold hthr P
    compute_seed_hash u A B ordered hwf hrf hfresh hsA hsB hkA hkB
  obtain ⟨r2, b1, b2, -, b4, -, b7⟩ := union_two_spec blank hblank threshold hthr P
    compute_seed_hash u B A ordered hwf hrf hfresh hsB hsA hkB hkA
  have hR : min (min u.state_.union_theta_ B.get_theta64) A.get_theta64 =
      min (min u.state_.union_theta_ A.get_theta64) B.get_theta64 := by
    rw [min_assoc, min_comm B.get_theta64, ← min_assoc]
  have hF : key_set (B.entries ++ A.entries) = key_set (A.entries ++ B.entries) := by
    rw [key_set_append, key_set_append, Finset.union_comm]
  rw [hR, hF] at b2
  have hθ : r1.theta_ = r2.theta_ := is_cut_unique _ _ _ _ _ a2 b2
  rw [← hθ] at b7
  have hkeys : (r1.entries_.map Prod.fst).Perm (r2.entries_.map Prod.fst) := by
    refine keys_perm_of_entry_lookup _ _ a4 b4 (fun k => ?_)
    rw [a7 k, b7 k]
    split_ifs with hk
    · rw [Bool.eq_iff_iff, absorb_isSome, absorb_isSome]
      simp only [List.map_append, List.mem_append]
      tauto
    · rfl
  refine ⟨r1, r2, a1, b1, hθ, hkeys, ?_, ?_⟩
  · have hlen : r1.entries_.length = r2.entries_.length := by
      simpa using hkeys.length_eq
    unfold compact_tuple_sketch.get_estimate
    rw [hlen, hθ]
  · intro hadd
    refine perm_of_entry_lookup _ _ a4 b4 (fun k => ?_)
    rw [a7 k, b7 k, absorb_add P hadd, absorb_add P hadd, summary_total_append,
      summary_total_append, add_comm (summary_total k A.entries)]
    simp only [List.map_append, List.mem_append, or_comm]

theorem absorb_regroup_isSome {S : Type} (P : S → S → S) (k : Nat) (A BC : List (Nat × S)) :
    (absorb P k none (A ++ BC)).isSome =
      ((absorb P k none BC).elim (absorb P k none A)
        (fun v => some (merge_value P (absorb P k none A) v))).isSome := by
  rw [Bool.eq_iff_iff, absorb_isSome]
  have hx := absorb_isSome P k BC none
  have hy := absorb_isSome P k A none
  cases hbc : absorb P k none BC with
  | none =>
    rw [hbc] at hx
    simp only [Option.isSome_none, Bool.false_eq_true, false_or, false_iff] at hx
    simp only [Option.elim, hy, Option.isSome_none, Bool.false_eq_true, false_or,
      List.map_append, List.mem_append] at hx ⊢
    tauto
  | some v =>
    rw [hbc] at hx
    simp only [Option.isSome_some, true_iff, Option.isSome_none, Bool.false_eq_true,
      false_or] at hx
    simp only [Option.elim, List.map_append, List.mem_append, Option.isSome_some,
      Option.isSome_none, Bool.false_eq_true, false_or] at hx ⊢
    tauto

theorem absorb_regroup_add {S : Type} [AddCommMonoid S] (P : S → S → S)
    (hadd : ∀ a b, P a b = a + b) (k : Nat) (A BC : List (Nat × S)) :
    absorb P k none (A ++ BC) =
      (absorb P k none BC).elim (absorb P k none A)
        (fun v => some (merge_value P (absorb P k none A) v)) := by
  rw [absorb_add P hadd, absorb_add P hadd, absorb_add P hadd, summary_total_append]
  have hABC : k ∈ (A ++ BC).map Prod.fst ↔ k ∈ A.map Prod.fst ∨ k ∈ BC.map Prod.fst := by
    simp only [List.map_append, List.mem_append]
  simp only [Bool.false_eq_true, false_or, Option.getD_none, zero_add, hABC,
    Option.isSome_none]
  by_cases hA : k ∈ A.map Prod.fst
  · by_cases hBC : k ∈ BC.map Prod.fst
    · rw [if_pos (Or.inl hA), if_pos hBC, if_pos hA]
      simp only [Option.elim, merge_value, hadd]
    · rw [if_pos (Or.inl hA), if_neg hBC, if_pos hA, summary_total_of_not_mem k _ hBC,
        add_zero]
      rfl
  · by_cases hBC : k ∈ BC.map Prod.fst
    · rw [if_pos (Or.inr hBC), if_pos hBC, if_neg hA, summary_total_of_not_mem k _ hA,
        zero_add]
      rfl
    · rw [if_neg (fun h => h.elim hA hBC), if_neg hBC, if_neg hA]
      rfl

theorem min_regroup (a b c d e : Nat) :
    min (min (min (min a b) c) e) (min a d) = min (min (min (min a d) b) e) c := by
  omega

theorem min_drop_left (a b c e : Nat) (h : b ≤ a) (he : b ≤ e) :
    min (min (min a b) c) e = min b c := by
  omega

theorem min_drop_right (a b c e : Nat) (he : c ≤ e) :
    min (min (min a b) c) e = min c (min a b) := by
  omega

theorem union_associates {S : Type} [AddCommMonoid S] (blank : Nat × S) (hblank : blank.1 = 0)
    (threshold : Nat → Nat) (hthr : ∀ c, 0 < c → threshold c < c) (P : S → S → S)
    (compute_seed_hash : Nat → Nat) (u : tuple_union S)
    (A B C : tuple_sketch S) (inner outer : Bool)
    (hwf : u.state_.table_.wf Prod.fst) (hrf : 1 ≤ u.state_.table_.rf_)
    (hfresh : u.state_.table_.num_entries_ = 0)
    (hsA : A.get_seed_hash = compute_seed_hash u.state_.table_.seed_)
    (hsB : B.get_seed_hash = compute_seed_hash u.state_.table_.seed_)
    (hsC : C.get_seed_hash = compute_seed_hash u.state_.table_.seed_)
    (hkA : ∀ e ∈ A.entries, e.1 ≠ 0) (hkB : ∀ e ∈ B.entries, e.1 ≠ 0)
    (hkC : ∀ e ∈ C.entries, e.1 ≠ 0) :
    ∃ rab rbc r1 r2,
      tuple_union.result_of blank threshold P compute_seed_hash u [A, B] inner = .ok rab ∧
      tuple_union.result_of blank threshold P compute_seed_hash u [B, C] inner = .ok rbc ∧
      tuple_union.result_of blank threshold P compute_seed_hash u [rab.to_sketch, C] outer =
        .ok r1 ∧
      tuple_union.result_of blank threshold P compute_seed_hash u [A, rbc.to_sketch] outer =
        .ok r2 ∧
      r1.theta_ = r2.theta_ ∧
      (r1.entries_.map Prod.fst).Perm (r2.entries_.map Prod.fst) ∧
      ((∀ a b, P a b = a + b) → r1.entries_.Perm r2.entries_) := by
  obtain ⟨rab, a1, a2, a3, a4, a5, a7⟩ := union_two_spec blank hblank threshold hthr P
    compute_seed_hash u A B inner hwf hrf hfresh hsA hsB hkA hkB
  obtain ⟨rbc, b1, b2, b3, b4, b5, b7⟩ := union_two_spec blank hblank threshold hthr P
    compute_seed_hash u B C inner hwf hrf hfresh hsB hsC hkB hkC
  have eab := to_sketch_entries rab a5
  have ebc := to_sketch_entries rbc b5
  obtain ⟨r1, c1, c2, -, c4, -, c7⟩ := union_two_spec blank hblank threshold hthr P
    compute_seed_hash u rab.to_sketch C outer hwf hrf hfresh a3 hsC
    (by rw [eab]; exact a5) hkC
  obtain ⟨r2, d1, d2, -, d4, -, d7⟩ := union_two_spec blank hblank threshold hthr P
    compute_seed_hash u A rbc.to_sketch outer hwf hrf hfresh hsA b3 hkA
    (by rw [ebc]; exact b5)
  have hab : rab.to_sketch.get_theta64 = rab.theta_ := rfl
  have hbc : rbc.to_sketch.get_theta64 = rbc.theta_ := rfl
  rw [hab, eab] at c2
  rw [eab] at c7
  rw [hbc, ebc] at d2
  rw [ebc] at d7
  have lab := is_cut_le _ _ _ _ a2
  have lbc := is_cut_le _ _ _ _ b2
  have hab0 : rab.theta_ ≤ u.state_.union_theta_ :=
    lab.trans ((min_le_left _ _).trans ((min_le_left _ _).trans (min_le_left _ _)))
  have hab1 : rab.theta_ ≤ u.state_.table_.theta_ := lab.trans (min_le_right _ _)
  have hbc1 : rbc.theta_ ≤ u.state_.table_.theta_ := lbc.trans (min_le_right _ _)
  -- the theta of both results is the cut of all hashes
  have e1 : min (min (min u.state_.union_theta_ rab.theta_) C.get_theta64)
      u.state_.table_.theta_ = min rab.theta_ C.get_theta64 :=
    min_drop_left _ _ _ _ hab0 hab1
  have e2 : min (min (min u.state_.union_theta_ A.get_theta64) rbc.theta_)
      u.state_.table_.theta_ = min rbc.theta_ (min u.state_.union_theta_ A.get_theta64) :=
    min_drop_right _ _ _ _ hbc1
  rw [e1, key_set_append, key_set_of_lookup P rab.entries_ _ _ a7] at c2
  rw [e2, key_set_append, key_set_of_lookup P rbc.entries_ _ _ b7, Finset.union_comm] at d2
  have l1 : r1.theta_ ≤ rab.theta_ := (is_cut_le _ _ _ _ c2).trans (min_le_left _ _)
  have l2 : r2.theta_ ≤ rbc.theta_ := (is_cut_le _ _ _ _ d2).trans (min_le_left _ _)
  have f1 := is_cut_of_truncated _ _ _ _ _ _ _ a2 c2
  have f2 := is_cut_of_truncated _ _ _ _ _ _ _ b2 d2
  have hR : min (min (min (min u.state_.union_theta_ B.get_theta64) C.get_theta64)
      u.state_.table_.theta_) (min u.state_.union_theta_ A.get_theta64) =
      min (min (min (min u.state_.union_theta_ A.get_theta64) B.get_theta64)
        u.state_.table_.theta_) C.get_theta64 :=
    min_regroup _ _ _ _ _
  have hF : key_set (B.entries ++ C.entries) ∪ key_set A.entries =
      key_set (A.entries ++ B.entries) ∪ key_set C.entries := by
    rw [key_set_append, key_set_append]
    ext x
    simp only [Finset.mem_union]
    tauto
  rw [hR, hF] at f2
  have hθ : r1.theta_ = r2.theta_ := is_cut_unique _ _ _ _ _ f1 f2
  -- both results as maps
  have h1 : ∀ k, k < r1.theta_ → entry_lookup r1.entries_ k =
      absorb P k none (A.entries ++ (B.entries ++ C.entries)) := by
    intro k hk
    rw [c7 k, if_pos hk, absorb_append, absorb_none_nodup P k rab.entries_ a4, a7 k,
      if_pos (lt_of_lt_of_le hk l1), ← absorb_append, List.append_assoc]
  have h2 : ∀ k, k < r1.theta_ → entry_lookup r2.entries_ k =
      (absorb P k none (B.entries ++ C.entries)).elim (absorb P k none A.entries)
        (fun v => some (merge_value P (absorb P k none A.entries) v)) := by
    intro k hk
    rw [hθ] at hk
    rw [d7 k, if_pos hk, absorb_append, absorb_nodup P k rbc.entries_ b4, b7 k,
      if_pos (lt_of_lt_of_le hk l2)]
  have h1n : ∀ k, ¬ k < r1.theta_ → entry_lookup r1.entries_ k = none := by
    intro k hk
    rw [c7 k, if_neg hk]
  have h2n : ∀ k, ¬ k < r1.theta_ → entry_lookup r2.entries_ k = none := by
    intro k hk
    rw [hθ] at hk
    rw [d7 k, if_neg hk]
  refine ⟨rab, rbc, r1, r2, a1, b1, c1, d1, hθ, ?_, ?_⟩
  · refine keys_perm_of_entry_lookup _ _ c4 d4 (fun k => ?_)
    by_cases hk : k < r1.theta_
    · rw [h1 k hk, h2 k hk]
      exact absorb_regroup_isSome P k A.entries (B.entries ++ C.entries)
    · rw [h1n k hk, h2n k hk]
  · intro hadd
    refine perm_of_entry_lookup _ _ c4 d4 (fun k => ?_)
    by_cases hk : k < r1.theta_
    · rw [h1 k hk, h2 k hk]
      exact absorb_regroup_add P hadd k A.entries (B.entries ++ C.entries)
    · rw [h1n k hk, h2n k hk]

/-- C15: let a union have ingested nothing, with a working table that satisfies its class
invariant and grows by a factor of at least two, and let the sketches A, B and C have its seed
fingerprint and non-zero hashes. Then the results of ingesting A then B and of ingesting B then A
have the same theta, the same set of retained hashes and the same estimate; and the result of
ingesting the result of A and B followed by C has the same theta and the same set of retained
hashes as the result of ingesting A followed by the result of B and C. If the policy is addition
on the Summaries, the results also hold the same Summary for every hash: their entry sequences
are permutations of each other. -/
theorem C15_union_order_independent {S : Type} [AddCommMonoid S] (blank : Nat × S)
    (hblank : blank.1 = 0) (threshold : Nat → Nat) (hthr : ∀ c, 0 < c → threshold c < c)
    (P : S → S → S) (compute_seed_hash : Nat → Nat) (MAX_THETA : Nat) (u : tuple_union S)
    (A B C : tuple_sketch S) (inner outer : Bool)
    (hwf : u.state_.table_.wf Prod.fst) (hrf : 1 ≤ u.state_.table_.rf_)
    (hfresh : u.state_.table_.num_entries_ = 0)
    (hsA : A.get_seed_hash = compute_seed_hash u.state_.table_.seed_)
    (hsB : B.get_seed_hash = compute_seed_hash u.state_.table_.seed_)
    (hsC : C.get_seed_hash = compute_seed_hash u.state_.table_.seed_)
    (hkA : ∀ e ∈ A.entries, e.1 ≠ 0) (hkB : ∀ e ∈ B.entries, e.1 ≠ 0)
    (hkC : ∀ e ∈ C.entries, e.1 ≠ 0) :
    (∃ r1 r2,
      tuple_union.result_of blank threshold P compute_seed_hash u [A, B] outer = .ok r1 ∧
      tuple_union.result_of blank threshold P compute_seed_hash u [B, A] outer = .ok r2 ∧
      r1.theta_ = r2.theta_ ∧
      (r1.entries_.map Prod.fst).Perm (r2.entries_.map Prod.fst) ∧
      r1.get_estimate MAX_THETA = r2.get_estimate MAX_THETA ∧
      ((∀ a b, P a b = a + b) → r1.entries_.Perm r2.entries_)) ∧
    ∃ rab rbc r1 r2,
      tuple_union.result_of blank threshold P compute_seed_hash u [A, B] inner = .ok rab ∧
      tuple_union.result_of blank threshold P compute_seed_hash u [B, C] inner = .ok rbc ∧
      tuple_union.result_of blank threshold P compute_seed_hash u [rab.to_sketch, C] outer =
        .ok r1 ∧
      tuple_union.result_of blank threshold P compute_seed_hash u [A, rbc.to_sketch] outer =
        .ok r2 ∧
      r1.theta_ = r2.theta_ ∧
      (r1.entries_.map Prod.fst).Perm (r2.entries_.map Prod.fst) ∧
      ((∀ a b, P a b = a + b) → r1.entries_.Perm r2.entries_) :=
  ⟨union_commutes blank hblank threshold hthr P compute_seed_hash MAX_THETA u A B outer hwf hrf
      hfresh hsA hsB hkA hkB,
    union_associates blank hblank threshold hthr P compute_seed_hash u A B C inner outer hwf hrf
      hfresh hsA hsB hsC hkA hkB hkC⟩

theorem sample_union_wf : sample_union.state_.table_.wf Prod.fst := by
  unfold theta_update_sketch_base.wf
  decide

/-- C15 at the sample union of nominal capacity 2 with four slots: the sketches are the one with
the hash 5, the one with the hashes 4, 3, 2, 1 and the one with the hashes 3 and 5 under theta 9;
the policy is the default one, addition. Ingesting the first two rebuilds the working table in
either order, and either order returns theta 3 with the hashes 1 and 2. -/
theorem C15_union_order_independent_witness :
    tuple_union.result_of (0, 0) sample_threshold default_union_policy sample_seed_hash
        sample_union [sample_tuple_high, sample_tuple_low] true = .ok sample_union_result ∧
    tuple_union.result_of (0, 0) sample_threshold default_union_policy sample_seed_hash
        sample_union [sample_tuple_low, sample_tuple_high] true = .ok sample_union_result ∧
    (∃ r1 r2,
      tuple_union.result_of (0, 0) sample_threshold default_union_policy sample_seed_hash
        sample_union [sample_tuple_high, sample_tuple_low] true = .ok r1 ∧
      tuple_union.result_of (0, 0) sample_threshold default_union_policy sample_seed_hash
        sample_union [sample_tuple_low, sample_tuple_high] true = .ok r2 ∧
      r1.theta_ = r2.theta_ ∧
      (r1.entries_.map Prod.fst).Perm (r2.entries_.map Prod.fst) ∧
      r1.get_estimate (2 ^ 63 - 1) = r2.get_estimate (2 ^ 63 - 1) ∧
      ((∀ a b : Nat, default_union_policy a b = a + b) → r1.entries_.Perm r2.entries_)) ∧
    ∃ rab rbc r1 r2,
      tuple_union.result_of (0, 0) sample_threshold default_union_policy sample_seed_hash
        sample_union [sample_tuple_high, sample_tuple_low] false = .ok rab ∧
      tuple_union.result_of (0, 0) sample_threshold default_union_policy sample_seed_hash
        sample_union [sample_tuple_low, sample_tuple_sketch] false = .ok rbc ∧
      tuple_union.result_of (0, 0) sample_threshold default_union_policy sample_seed_hash
        sample_union [rab.to_sketch, sample_tuple_sketch] true = .ok r1 ∧
      tuple_union.result_of (0, 0) sample_threshold default_union_policy sample_seed_hash
        sample_union [sample_tuple_high, rbc.to_sketch] true = .ok r2 ∧
      r1.theta_ = r2.theta_ ∧
      (r1.entries_.map Prod.fst).Perm (r2.entries_.map Prod.fst) ∧
      ((∀ a b : Nat, default_union_policy a b = a + b) → r1.entries_.Perm r2.entries_) :=
  ⟨rfl, rfl,
    C15_union_order_independent (0, 0) rfl sample_threshold
      (by intro c hc; unfold sample_threshold; omega) default_union_policy sample_seed_hash
      (2 ^ 63 - 1) sample_union sample_tuple_high sample_tuple_low sample_tuple_sketch
      false true sample_union_wf (by decide) rfl rfl rfl rfl (by decide) (by decide)
      (by decide)⟩

end datasketches
